import Mathlib

/-!
Shallow embedding of the copy-on-write B-tree core in `src/btree.rs`
(constant `BTREE_ORDER = 3`), together with proofs about its insertion,
deletion, lookup and range-iteration operations.

Modelling conventions:

* A page is modelled by the algebraic content a reader can extract from it
  through the accessors (`LeafAccessor`, `InternalAccessor`): a leaf holds a
  lesser entry and an optional greater entry; an internal page holds the
  `(child_page(i), separator(i))` pairs written by `InternalBuilder`
  (`write_nth_key` in increasing order) plus the final child.  The on-page
  byte layout of a leaf is reproduced separately by `node_bytes` so that
  claims about value offsets can be stated against the raw bytes.
* The page manager (`TransactionalMemory`) is an append-only list of nodes:
  `allocate` returns the next free page number; pages are never mutated,
  matching the copy-on-write discipline of the source.
* Machine integers (`u64`) are modelled as `Nat`; byte strings as `List Nat`.
* The user key comparator `K::compare` is a parameter
  `keyCmp : List Nat → List Nat → Ordering`; the derived `Ord` instance on
  `(u64, Vec<u8>)` used by `sort_by_key` in `split_index` / `merge_index` is
  the fixed lexicographic byte order, exactly as in Rust.
* Recursive tree walks take an explicit fuel argument; it is irrelevant as
  soon as it exceeds the tree height, which well-formedness bounds.
-/

namespace Redb

/-- `BTREE_ORDER` from the source. -/
def BTREE_ORDER : Nat := 3

/-- A logical entry `(table_id, key, value)` as stored in a leaf. -/
structure Entry where
  tableId : Nat
  key : List Nat
  value : List Nat
deriving DecidableEq, Repr

/-- A `(table_id, key)` pair: the unit of comparison and of separators. -/
structure TK where
  tableId : Nat
  key : List Nat
deriving DecidableEq, Repr

def Entry.tk (e : Entry) : TK := ⟨e.tableId, e.key⟩

/-- A node as read through the page accessors: leaf pages hold a lesser entry
and an optional greater entry; internal pages hold the list of
`(child_page i, separator i)` pairs for the occupied separator slots, plus the
final child page (`child_page` at the first absent separator). -/
inductive Node
  | leaf (lesser : Entry) (greater : Option Entry)
  | internal (pairs : List (Nat × TK)) (last : Nat)
deriving DecidableEq, Repr

/-- The page store: `TransactionalMemory` restricted to what the tree uses.
Page numbers are indices; `allocate` appends (copy-on-write: no page is ever
mutated after being handed off). -/
abbrev Store : Type := List Node

def Store.size (s : Store) : Nat := List.length s

/-- `manager.get_page`. Out-of-range page numbers never occur on the paths we
reason about; they default to a trivial leaf. -/
def get_page (s : Store) (p : Nat) : Node := s.getD p (.leaf ⟨0, [], []⟩ none)

/-- `manager.allocate` followed by writing the node: returns the fresh page
number and the extended store. -/
def allocate (s : Store) (n : Node) : Nat × Store := (s.size, s ++ [n])

/-- `u64::cmp`. -/
def natCmp (a b : Nat) : Ordering :=
  if a < b then .lt else if a = b then .eq else .gt

/-- The canonical `RedbKey` comparator for byte strings: lexicographic order,
also the derived `Ord` on `Vec<u8>` used by `sort_by_key`. -/
def lexCmp : List Nat → List Nat → Ordering
  | [], [] => .eq
  | [], _ :: _ => .lt
  | _ :: _, [] => .gt
  | a :: as_, b :: bs =>
    match natCmp a b with
    | .eq => lexCmp as_ bs
    | o => o

def is_lt : Ordering → Bool | .lt => true | _ => false
def is_le : Ordering → Bool | .gt => false | _ => true
def is_eq : Ordering → Bool | .eq => true | _ => false
def is_ne : Ordering → Bool | .eq => false | _ => true
def is_ge : Ordering → Bool | .lt => false | _ => true
def is_gt : Ordering → Bool | .gt => true | _ => false

/-- `cmp_keys`: compare table ids, then defer to the key comparator. -/
def cmp_keys (keyCmp : List Nat → List Nat → Ordering)
    (table1 : Nat) (key1 : List Nat) (table2 : Nat) (key2 : List Nat) : Ordering :=
  match natCmp table1 table2 with
  | .lt => .lt
  | .eq => keyCmp key1 key2
  | .gt => .gt

/-- `EntryAccessor::compare`, with the entry on the left. -/
def entry_compare (keyCmp : List Nat → List Nat → Ordering)
    (e : Entry) (table : Nat) (key : List Nat) : Ordering :=
  cmp_keys keyCmp e.tableId e.key table key

def tk_cmp (keyCmp : List Nat → List Nat → Ordering) (a b : TK) : Ordering :=
  cmp_keys keyCmp a.tableId a.key b.tableId b.key

/-- The derived Rust `Ord` on `(u64, Vec<u8>)` (used by `sort_by_key`),
as a boolean `≤`. -/
def tk_lex_le (a b : TK) : Bool := is_le (tk_cmp lexCmp a b)

/-! ### Entry codec and on-page leaf layout (§3 of the spec) -/

/-- `EntryAccessor::value_offset`: 16 + key_len + 8. -/
def Entry.value_offset (e : Entry) : Nat := 16 + e.key.length + 8

/-- `EntryAccessor::raw_len`: 16 + key_len + 8 + value_len. -/
def Entry.raw_len (e : Entry) : Nat := 16 + e.key.length + 8 + e.value.length

/-- Big-endian `u64` encoding (8 bytes). -/
def be8 (n : Nat) : List Nat :=
  [n / 2 ^ 56 % 256, n / 2 ^ 48 % 256, n / 2 ^ 40 % 256, n / 2 ^ 32 % 256,
   n / 2 ^ 24 % 256, n / 2 ^ 16 % 256, n / 2 ^ 8 % 256, n % 256]

/-- The wire format of an entry (`EntryMutator`):
key_len, table_id, key, value_len, value. -/
def encode_entry (e : Entry) : List Nat :=
  be8 e.key.length ++ be8 e.tableId ++ e.key ++ be8 e.value.length ++ e.value

/-- The bytes of a page as written by the builders: a leaf is the tag byte
`1`, the lesser entry, and either the greater entry or the absent sentinel
(key_len = 0); an internal page is the tag byte `2` followed by the fixed
header (child page numbers, separator table ids, key lens, key offsets) and
the concatenated separator keys. -/
def node_bytes : Node → List Nat
  | .leaf lesser greater =>
    1 :: (encode_entry lesser ++ match greater with
      | some g => encode_entry g
      | none => be8 0)
  | .internal pairs last =>
    let children := pairs.map Prod.fst ++ [last]
    let childSlots := (List.range BTREE_ORDER).map fun i => be8 (children.getD i 0)
    let seps := pairs.map Prod.snd
    let tableSlots := (List.range (BTREE_ORDER - 1)).map fun i =>
      be8 ((seps.getD i ⟨0, []⟩).tableId)
    let lenSlots := (List.range (BTREE_ORDER - 1)).map fun i =>
      be8 ((seps.map (fun sep => sep.key.length)).getD i 0)
    let base := 1 + 8 * BTREE_ORDER + 8 * (BTREE_ORDER - 1) * 3
    let offsets := (List.range (BTREE_ORDER - 1)).map fun i =>
      be8 (base + ((seps.take i).map (fun sep => sep.key.length)).sum)
    2 :: (childSlots.flatten ++ tableSlots.flatten ++ lenSlots.flatten ++
      offsets.flatten ++ (seps.map TK.key).flatten)

/-! ### Leaf constructors (`make_*` in the source) -/

/-- A mutable value guard (`AccessGuardMut`): the page it points into, the
byte offset of the value window, and its length. -/
structure Guard where
  page : Nat
  offset : Nat
  len : Nat
deriving DecidableEq, Repr

/-- `make_mut_single_leaf`. -/
def make_mut_single_leaf (s : Store) (table : Nat) (key value : List Nat) :
    Nat × Guard × Store :=
  let e : Entry := ⟨table, key, value⟩
  let (pn, s') := allocate s (.leaf e none)
  (pn, ⟨pn, 1 + e.value_offset, value.length⟩, s')

/-- `make_mut_double_leaf_right`: guard points at the greater entry's value. -/
def make_mut_double_leaf_right (s : Store)
    (table1 : Nat) (key1 value1 : List Nat)
    (table2 : Nat) (key2 value2 : List Nat) : Nat × Guard × Store :=
  let e1 : Entry := ⟨table1, key1, value1⟩
  let e2 : Entry := ⟨table2, key2, value2⟩
  let (pn, s') := allocate s (.leaf e1 (some e2))
  (pn, ⟨pn, (1 + e1.raw_len) + e2.value_offset, value2.length⟩, s')

/-- `make_mut_double_leaf_left`: guard points at the lesser entry's value. -/
def make_mut_double_leaf_left (s : Store)
    (table1 : Nat) (key1 value1 : List Nat)
    (table2 : Nat) (key2 value2 : List Nat) : Nat × Guard × Store :=
  let e1 : Entry := ⟨table1, key1, value1⟩
  let e2 : Entry := ⟨table2, key2, value2⟩
  let (pn, s') := allocate s (.leaf e1 (some e2))
  (pn, ⟨pn, 1 + e1.value_offset, value1.length⟩, s')

/-- `make_single_leaf`. -/
def make_single_leaf (s : Store) (table : Nat) (key value : List Nat) :
    Nat × Store :=
  allocate s (.leaf ⟨table, key, value⟩ none)

/-- `make_index`: a fresh internal page with two children separated by
`(table, key)`. -/
def make_index (s : Store) (table : Nat) (key : List Nat)
    (lte_page gt_page : Nat) : Nat × Store :=
  allocate s (.internal [(lte_page, ⟨table, key⟩)] gt_page)

/-! ### Lookup -/

/-- `InternalAccessor::child_page`. -/
def child_at (pairs : List (Nat × TK)) (last : Nat) (n : Nat) : Option Nat :=
  if n < pairs.length then (pairs.get? n).map Prod.fst
  else if n = pairs.length then some last
  else none

/-- `lookup_in_raw`: returns `(page, value offset, value length)`.  At an
internal node, descend into the child of the first separator `≥` the query
(`find?` mirrors the left-to-right loop with its first-match semantics), or
into the final child. -/
def lookup_in_raw (keyCmp : List Nat → List Nat → Ordering) :
    Nat → Store → Nat → Nat → List Nat → Option (Nat × Nat × Nat)
  | 0, _, _, _, _ => none
  | f + 1, s, p, table, query =>
    match get_page s p with
    | .leaf lesser greater =>
      match cmp_keys keyCmp table query lesser.tableId lesser.key with
      | .lt => none
      | .eq => some (p, 1 + lesser.value_offset, lesser.value.length)
      | .gt =>
        match greater with
        | some e =>
          if is_eq (entry_compare keyCmp e table query) then
            some (p, (1 + lesser.raw_len) + e.value_offset, e.value.length)
          else none
        | none => none
    | .internal pairs last =>
      match pairs.find? fun pr =>
          is_le (cmp_keys keyCmp table query pr.2.tableId pr.2.key) with
      | some (c, _) => lookup_in_raw keyCmp f s c table query
      | none => lookup_in_raw keyCmp f s last table query

/-! ### Insert -/

/-- The loop of the internal-node case of `tree_insert_helper`: walk the
`(child, separator)` pairs; at the first separator `≥` the key, recurse
(`go`) into that child and splice the result (and the split separator, if
any) into the pair list; afterwards copy the remaining pairs untouched. -/
def ins_loop (keyCmp : List Nat → List Nat → Ordering) (table : Nat)
    (key : List Nat)
    (go : Store → Nat → Nat × Option (TK × Nat) × Guard × Store) (s : Store) :
    List (Nat × TK) → List (Nat × TK) × Option Guard × Store
  | [] => ([], none, s)
  | (c, sep) :: rest =>
    if is_le (cmp_keys keyCmp table key sep.tableId sep.key) then
      match go s c with
      | (p1, some (sk, p2), g, s') => ((p1, sk) :: (p2, sep) :: rest, some g, s')
      | (p1, none, g, s') => ((p1, sep) :: rest, some g, s')
    else
      match ins_loop keyCmp table key go s rest with
      | (ps, og, s') => ((c, sep) :: ps, og, s')

/-- The tail of the internal-node case of `tree_insert_helper`: rebuild the
node from the new child list.  At most `BTREE_ORDER` children fit on one
page; with `ORDER = 3` and four children, split into two internal pages of
two children each keeping separators 0 and 2, and propagate the middle
separator (index 1) with the second page. -/
def build_insert (s : Store) (pairs : List (Nat × TK)) (last : Nat)
    (g : Guard) : Nat × Option (TK × Nat) × Guard × Store :=
  if pairs.length + 1 ≤ BTREE_ORDER then
    let (pn, s') := allocate s (.internal pairs last)
    (pn, none, g, s')
  else
    let children := pairs.map Prod.fst ++ [last]
    let seps := pairs.map Prod.snd
    let (pn1, s1) := allocate s
      (.internal [(children.getD 0 0, seps.getD 0 ⟨0, []⟩)] (children.getD 1 0))
    let (pn2, s2) := allocate s1
      (.internal [(children.getD 2 0, seps.getD 2 ⟨0, []⟩)] (children.getD 3 0))
    (pn1, some (seps.getD 1 ⟨0, []⟩, pn2), g, s2)

/-- `tree_insert_helper`: returns the new left page, the optional split
`(separator, right page)`, the guard for the written value, and the store. -/
def tree_insert_helper (keyCmp : List Nat → List Nat → Ordering) :
    Nat → Store → Nat → Nat → List Nat → List Nat →
    Nat × Option (TK × Nat) × Guard × Store
  | 0, s, p, _, _, _ => (p, none, ⟨0, 0, 0⟩, s)
  | f + 1, s, p, table, key, value =>
    match get_page s p with
    | .leaf lesser greater =>
      match greater with
      | some entry =>
        match entry_compare keyCmp entry table key with
        | .lt =>
          -- New entry goes in a new page to the right; this page is untouched.
          let left_page := p
          let (right_page, g, s') := make_mut_single_leaf s table key value
          (left_page, some (⟨entry.tableId, entry.key⟩, right_page), g, s')
        | .eq =>
          let (new_page, g, s') := make_mut_double_leaf_right s
            lesser.tableId lesser.key lesser.value table key value
          (new_page, none, g, s')
        | .gt =>
          match cmp_keys keyCmp lesser.tableId lesser.key table key with
          | .lt =>
            let (left, g, s') := make_mut_double_leaf_right s
              lesser.tableId lesser.key lesser.value table key value
            let (right, s'') := make_single_leaf s' entry.tableId entry.key entry.value
            (left, some (⟨table, key⟩, right), g, s'')
          | .eq =>
            let (new_page, g, s') := make_mut_double_leaf_left s
              table key value entry.tableId entry.key entry.value
            (new_page, none, g, s')
          | .gt =>
            let (left, g, s') := make_mut_double_leaf_left s
              table key value lesser.tableId lesser.key lesser.value
            let (right, s'') := make_single_leaf s' entry.tableId entry.key entry.value
            (left, some (⟨lesser.tableId, lesser.key⟩, right), g, s'')
      | none =>
        match cmp_keys keyCmp lesser.tableId lesser.key table key with
        | .lt =>
          let (new_page, g, s') := make_mut_double_leaf_right s
            lesser.tableId lesser.key lesser.value table key value
          (new_page, none, g, s')
        | .eq =>
          let (new_page, g, s') := make_mut_single_leaf s table key value
          (new_page, none, g, s')
        | .gt =>
          let (new_page, g, s') := make_mut_double_leaf_left s
            table key value lesser.tableId lesser.key lesser.value
          (new_page, none, g, s')
    | .internal pairs last =>
      match ins_loop keyCmp table key
          (fun st c => tree_insert_helper keyCmp f st c table key value) s pairs with
      | (pairs', some g, s') => build_insert s' pairs' last g
      | (pairs', none, _) =>
        match tree_insert_helper keyCmp f s last table key value with
        | (p1, some (sk, p2), g, s') => build_insert s' (pairs' ++ [(p1, sk)]) p2 g
        | (p1, none, g, s') => build_insert s' pairs' p1 g

/-- `tree_insert`: run the helper; on a reported split, build a new root
internal page with the two children. -/
def tree_insert (keyCmp : List Nat → List Nat → Ordering) (f : Nat) (s : Store)
    (p : Nat) (table : Nat) (key value : List Nat) : Nat × Guard × Store :=
  match tree_insert_helper keyCmp f s p table key value with
  | (page1, some (sk, page2), g, s') =>
    let (index_page, s'') := make_index s' sk.tableId sk.key page1 page2
    (index_page, g, s'')
  | (page1, none, g, s') => (page1, g, s')

/-! ### Delete -/

/-- `DeletionResult`. -/
inductive DeletionResult
  | Subtree (page : Nat)
  | PartialLeaf (entries : List Entry)
  | PartialInternal (pages : List Nat)
deriving DecidableEq, Repr

/-- `max_table_key`: descend to the rightmost leaf; take greater if present,
else lesser. -/
def max_table_key : Nat → Store → Nat → TK
  | 0, _, _ => ⟨0, []⟩
  | f + 1, s, p =>
    match get_page s p with
    | .leaf lesser greater =>
      match greater with
      | some g => g.tk
      | none => lesser.tk
    | .internal _ last => max_table_key f s last

/-- `split_leaf`: if the neighbour leaf holds two entries, emit two fresh
single-entry leaves in order; else `None`.  (The partial carry is asserted
empty in the source and ignored here.) -/
def split_leaf (s : Store) (leafp : Nat) ( _partial : List Entry) :
    Option (Nat × Nat) × Store :=
  match get_page s leafp with
  | .leaf lesser (some g) =>
    let (page1, s1) := make_single_leaf s lesser.tableId lesser.key lesser.value
    let (page2, s2) := make_single_leaf s1 g.tableId g.key g.value
    (some (page1, page2), s2)
  | _ => (none, s)

/-- `merge_leaf`: the neighbour is a single leaf and the carry is empty, so
the neighbour is reused as-is. -/
def merge_leaf (_s : Store) (leafp : Nat) ( _partial : List Entry) : Nat := leafp

/-- `pages.sort_by_key(|p| max_table_key(p))`: sort page numbers by their
maximum `(table_id, key)` under the derived lexicographic `Ord` on
`(u64, Vec<u8>)`. -/
def sort_pages (f : Nat) (s : Store) (pages : List Nat) : List Nat :=
  pages.insertionSort fun a b =>
    tk_lex_le (max_table_key f s a) (max_table_key f s b) = true

/-- `split_index`: if the neighbour internal page has `BTREE_ORDER` children,
combine them with the orphan, sort the four pages by `max_table_key` (under
the derived lexicographic `Ord`, as `sort_by_key` does), and emit two
internal pages of two children each, with separators recovered by
`max_table_key` of each left child. -/
def split_index (f : Nat) (s : Store) (index : Nat) (partial_ : List Nat) :
    Option (Nat × Nat) × Store :=
  match get_page s index with
  | .internal pairs last =>
    if pairs.length + 1 < BTREE_ORDER then (none, s)
    else
      let pages := partial_ ++ pairs.map Prod.fst ++ [last]
      let sorted := sort_pages f s pages
      let k0 := max_table_key f s (sorted.getD 0 0)
      let (page1, s1) := make_index s k0.tableId k0.key (sorted.getD 0 0) (sorted.getD 1 0)
      let k2 := max_table_key f s1 (sorted.getD 2 0)
      let (page2, s2) := make_index s1 k2.tableId k2.key (sorted.getD 2 0) (sorted.getD 3 0)
      (some (page1, page2), s2)
  | _ => (none, s)

/-- `merge_index`: combine the orphan with the neighbour's (at most
`ORDER - 1`) children into one internal page, sorted by `max_table_key`,
with separators recovered by `max_table_key` of each left child. -/
def merge_index (f : Nat) (s : Store) (index : Nat) (partial_ : List Nat) :
    Nat × Store :=
  match get_page s index with
  | .internal pairs last =>
    let pages := partial_ ++ pairs.map Prod.fst ++ [last]
    let sorted := sort_pages f s pages
    let newPairs := (List.range (sorted.length - 1)).map fun i =>
      (sorted.getD i 0, max_table_key f s (sorted.getD i 0))
    allocate s (.internal newPairs (sorted.getD (sorted.length - 1) 0))
  | _ => (0, s)

def DeletionResult.isSubtree : DeletionResult → Bool
  | .Subtree _ => true
  | _ => false

def DeletionResult.isPartialLeaf : DeletionResult → Bool
  | .PartialLeaf _ => true
  | _ => false

def DeletionResult.isPartialInternal : DeletionResult → Bool
  | .PartialInternal _ => true
  | _ => false

/-- One iteration of the `PartialLeaf` repair scan of `repair_children`
(the loop body for index `i`): a `Subtree` child looks for a `PartialLeaf`
at `i - 1` and then (regardless) at `i + 1`, repairing by `split_leaf` or
`merge_leaf`; once repaired, later subtrees pass through untouched. -/
def repair_leaf_step (children : List DeletionResult)
    (acc : List Nat × Bool × Store) (i : Nat) : List Nat × Bool × Store :=
  let (result, repaired, s) := acc
  match children.get? i with
  | some (.Subtree pn) =>
    if repaired then (result ++ [pn], true, s)
    else
      let (result, repaired, s) :=
        if 0 < i then
          match children.get? (i - 1) with
          | some (.PartialLeaf partials) =>
            match split_leaf s pn partials with
            | (some (p1, p2), s') => (result ++ [p1, p2], true, s')
            | (none, s') => (result ++ [merge_leaf s' pn partials], true, s')
          | _ => (result, repaired, s)
        else (result, repaired, s)
      match children.get? (i + 1) with
      | some (.PartialLeaf partials) =>
        match split_leaf s pn partials with
        | (some (p1, p2), s') => (result ++ [p1, p2], true, s')
        | (none, s') => (result ++ [merge_leaf s' pn partials], true, s')
      | _ => (result, repaired, s)
  | _ => (result, repaired, s)

/-- One iteration of the `PartialInternal` repair scan of `repair_children`,
analogous to `repair_leaf_step` with `split_index` / `merge_index`. -/
def repair_internal_step (f : Nat) (children : List DeletionResult)
    (acc : List Nat × Bool × Store) (i : Nat) : List Nat × Bool × Store :=
  let (result, repaired, s) := acc
  match children.get? i with
  | some (.Subtree pn) =>
    if repaired then (result ++ [pn], true, s)
    else
      let (result, repaired, s) :=
        if 0 < i then
          match children.get? (i - 1) with
          | some (.PartialInternal partials) =>
            match split_index f s pn partials with
            | (some (p1, p2), s') => (result ++ [p1, p2], true, s')
            | (none, s') =>
              match merge_index f s' pn partials with
              | (pm, s'') => (result ++ [pm], true, s'')
          | _ => (result, repaired, s)
        else (result, repaired, s)
      match children.get? (i + 1) with
      | some (.PartialInternal partials) =>
        match split_index f s pn partials with
        | (some (p1, p2), s') => (result ++ [p1, p2], true, s')
        | (none, s') =>
          match merge_index f s' pn partials with
          | (pm, s'') => (result ++ [pm], true, s'')
      | _ => (result, repaired, s)
  | _ => (result, repaired, s)

/-- `repair_children`: transform the per-child `DeletionResult`s into a list
of well-formed page numbers. -/
def repair_children (f : Nat) (s : Store) (children : List DeletionResult) :
    List Nat × Store :=
  if children.all DeletionResult.isSubtree then
    (children.filterMap fun x =>
      match x with
      | .Subtree pn => some pn
      | _ => none, s)
  else if children.any DeletionResult.isPartialLeaf then
    match (List.range children.length).foldl (repair_leaf_step children) ([], false, s) with
    | (result, _, s') => (result, s')
  else if children.any DeletionResult.isPartialInternal then
    match (List.range children.length).foldl (repair_internal_step f children) ([], false, s) with
    | (result, _, s') => (result, s')
  else ([], s)

/-- The tail of the internal-node case of `tree_delete_helper`: repair the
children, then either propagate a `PartialInternal` (single child) or
allocate a new internal page whose separators are recovered by
`max_table_key`. -/
def del_finish (f : Nat) (s : Store) (children : List DeletionResult) :
    DeletionResult × Store :=
  match repair_children f s children with
  | (pages, s') =>
    if pages.length = 1 then (.PartialInternal pages, s')
    else
      let newPairs := (List.range (pages.length - 1)).map fun i =>
        (pages.getD i 0, max_table_key f s' (pages.getD i 0))
      let (pn, s'') := allocate s' (.internal newPairs (pages.getD (pages.length - 1) 0))
      (.Subtree pn, s'')

/-- The outcome of the routing loop in the internal-node case of
`tree_delete_helper`: either the short-circuit (recursion returned the
unchanged child page, so the whole node is returned unchanged), or the
collected child results together with whether some separator matched. -/
inductive DelOut
  | shortcut (s : Store)
  | go (rs : List DeletionResult) (found : Bool) (s : Store)

/-- The routing loop of the internal-node case of `tree_delete_helper`. -/
def del_loop (keyCmp : List Nat → List Nat → Ordering) (table : Nat)
    (key : List Nat) (go : Store → Nat → DeletionResult × Store) (s : Store) :
    List (Nat × TK) → DelOut
  | [] => .go [] false s
  | (c, sep) :: rest =>
    if is_le (cmp_keys keyCmp table key sep.tableId sep.key) then
      match go s c with
      | (.Subtree pn, s') =>
        if pn = c then .shortcut s'
        else .go (.Subtree pn :: rest.map fun pr => .Subtree pr.1) true s'
      | (r, s') => .go (r :: rest.map fun pr => .Subtree pr.1) true s'
    else
      match del_loop keyCmp table key go s rest with
      | .shortcut s' => .shortcut s'
      | .go rs found s' => .go (.Subtree c :: rs) found s'

/-- `tree_delete_helper`. -/
def tree_delete_helper (keyCmp : List Nat → List Nat → Ordering) :
    Nat → Store → Nat → Nat → List Nat → DeletionResult × Store
  | 0, s, p, _, _ => (.Subtree p, s)
  | f + 1, s, p, table, key =>
    match get_page s p with
    | .leaf lesser greater =>
      match greater with
      | some g =>
        if is_ne (entry_compare keyCmp lesser table key) &&
            is_ne (entry_compare keyCmp g table key) then
          (.Subtree p, s)
        else
          let surviving := if is_eq (entry_compare keyCmp lesser table key) then g else lesser
          let (pn, s') := make_single_leaf s surviving.tableId surviving.key surviving.value
          (.Subtree pn, s')
      | none =>
        if is_eq (entry_compare keyCmp lesser table key) then (.PartialLeaf [], s)
        else (.Subtree p, s)
    | .internal pairs last =>
      match del_loop keyCmp table key
          (fun st c => tree_delete_helper keyCmp f st c table key) s pairs with
      | .shortcut s' => (.Subtree p, s')
      | .go rs true s' => del_finish f s' (rs ++ [.Subtree last])
      | .go rs false _ =>
        match tree_delete_helper keyCmp f s last table key with
        | (.Subtree pn, s') =>
          if pn = last then (.Subtree p, s')
          else del_finish f s' (rs ++ [.Subtree pn])
        | (r, s') => del_finish f s' (rs ++ [r])

/-- `tree_delete`: `Subtree p → Some p`; `PartialLeaf [] → None` (empty
tree); `PartialInternal [p] → Some p` (height shrinks). -/
def tree_delete (keyCmp : List Nat → List Nat → Ordering) (f : Nat)
    (s : Store) (p : Nat) (table : Nat) (key : List Nat) : Option Nat × Store :=
  match tree_delete_helper keyCmp f s p table key with
  | (.Subtree pn, s') => (some pn, s')
  | (.PartialLeaf _, s') => (none, s')
  | (.PartialInternal pages, s') => (some (pages.getD 0 0), s')

/-! ### Debug helpers from the source -/

/-- `tree_height`. -/
def tree_height : Nat → Store → Nat → Nat
  | 0, _, _ => 0
  | f + 1, s, p =>
    match get_page s p with
    | .leaf _ _ => 1
    | .internal pairs last =>
      max ((pairs.map fun pr => tree_height f s pr.1).foldl max 0)
        (tree_height f s last) + 1

/-! ### Range iterator -/

/-- `RangeIterState`.  Only `Internal` states are ever pushed as parents, and
every state of one iterator run carries the same `reversed` flag, so the flag
is threaded separately through the step functions. -/
inductive Cursor
  | initial (page : Nat)
  | leafLeft (page : Nat) (parent : Option Cursor)
  | leafRight (page : Nat) (parent : Option Cursor)
  | internal (page : Nat) (child : Nat) (parent : Option Cursor)

/-- The largest `i < BTREE_ORDER` with `child_page(i)` present (the
descending search loop in `backward_next`), defaulting to 0. -/
def last_child_index (pairs : List (Nat × TK)) (last : Nat) : Nat :=
  (((List.range BTREE_ORDER).reverse).find? fun i =>
    (child_at pairs last i).isSome).getD 0

/-- `RangeIterState::forward_next`. -/
def forward_next (s : Store) : Cursor → Option Cursor
  | .initial p =>
    match get_page s p with
    | .leaf _ _ => some (.leafLeft p none)
    | .internal _ _ => some (.internal p 0 none)
  | .leafLeft p parent => some (.leafRight p parent)
  | .leafRight _ parent => parent
  | .internal p child parent =>
    match get_page s p with
    | .internal pairs last =>
      let cp := (child_at pairs last child).getD 0
      let parent' :=
        if child < BTREE_ORDER - 1 ∧ (child_at pairs last (child + 1)).isSome then
          some (.internal p (child + 1) parent)
        else parent
      match get_page s cp with
      | .leaf _ _ => some (.leafLeft cp parent')
      | .internal _ _ => some (.internal cp 0 parent')
    | _ => none

/-- `RangeIterState::backward_next`. -/
def backward_next (s : Store) : Cursor → Option Cursor
  | .initial p =>
    match get_page s p with
    | .leaf _ _ => some (.leafRight p none)
    | .internal pairs last => some (.internal p (last_child_index pairs last) none)
  | .leafLeft _ parent => parent
  | .leafRight p parent => some (.leafLeft p parent)
  | .internal p child parent =>
    match get_page s p with
    | .internal pairs last =>
      let cp := (child_at pairs last child).getD 0
      let parent' :=
        if 0 < child then some (.internal p (child - 1) parent)
        else parent
      match get_page s cp with
      | .leaf _ _ => some (.leafRight cp parent')
      | .internal cpairs clast =>
        some (.internal cp (last_child_index cpairs clast) parent')
    | _ => none

/-- `RangeIterState::next`. -/
def cursor_next (s : Store) (reversed : Bool) (st : Cursor) : Option Cursor :=
  if reversed then backward_next s st else forward_next s st

/-- `RangeIterState::get_entry`. -/
def get_entry (s : Store) : Cursor → Option Entry
  | .leafLeft p _ =>
    match get_page s p with
    | .leaf lesser _ => some lesser
    | _ => none
  | .leafRight p _ =>
    match get_page s p with
    | .leaf _ greater => greater
    | _ => none
  | _ => none

/-- One endpoint of a query range. -/
inductive RBound
  | unbounded
  | included (key : List Nat)
  | excluded (key : List Nat)
deriving DecidableEq, Repr

/-- A query range (`RangeBounds`). -/
structure QRange where
  start : RBound
  stop : RBound
deriving DecidableEq, Repr

/-- `bound_contains_key`: compares the key bytes alone against the bounds
with the user comparator; it never reads a table id. -/
def bound_contains_key (keyCmp : List Nat → List Nat → Ordering) (r : QRange)
    (key : List Nat) : Bool :=
  if (match r.start with
      | .included st => is_lt (keyCmp key st)
      | .excluded st => is_le (keyCmp key st)
      | .unbounded => false) then false
  else if (match r.stop with
      | .included e => is_gt (keyCmp key e)
      | .excluded e => is_ge (keyCmp key e)
      | .unbounded => false) then false
  else true

/-- `BtreeRangeIter::next`: advance until an entry of the iterator's table
whose key lies in the range is found; stop early when an encountered entry
has left the range in the direction of travel (comparing the full
`(table_id, key)` pair via `EntryAccessor::compare`). -/
def iter_next (keyCmp : List Nat → List Nat → Ordering) (s : Store)
    (table_id : Nat) (r : QRange) (reversed : Bool) :
    Nat → Cursor → Option (Entry × Cursor)
  | 0, _ => none
  | f + 1, st =>
    match cursor_next s reversed st with
    | none => none
    | some st' =>
      match get_entry s st' with
      | some entry =>
        if table_id = entry.tableId && bound_contains_key keyCmp r entry.key then
          some (entry, st')
        else
          if reversed then
            match r.start with
            | .included stk =>
              if is_lt (entry_compare keyCmp entry table_id stk) then none
              else iter_next keyCmp s table_id r reversed f st'
            | .excluded stk =>
              if is_le (entry_compare keyCmp entry table_id stk) then none
              else iter_next keyCmp s table_id r reversed f st'
            | .unbounded => iter_next keyCmp s table_id r reversed f st'
          else
            match r.stop with
            | .included ek =>
              if is_gt (entry_compare keyCmp entry table_id ek) then none
              else iter_next keyCmp s table_id r reversed f st'
            | .excluded ek =>
              if is_ge (entry_compare keyCmp entry table_id ek) then none
              else iter_next keyCmp s table_id r reversed f st'
            | .unbounded => iter_next keyCmp s table_id r reversed f st'
      | none => iter_next keyCmp s table_id r reversed f st'

/-- Drain the iterator from a cursor, collecting the yielded entries. -/
def iter_collect (keyCmp : List Nat → List Nat → Ordering) (s : Store)
    (table_id : Nat) (r : QRange) (reversed : Bool) :
    Nat → Cursor → List Entry
  | 0, _ => []
  | f + 1, st =>
    match iter_next keyCmp s table_id r reversed (f + 1) st with
    | some (e, st') => e :: iter_collect keyCmp s table_id r reversed f st'
    | none => []

/-- All entries an iterator over root `p` yields, in order. -/
def iter_all (keyCmp : List Nat → List Nat → Ordering) (s : Store)
    (table_id : Nat) (r : QRange) (reversed : Bool) (f : Nat) (p : Nat) :
    List Entry :=
  iter_collect keyCmp s table_id r reversed f (.initial p)

/-! ### In-order contents -/

/-- The in-order list of entries of the subtree rooted at `p`. -/
def entries_of : Nat → Store → Nat → List Entry
  | 0, _, _ => []
  | f + 1, s, p =>
    match get_page s p with
    | .leaf lesser greater => lesser :: greater.toList
    | .internal pairs last =>
      (pairs.flatMap fun pr => entries_of f s pr.1) ++ entries_of f s last

/-- Whether an entry comparing equal to `(table, key)` occurs in the subtree
rooted at `p`. -/
def contains_tk (keyCmp : List Nat → List Nat → Ordering) (f : Nat)
    (s : Store) (p : Nat) (table : Nat) (key : List Nat) : Bool :=
  (entries_of f s p).any fun e => is_eq (entry_compare keyCmp e table key)

/-! ### Store extension and well-formedness -/

/-- Copy-on-write extension: `s'` holds every page of `s` unchanged. -/
def Extends (s s' : Store) : Prop := ∃ t, s' = s ++ t

/-- `x` is strictly above the (exclusive) lower bound. -/
def ok_lo (keyCmp : List Nat → List Nat → Ordering) (lo : Option TK) (x : TK) : Prop :=
  ∀ l ∈ lo, is_lt (tk_cmp keyCmp l x) = true

/-- `x` is at or below the (inclusive) upper bound. -/
def ok_hi (keyCmp : List Nat → List Nat → Ordering) (hi : Option TK) (x : TK) : Prop :=
  ∀ h ∈ hi, is_le (tk_cmp keyCmp x h) = true

/-- Structural well-formedness of the subtree rooted at `p`, at height `h`,
with all `(table_id, key)` pairs strictly above `lo` and at or below `hi`.
This encodes the reachable-tree invariants: all leaves at the same depth
(the height index), every internal node with 2 or 3 (= `BTREE_ORDER`)
children, every leaf with 1 or 2 strictly ordered entries, and every
subtree's keys bounded by the enclosing separators (`max(child k) ≤
separator k < min(child (k+1))`).  Children were allocated before their
parent, so child page numbers are strictly below the parent's. -/
inductive WF (keyCmp : List Nat → List Nat → Ordering) (s : Store) :
    Nat → Nat → Option TK → Option TK → Prop
  | leaf1 {p : Nat} {e : Entry} {lo hi : Option TK} :
      p < s.size → get_page s p = .leaf e none →
      ok_lo keyCmp lo e.tk → ok_hi keyCmp hi e.tk →
      WF keyCmp s p 1 lo hi
  | leaf2 {p : Nat} {e g : Entry} {lo hi : Option TK} :
      p < s.size → get_page s p = .leaf e (some g) →
      is_lt (tk_cmp keyCmp e.tk g.tk) = true →
      ok_lo keyCmp lo e.tk → ok_lo keyCmp lo g.tk →
      ok_hi keyCmp hi e.tk → ok_hi keyCmp hi g.tk →
      WF keyCmp s p 1 lo hi
  | internal2 {p c0 lastp h : Nat} {s0 : TK} {lo hi : Option TK} :
      p < s.size → get_page s p = .internal [(c0, s0)] lastp →
      c0 < p → lastp < p →
      WF keyCmp s c0 h lo (some s0) →
      WF keyCmp s lastp h (some s0) hi →
      WF keyCmp s p (h + 1) lo hi
  | internal3 {p c0 c1 lastp h : Nat} {s0 s1 : TK} {lo hi : Option TK} :
      p < s.size → get_page s p = .internal [(c0, s0), (c1, s1)] lastp →
      c0 < p → c1 < p → lastp < p →
      WF keyCmp s c0 h lo (some s0) →
      WF keyCmp s c1 h (some s0) (some s1) →
      WF keyCmp s lastp h (some s1) hi →
      WF keyCmp s p (h + 1) lo hi

/-- Trees reachable from a freshly allocated single-leaf tree by any
sequence of `tree_insert` and `tree_delete` operations (run with sufficient
fuel: the fuel exceeds the tree height, which is what the fuel-free source
recursion provides). -/
inductive Reach (keyCmp : List Nat → List Nat → Ordering) : Store → Nat → Prop
  | base (s : Store) (e : Entry) : Reach keyCmp (s ++ [.leaf e none]) s.size
  | ins {s : Store} {p f table : Nat} {key value : List Nat}
      {out : Nat × Guard × Store} :
      Reach keyCmp s p → tree_height f s p < f →
      tree_insert keyCmp f s p table key value = out →
      Reach keyCmp out.2.2 out.1
  | del {s : Store} {p f table : Nat} {key : List Nat} {p' : Nat} {s' : Store} :
      Reach keyCmp s p → tree_height f s p < f →
      tree_delete keyCmp f s p table key = (some p', s') →
      Reach keyCmp s' p'

/-! ### A concrete scenario: insert keys [1]..[5], then delete [5] -/

/-- A single-leaf tree holding `(table 0, key [1], value [1])`. -/
def scn_store0 : Store := [.leaf ⟨0, [1], [1]⟩ none]

/-- Insert `(table 0, key [k], value [k])` and keep the new root and store. -/
def scn_step (rs : Nat × Store) (k : Nat) : Nat × Store :=
  match tree_insert lexCmp 12 rs.2 rs.1 0 [k] [k] with
  | (r, _, s) => (r, s)

/-- The root and store after inserting keys [1], [2], [3], [4], [5]. -/
def scn_tree : Nat × Store := [2, 3, 4, 5].foldl scn_step (0, scn_store0)

/-- The intermediate trees of the scenario. -/
def scn1 : Nat × Store := scn_step (0, scn_store0) 2

def scn2 : Nat × Store := scn_step scn1 3

def scn3 : Nat × Store := scn_step scn2 4

def scn4 : Nat × Store := scn_step scn3 5

/-- The root and store after then deleting key [5]. -/
def scn_deleted : Option Nat × Store :=
  tree_delete lexCmp 12 scn_tree.2 scn_tree.1 0 [5]

/-- Lookup for `(table, key)` succeeds with a handle to `value`: some page
`q` of the store, a byte offset and the value length, such that those bytes
of `q`'s page memory are exactly `value`. -/
def lookup_finds (g : Nat) (s : Store) (p table : Nat) (key value : List Nat) : Prop :=
  ∃ q off, q < s.size ∧
    lookup_in_raw lexCmp g s p table key = some (q, off, value.length) ∧
    ((node_bytes (get_page s q)).drop off).take value.length = value

/-- A run of sibling subtrees, all at height `h`, whose key intervals tile
`(lo, hi]` contiguously from left to right: the shape of the page lists
produced by `repair_children` before `del_finish` reassembles a parent
node over them. -/
inductive Chain (s : Store) (h : Nat) : Option TK → Option TK → List Nat → Prop
  | one {q : Nat} {lo hi : Option TK} :
      WF lexCmp s q h lo hi → Chain s h lo hi [q]
  | cons {q : Nat} {b : TK} {qs : List Nat} {lo hi : Option TK} :
      WF lexCmp s q h lo (some b) → Chain s h (some b) hi qs →
      Chain s h lo hi (q :: qs)

/-! ## Lemmas: orderings -/

theorem is_le_iff {o : Ordering} : is_le o = true ↔ o ≠ .gt := by
  cases o <;> simp [is_le]

theorem is_lt_iff {o : Ordering} : is_lt o = true ↔ o = .lt := by
  cases o <;> simp [is_lt]

theorem is_eq_iff {o : Ordering} : is_eq o = true ↔ o = .eq := by
  cases o <;> simp [is_eq]

theorem is_ne_iff {o : Ordering} : is_ne o = true ↔ o ≠ .eq := by
  cases o <;> simp [is_ne]

theorem is_ge_iff {o : Ordering} : is_ge o = true ↔ o ≠ .lt := by
  cases o <;> simp [is_ge]

theorem is_gt_iff {o : Ordering} : is_gt o = true ↔ o = .gt := by
  cases o <;> simp [is_gt]

theorem natCmp_eq {a b : Nat} : natCmp a b = .eq ↔ a = b := by
  unfold natCmp; split <;> rename_i h
  · simp; omega
  · split <;> simp_all

theorem natCmp_lt {a b : Nat} : natCmp a b = .lt ↔ a < b := by
  unfold natCmp; split <;> rename_i h
  · simp [h]
  · split <;> simp <;> omega

theorem natCmp_gt {a b : Nat} : natCmp a b = .gt ↔ b < a := by
  unfold natCmp; split <;> rename_i h
  · simp; omega
  · split <;> simp <;> omega

theorem natCmp_self {a : Nat} : natCmp a a = .eq := natCmp_eq.mpr rfl

theorem natCmp_swap {a b : Nat} : natCmp b a = (natCmp a b).swap := by
  unfold natCmp
  rcases Nat.lt_trichotomy a b with h | h | h
  · simp [h, Nat.not_lt_of_lt h, Nat.ne_of_gt h, Ordering.swap]
  · simp [h, Ordering.swap]
  · simp [h, Nat.not_lt_of_lt h, Nat.ne_of_gt h, (Nat.ne_of_gt h).symm, Ordering.swap]

theorem lexCmp_self (a : List Nat) : lexCmp a a = .eq := by
  induction a with
  | nil => rfl
  | cons x xs ih => simp [lexCmp, natCmp_self, ih]

theorem lexCmp_eq_iff {a b : List Nat} : lexCmp a b = .eq ↔ a = b := by
  induction a generalizing b with
  | nil => cases b <;> simp [lexCmp]
  | cons x xs ih =>
    cases b with
    | nil => simp [lexCmp]
    | cons y ys =>
      simp only [lexCmp]
      rcases h : natCmp x y with _ | _ | _
      · constructor
        · intro hc; exact Ordering.noConfusion hc
        · intro hxy
          injection hxy with h1 h2
          subst h1
          rw [natCmp_self] at h
          exact Ordering.noConfusion h
      · have hx := natCmp_eq.mp h
        subst hx
        constructor
        · intro hc
          rw [ih.mp hc]
        · intro hc
          injection hc with h1 h2
          subst h2
          exact ih.mpr rfl
      · constructor
        · intro hc; exact Ordering.noConfusion hc
        · intro hxy
          injection hxy with h1 h2
          subst h1
          rw [natCmp_self] at h
          exact Ordering.noConfusion h

theorem lexCmp_swap (a b : List Nat) : lexCmp b a = (lexCmp a b).swap := by
  induction a generalizing b with
  | nil => cases b <;> rfl
  | cons x xs ih =>
    cases b with
    | nil => rfl
    | cons y ys =>
      simp only [lexCmp, natCmp_swap (a := x) (b := y)]
      rcases natCmp x y with _ | _ | _ <;> simp [Ordering.swap, ih]

theorem lexCmp_lt_trans {a b c : List Nat} (h1 : lexCmp a b = .lt)
    (h2 : lexCmp b c = .lt) : lexCmp a c = .lt := by
  induction a generalizing b c with
  | nil =>
    cases b with
    | nil => cases h1
    | cons y ys => cases c with
      | nil => cases h2
      | cons z zs => rfl
  | cons x xs ih =>
    cases b with
    | nil => cases h1
    | cons y ys =>
      cases c with
      | nil => cases h2
      | cons z zs =>
        simp only [lexCmp] at h1 h2 ⊢
        rcases hxy : natCmp x y with _ | _ | _ <;> rw [hxy] at h1
        · rcases hyz : natCmp y z with _ | _ | _ <;> rw [hyz] at h2
          · rw [natCmp_lt.mpr (Nat.lt_trans (natCmp_lt.mp hxy) (natCmp_lt.mp hyz))]
          · rw [← natCmp_eq.mp hyz, hxy]
          · exact Ordering.noConfusion h2
        · have hxy' := natCmp_eq.mp hxy
          subst hxy'
          rcases hyz : natCmp x z with _ | _ | _ <;> rw [hyz] at h2
          · exact ih h1 h2
          · exact Ordering.noConfusion h2
        · exact Ordering.noConfusion h1

theorem tk_cmp_def (a b : TK) :
    tk_cmp lexCmp a b = match natCmp a.tableId b.tableId with
      | .lt => .lt
      | .eq => lexCmp a.key b.key
      | .gt => .gt := rfl

theorem tk_cmp_self (a : TK) : tk_cmp lexCmp a a = .eq := by
  simp [tk_cmp_def, natCmp_self, lexCmp_self]

theorem tk_cmp_eq_iff {a b : TK} : tk_cmp lexCmp a b = .eq ↔ a = b := by
  rw [tk_cmp_def]
  rcases h : natCmp a.tableId b.tableId with _ | _ | _ <;> simp only []
  · constructor
    · intro hc; cases hc
    · rintro rfl; rw [natCmp_self] at h; cases h
  · rw [lexCmp_eq_iff]
    have := natCmp_eq.mp h
    cases a; cases b
    simp_all
  · constructor
    · intro hc; cases hc
    · rintro rfl; rw [natCmp_self] at h; cases h

theorem tk_cmp_swap (a b : TK) : tk_cmp lexCmp b a = (tk_cmp lexCmp a b).swap := by
  rw [tk_cmp_def, tk_cmp_def, natCmp_swap (a := a.tableId) (b := b.tableId),
    lexCmp_swap a.key b.key]
  rcases natCmp a.tableId b.tableId with _ | _ | _ <;> simp [Ordering.swap]

theorem tk_cmp_lt_trans {a b c : TK} (h1 : tk_cmp lexCmp a b = .lt)
    (h2 : tk_cmp lexCmp b c = .lt) : tk_cmp lexCmp a c = .lt := by
  rw [tk_cmp_def] at h1 h2 ⊢
  rcases hab : natCmp a.tableId b.tableId with _ | _ | _ <;> rw [hab] at h1 <;>
    rcases hbc : natCmp b.tableId c.tableId with _ | _ | _ <;> rw [hbc] at h2
  any_goals cases h1
  any_goals cases h2
  · rw [natCmp_lt.mpr (Nat.lt_trans (natCmp_lt.mp hab) (natCmp_lt.mp hbc))]
  · rw [natCmp_eq.mp hbc] at hab
    rw [hab]
  · rw [natCmp_eq.mp hab] at *
    rw [hbc]
  · rw [natCmp_eq.mp hab] at *
    rw [hbc]
    exact lexCmp_lt_trans h1 h2

/-- Strict order on `(table_id, key)` pairs under the canonical comparator. -/
theorem tk_cmp_total (a b : TK) :
    tk_cmp lexCmp a b = .lt ∨ a = b ∨ tk_cmp lexCmp a b = .gt := by
  rcases h : tk_cmp lexCmp a b with _ | _ | _
  · exact .inl rfl
  · exact .inr (.inl (tk_cmp_eq_iff.mp h))
  · exact .inr (.inr rfl)

theorem tk_cmp_lt_of_lt_of_eq {a b c : TK} (h1 : tk_cmp lexCmp a b = .lt)
    (h2 : b = c) : tk_cmp lexCmp a c = .lt := h2 ▸ h1

theorem tk_cmp_gt_iff {a b : TK} : tk_cmp lexCmp a b = .gt ↔ tk_cmp lexCmp b a = .lt := by
  rw [tk_cmp_swap a b]
  cases tk_cmp lexCmp a b <;> simp [Ordering.swap]

theorem tk_cmp_lt_of_lt_of_le {a b c : TK} (h1 : tk_cmp lexCmp a b = .lt)
    (h2 : is_le (tk_cmp lexCmp b c) = true) : tk_cmp lexCmp a c = .lt := by
  rcases h : tk_cmp lexCmp b c with _ | _ | _
  · exact tk_cmp_lt_trans h1 h
  · exact tk_cmp_lt_of_lt_of_eq h1 (tk_cmp_eq_iff.mp h)
  · rw [h] at h2; cases h2

theorem tk_cmp_lt_of_le_of_lt {a b c : TK} (h1 : is_le (tk_cmp lexCmp a b) = true)
    (h2 : tk_cmp lexCmp b c = .lt) : tk_cmp lexCmp a c = .lt := by
  rcases h : tk_cmp lexCmp a b with _ | _ | _
  · exact tk_cmp_lt_trans h h2
  · rw [tk_cmp_eq_iff.mp h]; exact h2
  · rw [h] at h1; cases h1

theorem tk_le_trans {a b c : TK} (h1 : is_le (tk_cmp lexCmp a b) = true)
    (h2 : is_le (tk_cmp lexCmp b c) = true) : is_le (tk_cmp lexCmp a c) = true := by
  rcases h : tk_cmp lexCmp a b with _ | _ | _
  · rw [is_le_iff]
    intro hc
    rw [tk_cmp_gt_iff] at hc
    have := tk_cmp_lt_trans hc h
    rw [tk_cmp_gt_iff.mpr this] at h2
    cases h2
  · rw [tk_cmp_eq_iff.mp h]; exact h2
  · rw [h] at h1; cases h1

theorem tk_le_of_lt {a b : TK} (h : tk_cmp lexCmp a b = .lt) :
    is_le (tk_cmp lexCmp a b) = true := by rw [h]; rfl

theorem tk_le_refl (a : TK) : is_le (tk_cmp lexCmp a a) = true := by
  rw [tk_cmp_self]; rfl

theorem tk_not_le_iff {a b : TK} :
    ¬ is_le (tk_cmp lexCmp a b) = true ↔ tk_cmp lexCmp b a = .lt := by
  rw [← tk_cmp_gt_iff]
  rcases tk_cmp lexCmp a b with _ | _ | _ <;> simp [is_le]

theorem tk_lt_irrefl (a : TK) : ¬ tk_cmp lexCmp a a = .lt := by
  rw [tk_cmp_self]; intro h; cases h

theorem tk_lt_ne {a b : TK} (h : tk_cmp lexCmp a b = .lt) : a ≠ b := by
  rintro rfl; exact tk_lt_irrefl a h

/-! ## Lemmas: the store -/

theorem Extends.rfl {s : Store} : Extends s s := by
  unfold Extends
  exact ⟨[], by simp⟩

theorem Extends.trans {s1 s2 s3 : Store} (h1 : Extends s1 s2)
    (h2 : Extends s2 s3) : Extends s1 s3 := by
  unfold Extends at *
  obtain ⟨t1, rfl⟩ := h1
  obtain ⟨t2, rfl⟩ := h2
  exact ⟨t1 ++ t2, by simp⟩

theorem extends_allocate {s : Store} {n : Node} : Extends s (allocate s n).2 := by
  unfold Extends
  exact ⟨[n], rfl⟩

theorem allocate_fst {s : Store} {n : Node} : (allocate s n).1 = s.size := rfl

theorem size_allocate {s : Store} {n : Node} :
    (allocate s n).2.size = s.size + 1 := by
  simp [allocate, Store.size]

theorem Extends.size_le {s s' : Store} (h : Extends s s') : s.size ≤ s'.size := by
  obtain ⟨t, rfl⟩ := h
  simp [Store.size]

theorem get_page_extends {s s' : Store} {p : Nat} (h : Extends s s')
    (hp : p < s.size) : get_page s' p = get_page s p := by
  obtain ⟨t, rfl⟩ := h
  simp only [get_page, Store.size] at *
  rw [List.getD_eq_getElem?_getD, List.getD_eq_getElem?_getD,
    List.getElem?_append_left hp]

theorem get_page_new {s : Store} {n : Node} :
    get_page (s ++ [n]) s.size = n := by
  simp [get_page, Store.size, List.getD_eq_getElem?_getD]

theorem get_page_allocate {s : Store} {n : Node} :
    get_page (allocate s n).2 (allocate s n).1 = n := get_page_new

/-! ## Claim C5: full-leaf insert case analysis -/

/-- Claim C5: for a leaf holding two entries `lesser < greater` and an
inserted `(table, key, value)`: if the query is above `greater`, the helper
reports a split whose right page is a fresh single leaf holding only the new
entry, with separator `greater`'s `(table_id, key)`; if it equals `greater`,
one fresh double leaf `(lesser, new)` and no split; if it lies strictly
between, a fresh double leaf `(lesser, new)` on the left, a fresh single
leaf `(greater)` on the right, separator the inserted `(table, key)`; if it
equals `lesser`, one fresh double leaf `(new, greater)` and no split; if it
is below `lesser`, a fresh double leaf `(new, lesser)` on the left, a fresh
single leaf `(greater)` on the right, separator `lesser`'s
`(table_id, key)`. -/
theorem C5_leaf_insert_cases (s : Store) (p f table : Nat) (key value : List Nat)
    (lesser greater : Entry)
    (hpage : get_page s p = .leaf lesser (some greater))
    (_hord : is_lt (tk_cmp lexCmp lesser.tk greater.tk) = true) :
    (entry_compare lexCmp greater table key = .lt →
      tree_insert_helper lexCmp (f + 1) s p table key value =
        (p, some (⟨greater.tableId, greater.key⟩, s.size),
          ⟨s.size, 1 + Entry.value_offset ⟨table, key, value⟩, value.length⟩,
          s ++ [.leaf ⟨table, key, value⟩ none])) ∧
    (entry_compare lexCmp greater table key = .eq →
      tree_insert_helper lexCmp (f + 1) s p table key value =
        (s.size, none,
          ⟨s.size, (1 + lesser.raw_len) + Entry.value_offset ⟨table, key, value⟩,
            value.length⟩,
          s ++ [.leaf lesser (some ⟨table, key, value⟩)])) ∧
    (entry_compare lexCmp greater table key = .gt →
      entry_compare lexCmp lesser table key = .lt →
      tree_insert_helper lexCmp (f + 1) s p table key value =
        (s.size, some (⟨table, key⟩, s.size + 1),
          ⟨s.size, (1 + lesser.raw_len) + Entry.value_offset ⟨table, key, value⟩,
            value.length⟩,
          s ++ [.leaf lesser (some ⟨table, key, value⟩), .leaf greater none])) ∧
    (entry_compare lexCmp greater table key = .gt →
      entry_compare lexCmp lesser table key = .eq →
      tree_insert_helper lexCmp (f + 1) s p table key value =
        (s.size, none,
          ⟨s.size, 1 + Entry.value_offset ⟨table, key, value⟩, value.length⟩,
          s ++ [.leaf ⟨table, key, value⟩ (some greater)])) ∧
    (entry_compare lexCmp greater table key = .gt →
      entry_compare lexCmp lesser table key = .gt →
      tree_insert_helper lexCmp (f + 1) s p table key value =
        (s.size, some (⟨lesser.tableId, lesser.key⟩, s.size + 1),
          ⟨s.size, 1 + Entry.value_offset ⟨table, key, value⟩, value.length⟩,
          s ++ [.leaf ⟨table, key, value⟩ (some lesser), .leaf greater none])) := by
  have hgcmp : ∀ o : Ordering, entry_compare lexCmp greater table key = o →
      cmp_keys lexCmp greater.tableId greater.key table key = o := fun _ h => h
  have hlcmp : ∀ o : Ordering, entry_compare lexCmp lesser table key = o →
      cmp_keys lexCmp lesser.tableId lesser.key table key = o := fun _ h => h
  refine ⟨fun h1 => ?_, fun h1 => ?_, fun h1 h2 => ?_, fun h1 h2 => ?_, fun h1 h2 => ?_⟩ <;>
    simp only [tree_insert_helper, hpage, entry_compare] at * <;>
    simp only [h1] <;>
    try simp only [h2]
  · simp [make_mut_single_leaf, allocate, Store.size]
  · simp [make_mut_double_leaf_right, allocate, Store.size]
  · simp [make_mut_double_leaf_right, make_single_leaf, allocate, Store.size]
  · simp [make_mut_double_leaf_left, allocate, Store.size]
  · simp [make_mut_double_leaf_left, make_single_leaf, allocate, Store.size]

/-- Witness for C5 at a concrete input (the query-above-greater case). -/
theorem C5_leaf_insert_cases_witness :
    tree_insert_helper lexCmp 1 [Node.leaf ⟨0, [1], [7]⟩ (some ⟨0, [3], [8]⟩)] 0 0 [5] [9] =
      (0, some (⟨0, [3]⟩, 1), ⟨1, 1 + Entry.value_offset ⟨0, [5], [9]⟩, 1⟩,
        [Node.leaf ⟨0, [1], [7]⟩ (some ⟨0, [3], [8]⟩), Node.leaf ⟨0, [5], [9]⟩ none]) := by
  have h := (C5_leaf_insert_cases [Node.leaf ⟨0, [1], [7]⟩ (some ⟨0, [3], [8]⟩)]
    0 0 0 [5] [9] ⟨0, [1], [7]⟩ ⟨0, [3], [8]⟩ rfl (by decide)).1 (by decide)
  exact h

/-! ## Claim C7: leaf delete case analysis and top-level mapping -/

/-- Claim C7: deleting `(table, key)` at a leaf: with two entries and no
match, the original page is returned; with two entries and one match, a
fresh single leaf holding the survivor; with one matching entry,
`PartialLeaf` with an empty carry; with one non-matching entry, the
original page.  The top-level `tree_delete` maps `Subtree p` to `some p`,
`PartialLeaf []` to `none`, and `PartialInternal [p]` to `some p`. -/
theorem C7_leaf_delete_cases (s : Store) (p f table : Nat) (key : List Nat)
    (lesser g : Entry) :
    (get_page s p = .leaf lesser (some g) →
      entry_compare lexCmp lesser table key ≠ .eq →
      entry_compare lexCmp g table key ≠ .eq →
      tree_delete_helper lexCmp (f + 1) s p table key = (.Subtree p, s)) ∧
    (get_page s p = .leaf lesser (some g) →
      entry_compare lexCmp lesser table key = .eq →
      tree_delete_helper lexCmp (f + 1) s p table key =
        (.Subtree s.size, s ++ [.leaf g none])) ∧
    (get_page s p = .leaf lesser (some g) →
      entry_compare lexCmp lesser table key ≠ .eq →
      entry_compare lexCmp g table key = .eq →
      tree_delete_helper lexCmp (f + 1) s p table key =
        (.Subtree s.size, s ++ [.leaf lesser none])) ∧
    (get_page s p = .leaf lesser none →
      entry_compare lexCmp lesser table key = .eq →
      tree_delete_helper lexCmp (f + 1) s p table key = (.PartialLeaf [], s)) ∧
    (get_page s p = .leaf lesser none →
      entry_compare lexCmp lesser table key ≠ .eq →
      tree_delete_helper lexCmp (f + 1) s p table key = (.Subtree p, s)) ∧
    (∀ (q : Nat) (s' : Store),
      tree_delete_helper lexCmp f s p table key = (.Subtree q, s') →
      tree_delete lexCmp f s p table key = (some q, s')) ∧
    (∀ s' : Store,
      tree_delete_helper lexCmp f s p table key = (.PartialLeaf [], s') →
      tree_delete lexCmp f s p table key = (none, s')) ∧
    (∀ (q : Nat) (s' : Store),
      tree_delete_helper lexCmp f s p table key = (.PartialInternal [q], s') →
      tree_delete lexCmp f s p table key = (some q, s')) := by
  refine ⟨fun hpage h1 h2 => ?_, fun hpage h1 => ?_, fun hpage h1 h2 => ?_,
    fun hpage h1 => ?_, fun hpage h1 => ?_,
    fun q s' h => by simp [tree_delete, h],
    fun s' h => by simp [tree_delete, h],
    fun q s' h => by simp [tree_delete, h]⟩ <;>
      simp only [tree_delete_helper, hpage]
  · rw [is_ne_iff.mpr h1, is_ne_iff.mpr h2]
    simp
  · rw [is_eq_iff.mpr h1]
    have : is_ne (entry_compare lexCmp lesser table key) = false := by
      rw [h1]; rfl
    simp [this, make_single_leaf, allocate, Store.size]
  · have hne : is_ne (entry_compare lexCmp g table key) = false := by
      rw [h2]; rfl
    have heq : is_eq (entry_compare lexCmp lesser table key) = false := by
      rcases h : entry_compare lexCmp lesser table key with _ | _ | _ <;>
        first
        | rfl
        | exact absurd h h1
    simp [hne, heq, make_single_leaf, allocate, Store.size]
  · rw [is_eq_iff.mpr h1]
    simp
  · have heq : is_eq (entry_compare lexCmp lesser table key) = false := by
      rcases h : entry_compare lexCmp lesser table key with _ | _ | _ <;>
        first
        | rfl
        | exact absurd h h1
    simp [heq]

/-- Witness for C7 at a concrete input (two entries, lesser matches). -/
theorem C7_leaf_delete_cases_witness :
    tree_delete_helper lexCmp 3 [Node.leaf ⟨0, [1], [7]⟩ (some ⟨0, [3], [8]⟩)] 0 0 [1] =
      (.Subtree 1, [Node.leaf ⟨0, [1], [7]⟩ (some ⟨0, [3], [8]⟩),
        Node.leaf ⟨0, [3], [8]⟩ none]) := by
  have h := (C7_leaf_delete_cases [Node.leaf ⟨0, [1], [7]⟩ (some ⟨0, [3], [8]⟩)]
    0 2 0 [1] ⟨0, [1], [7]⟩ ⟨0, [3], [8]⟩).2.1 rfl (by decide)
  exact h

/-! ## Claim C9: left-page reuse on rightmost leaf insert -/

/-- Claim C9 (implicit): inserting above the greater entry of a two-entry
leaf returns the input page's own number as the left page of the split (the
leaf is shared, not copied: its contents in the new store are unchanged);
only the right page, holding exactly the new entry, is freshly allocated,
and the returned guard points into that fresh right page. -/
theorem C9_rightmost_insert_reuses_left_page (s : Store) (p f table : Nat)
    (key value : List Nat) (lesser greater : Entry)
    (hp : p < s.size)
    (hpage : get_page s p = .leaf lesser (some greater))
    (hcmp : entry_compare lexCmp greater table key = .lt) :
    tree_insert_helper lexCmp (f + 1) s p table key value =
      (p, some (⟨greater.tableId, greater.key⟩, s.size),
        ⟨s.size, 1 + Entry.value_offset ⟨table, key, value⟩, value.length⟩,
        s ++ [.leaf ⟨table, key, value⟩ none]) ∧
    get_page (s ++ [.leaf ⟨table, key, value⟩ none]) p = .leaf lesser (some greater) ∧
    s.size ≠ p := by
  refine ⟨?_, ?_, by omega⟩
  · simp only [tree_insert_helper, hpage, entry_compare] at *
    simp only [hcmp]
    simp [make_mut_single_leaf, allocate, Store.size]
  · rw [get_page_extends ⟨[_], rfl⟩ hp]
    exact hpage

/-- Witness for C9 at a concrete input. -/
theorem C9_rightmost_insert_reuses_left_page_witness :
    tree_insert_helper lexCmp 1 [Node.leaf ⟨0, [1], [7]⟩ (some ⟨0, [3], [8]⟩)] 0 0 [5] [9] =
      (0, some (⟨0, [3]⟩, 1), ⟨1, 1 + Entry.value_offset ⟨0, [5], [9]⟩, 1⟩,
        [Node.leaf ⟨0, [1], [7]⟩ (some ⟨0, [3], [8]⟩), Node.leaf ⟨0, [5], [9]⟩ none]) ∧
    get_page [Node.leaf ⟨0, [1], [7]⟩ (some ⟨0, [3], [8]⟩), Node.leaf ⟨0, [5], [9]⟩ none] 0 =
      .leaf ⟨0, [1], [7]⟩ (some ⟨0, [3], [8]⟩) := by
  have h := C9_rightmost_insert_reuses_left_page
    [Node.leaf ⟨0, [1], [7]⟩ (some ⟨0, [3], [8]⟩)] 0 0 0 [5] [9]
    ⟨0, [1], [7]⟩ ⟨0, [3], [8]⟩ (by decide) rfl (by decide)
  exact ⟨h.1, h.2.1⟩

/-! ## Claim C6: internal overflow split on insert -/

/-- Claim C6: when the internal-node rebuild of `tree_insert_helper`
receives an assembled child list of at most `ORDER` children, exactly one
internal page is allocated and no split reported; with four children
(`ORDER = 3`), two internal pages of exactly two children each are written,
keeping separators 0 and 2, and the middle separator (index 1) is
propagated with the second page.  The top-level `tree_insert`, on a
reported split, builds a new root internal page with exactly those two
children, whose height is one above its children's. -/
theorem C6_internal_overflow_split (s : Store) (g : Guard) :
    (∀ (pairs : List (Nat × TK)) (lastp : Nat), pairs.length + 1 ≤ BTREE_ORDER →
      build_insert s pairs lastp g = (s.size, none, g, s ++ [.internal pairs lastp])) ∧
    (∀ (c0 c1 c2 lastp : Nat) (s0 s1 s2 : TK),
      build_insert s [(c0, s0), (c1, s1), (c2, s2)] lastp g =
        (s.size, some (s1, s.size + 1), g,
          s ++ [.internal [(c0, s0)] c1, .internal [(c2, s2)] lastp])) ∧
    (∀ (f p table : Nat) (key value : List Nat) (p1 p2 : Nat) (sk : TK)
      (g' : Guard) (s' : Store),
      tree_insert_helper lexCmp f s p table key value = (p1, some (sk, p2), g', s') →
      tree_insert lexCmp f s p table key value =
        (s'.size, g', s' ++ [.internal [(p1, sk)] p2])) ∧
    (∀ (f p table : Nat) (key value : List Nat) (p1 : Nat) (g' : Guard) (s' : Store),
      tree_insert_helper lexCmp f s p table key value = (p1, none, g', s') →
      tree_insert lexCmp f s p table key value = (p1, g', s')) ∧
    (∀ (f table : Nat) (key : List Nat) (p1 p2 : Nat),
      tree_height (f + 1) (s ++ [.internal [(p1, ⟨table, key⟩)] p2]) s.size =
        max (tree_height f (s ++ [.internal [(p1, ⟨table, key⟩)] p2]) p1)
          (tree_height f (s ++ [.internal [(p1, ⟨table, key⟩)] p2]) p2) + 1) := by
  refine ⟨fun pairs lastp h => ?_, fun c0 c1 c2 lastp s0 s1 s2 => ?_,
    fun f p table key value p1 p2 sk g' s' h => ?_,
    fun f p table key value p1 g' s' h => ?_,
    fun f table key p1 p2 => ?_⟩
  · simp [build_insert, h, allocate]
  · simp [build_insert, BTREE_ORDER, allocate, Store.size]
  · simp [tree_insert, h, make_index, allocate]
  · simp [tree_insert, h]
  · simp [tree_height, get_page_new]

/-- Witness for C6 at concrete inputs (both rebuild branches and the new
root). -/
theorem C6_internal_overflow_split_witness :
    build_insert [] [(5, ⟨0, [1]⟩), (6, ⟨0, [2]⟩), (7, ⟨0, [3]⟩)] 8 ⟨9, 0, 0⟩ =
      (0, some (⟨0, [2]⟩, 1), ⟨9, 0, 0⟩,
        [.internal [(5, ⟨0, [1]⟩)] 6, .internal [(7, ⟨0, [3]⟩)] 8]) ∧
    build_insert [] [(5, ⟨0, [1]⟩)] 6 ⟨9, 0, 0⟩ =
      (0, none, ⟨9, 0, 0⟩, [.internal [(5, ⟨0, [1]⟩)] 6]) := by
  refine ⟨(C6_internal_overflow_split [] ⟨9, 0, 0⟩).2.1 5 6 7 8 ⟨0, [1]⟩ ⟨0, [2]⟩ ⟨0, [3]⟩, ?_⟩
  exact (C6_internal_overflow_split [] ⟨9, 0, 0⟩).1 [(5, ⟨0, [1]⟩)] 6 (by decide)

/-! ## Lemmas: repair of a `PartialInternal` orphan -/

theorem split_index_eq_3 (f : Nat) (s : Store) (q o a b c : Nat) (sa sb : TK)
    (hpage : get_page s q = .internal [(a, sa), (b, sb)] c) :
    split_index f s q [o] =
      (some (s.size, s.size + 1),
        s ++ [.internal [((sort_pages f s [o, a, b, c]).getD 0 0,
            max_table_key f s ((sort_pages f s [o, a, b, c]).getD 0 0))]
            ((sort_pages f s [o, a, b, c]).getD 1 0),
          .internal [((sort_pages f s [o, a, b, c]).getD 2 0,
            max_table_key f
              (s ++ [.internal [((sort_pages f s [o, a, b, c]).getD 0 0,
                max_table_key f s ((sort_pages f s [o, a, b, c]).getD 0 0))]
                ((sort_pages f s [o, a, b, c]).getD 1 0)])
              ((sort_pages f s [o, a, b, c]).getD 2 0))]
            ((sort_pages f s [o, a, b, c]).getD 3 0)]) := by
  simp [split_index, hpage, BTREE_ORDER, make_index, allocate, Store.size]

theorem split_index_eq_2 (f : Nat) (s : Store) (q o a c : Nat) (sa : TK)
    (hpage : get_page s q = .internal [(a, sa)] c) :
    split_index f s q [o] = (none, s) := by
  simp [split_index, hpage, BTREE_ORDER]

theorem merge_index_eq_2 (f : Nat) (s : Store) (q o a c : Nat) (sa : TK)
    (hpage : get_page s q = .internal [(a, sa)] c) :
    merge_index f s q [o] =
      (s.size,
        s ++ [.internal [((sort_pages f s [o, a, c]).getD 0 0,
            max_table_key f s ((sort_pages f s [o, a, c]).getD 0 0)),
          ((sort_pages f s [o, a, c]).getD 1 0,
            max_table_key f s ((sort_pages f s [o, a, c]).getD 1 0))]
          ((sort_pages f s [o, a, c]).getD 2 0)]) := by
  have hlen : (sort_pages f s [o, a, c]).length = 3 := by
    unfold sort_pages
    rw [List.length_insertionSort]
    rfl
  simp [merge_index, hpage, hlen, allocate, Store.size, List.range_succ]

/-! ## Claim C8: `PartialInternal` repair -/

/-- Claim C8: repairing a `DeletionResult` vector holding one
`PartialInternal` with a single orphan page next to a healthy `Subtree`
neighbour: if the neighbour internal node has `BTREE_ORDER` (= 3) children,
repair combines the orphan with those three children, orders the four pages
by their maximum `(table, key)` (`sort_pages`), and emits two internal
pages of two children each; otherwise it merges the orphan and the
neighbour's children into one internal page holding up to `ORDER` children.
Every separator of a page built during repair is the `max_table_key` of its
left child (the second emitted page's separator is computed in the store
extended by the first, which holds the same pages). -/
theorem C8_partial_internal_repair (f : Nat) (s : Store) (q o : Nat) :
    (∀ (a b c : Nat) (sa sb : TK), get_page s q = .internal [(a, sa), (b, sb)] c →
      ∀ m : List Nat, m = sort_pages f s [o, a, b, c] →
      ∀ n1 : Node, n1 = .internal [(m.getD 0 0, max_table_key f s (m.getD 0 0))] (m.getD 1 0) →
      repair_children f s [.Subtree q, .PartialInternal [o]] =
        ([s.size, s.size + 1],
          s ++ [n1, .internal [(m.getD 2 0, max_table_key f (s ++ [n1]) (m.getD 2 0))]
            (m.getD 3 0)])) ∧
    (∀ (a b c : Nat) (sa sb : TK), get_page s q = .internal [(a, sa), (b, sb)] c →
      ∀ m : List Nat, m = sort_pages f s [o, a, b, c] →
      ∀ n1 : Node, n1 = .internal [(m.getD 0 0, max_table_key f s (m.getD 0 0))] (m.getD 1 0) →
      repair_children f s [.PartialInternal [o], .Subtree q] =
        ([s.size, s.size + 1],
          s ++ [n1, .internal [(m.getD 2 0, max_table_key f (s ++ [n1]) (m.getD 2 0))]
            (m.getD 3 0)])) ∧
    (∀ (a c : Nat) (sa : TK), get_page s q = .internal [(a, sa)] c →
      ∀ m : List Nat, m = sort_pages f s [o, a, c] →
      repair_children f s [.Subtree q, .PartialInternal [o]] =
        ([s.size],
          s ++ [.internal [(m.getD 0 0, max_table_key f s (m.getD 0 0)),
            (m.getD 1 0, max_table_key f s (m.getD 1 0))] (m.getD 2 0)])) ∧
    (∀ (a c : Nat) (sa : TK), get_page s q = .internal [(a, sa)] c →
      ∀ m : List Nat, m = sort_pages f s [o, a, c] →
      repair_children f s [.PartialInternal [o], .Subtree q] =
        ([s.size],
          s ++ [.internal [(m.getD 0 0, max_table_key f s (m.getD 0 0)),
            (m.getD 1 0, max_table_key f s (m.getD 1 0))] (m.getD 2 0)])) := by
  refine ⟨fun a b c sa sb hpage m hm n1 hn1 => ?_,
    fun a b c sa sb hpage m hm n1 hn1 => ?_,
    fun a c sa hpage m hm => ?_, fun a c sa hpage m hm => ?_⟩ <;>
    subst hm
  · subst hn1
    have hs := split_index_eq_3 f s q o a b c sa sb hpage
    simp [repair_children, DeletionResult.isSubtree, DeletionResult.isPartialLeaf,
      DeletionResult.isPartialInternal, List.range_succ, repair_internal_step, hs]
  · subst hn1
    have hs := split_index_eq_3 f s q o a b c sa sb hpage
    simp [repair_children, DeletionResult.isSubtree, DeletionResult.isPartialLeaf,
      DeletionResult.isPartialInternal, List.range_succ, repair_internal_step, hs]
  · have hs := split_index_eq_2 f s q o a c sa hpage
    have hmg := merge_index_eq_2 f s q o a c sa hpage
    simp [repair_children, DeletionResult.isSubtree, DeletionResult.isPartialLeaf,
      DeletionResult.isPartialInternal, List.range_succ, repair_internal_step, hs, hmg,
      merge_leaf]
  · have hs := split_index_eq_2 f s q o a c sa hpage
    have hmg := merge_index_eq_2 f s q o a c sa hpage
    simp [repair_children, DeletionResult.isSubtree, DeletionResult.isPartialLeaf,
      DeletionResult.isPartialInternal, List.range_succ, repair_internal_step, hs, hmg,
      merge_leaf]

/-- Witness for C8 at a concrete input: a three-child neighbour splits with
the orphan into two two-child pages; a two-child neighbour merges. -/
theorem C8_partial_internal_repair_witness :
    repair_children 9
      [Node.leaf ⟨0, [1], []⟩ none, Node.leaf ⟨0, [3], []⟩ none,
        Node.leaf ⟨0, [5], []⟩ none, Node.leaf ⟨0, [7], []⟩ none,
        Node.internal [(1, ⟨0, [3]⟩), (2, ⟨0, [5]⟩)] 3]
      [.Subtree 4, .PartialInternal [0]] =
      ([5, 6],
        [Node.leaf ⟨0, [1], []⟩ none, Node.leaf ⟨0, [3], []⟩ none,
          Node.leaf ⟨0, [5], []⟩ none, Node.leaf ⟨0, [7], []⟩ none,
          Node.internal [(1, ⟨0, [3]⟩), (2, ⟨0, [5]⟩)] 3,
          Node.internal [(0, ⟨0, [1]⟩)] 1,
          Node.internal [(2, ⟨0, [5]⟩)] 3]) := by
  have h := (C8_partial_internal_repair 9
    [Node.leaf ⟨0, [1], []⟩ none, Node.leaf ⟨0, [3], []⟩ none,
      Node.leaf ⟨0, [5], []⟩ none, Node.leaf ⟨0, [7], []⟩ none,
      Node.internal [(1, ⟨0, [3]⟩), (2, ⟨0, [5]⟩)] 3] 4 0).1
    1 2 3 ⟨0, [3]⟩ ⟨0, [5]⟩ rfl _ rfl _ rfl
  rw [h]
  rfl

/-! ## Claim C3: range enumeration is NOT complete on this code -/

/-- Claim C3 fails on the code: the tree reached by inserting
`(table 0, key [k], value [k])` for k = 1..5 and then deleting key `[5]`
contains only the entries with keys `[3]` and `[4]` — the `repair_children`
scan drops the first root child (holding keys `[1]` and `[2]`) because its
only neighbour in the `[Subtree, Subtree, PartialLeaf]` configuration is
another `Subtree`.  Before the delete, forward iteration yields all five
entries in order; after it, forward iteration yields only `[3]`, `[4]`
(reverse yields their reversal) and key `[1]` no longer looks up, although
it was inserted and never deleted. -/
theorem C3_range_iteration_incomplete :
    Reach lexCmp scn_tree.2 scn_tree.1 ∧
    iter_all lexCmp scn_tree.2 0 ⟨.unbounded, .unbounded⟩ false 40 scn_tree.1 =
      [⟨0, [1], [1]⟩, ⟨0, [2], [2]⟩, ⟨0, [3], [3]⟩, ⟨0, [4], [4]⟩, ⟨0, [5], [5]⟩] ∧
    scn_deleted.1 = some 10 ∧
    iter_all lexCmp scn_deleted.2 0 ⟨.unbounded, .unbounded⟩ false 40 10 =
      [⟨0, [3], [3]⟩, ⟨0, [4], [4]⟩] ∧
    iter_all lexCmp scn_deleted.2 0 ⟨.unbounded, .unbounded⟩ true 40 10 =
      [⟨0, [4], [4]⟩, ⟨0, [3], [3]⟩] ∧
    lookup_in_raw lexCmp 12 scn_deleted.2 10 0 [1] = none := by
  refine ⟨?_, by decide, by decide, by decide, by decide, by decide⟩
  have h1 : Reach lexCmp scn_store0 0 := Reach.base [] ⟨0, [1], [1]⟩
  have e1 : tree_insert lexCmp 12 scn_store0 0 0 [2] [2] =
      tree_insert lexCmp 12 scn_store0 0 0 [2] [2] := rfl
  have h2 : Reach lexCmp scn1.2 scn1.1 :=
    Reach.ins h1 (show tree_height 12 scn_store0 0 < 12 by decide) e1
  have e2 : tree_insert lexCmp 12 scn1.2 scn1.1 0 [3] [3] =
      tree_insert lexCmp 12 scn1.2 scn1.1 0 [3] [3] := rfl
  have h3 : Reach lexCmp scn2.2 scn2.1 :=
    Reach.ins h2 (show tree_height 12 scn1.2 scn1.1 < 12 by decide) e2
  have e3 : tree_insert lexCmp 12 scn2.2 scn2.1 0 [4] [4] =
      tree_insert lexCmp 12 scn2.2 scn2.1 0 [4] [4] := rfl
  have h4 : Reach lexCmp scn3.2 scn3.1 :=
    Reach.ins h3 (show tree_height 12 scn2.2 scn2.1 < 12 by decide) e3
  have e4 : tree_insert lexCmp 12 scn3.2 scn3.1 0 [5] [5] =
      tree_insert lexCmp 12 scn3.2 scn3.1 0 [5] [5] := rfl
  have h5 : Reach lexCmp scn4.2 scn4.1 :=
    Reach.ins h4 (show tree_height 12 scn3.2 scn3.1 < 12 by decide) e4
  exact h5

/-! ## Claim C4: absent-key delete is structurally stable -/

theorem is_ne_eq_not_is_eq (o : Ordering) : is_ne o = !is_eq o := by
  cases o <;> rfl

/-- Deleting a `(table, key)` that occurs nowhere in a well-formed subtree
returns the subtree's own root page and leaves the store untouched. -/
theorem delete_absent {s : Store} {p h : Nat} {lo hi : Option TK}
    (hwf : WF lexCmp s p h lo hi) :
    ∀ f table key, h < f →
      contains_tk lexCmp f s p table key = false →
      tree_delete_helper lexCmp f s p table key = (.Subtree p, s) := by
  induction hwf with
  | leaf1 hp hpage hlo hhi =>
    intro f table key hf habs
    obtain ⟨f', rfl⟩ : ∃ f', f = f' + 1 := ⟨f - 1, by omega⟩
    simp only [contains_tk, entries_of, hpage, Option.toList, List.any_cons,
      List.any_nil, Bool.or_false] at habs
    simp only [tree_delete_helper, hpage, habs]
    simp
  | leaf2 hp hpage hord hlo hlog hhi hhig =>
    intro f table key hf habs
    obtain ⟨f', rfl⟩ : ∃ f', f = f' + 1 := ⟨f - 1, by omega⟩
    simp only [contains_tk, entries_of, hpage, Option.toList, List.any_cons,
      List.any_nil, Bool.or_false, Bool.or_eq_false_iff] at habs
    simp only [tree_delete_helper, hpage, is_ne_eq_not_is_eq, habs.1, habs.2]
    simp
  | internal2 hp hpage hc0 hlast hwf0 hwfl ih0 ihl =>
    intro f table key hf habs
    obtain ⟨f', rfl⟩ : ∃ f', f = f' + 1 := ⟨f - 1, by omega⟩
    rename_i p c0 lastp h s0 lo hi
    simp only [contains_tk, entries_of, hpage, List.flatMap_cons, List.flatMap_nil,
      List.append_nil, List.any_append, Bool.or_eq_false_iff] at habs
    have habs0 : contains_tk lexCmp f' s c0 table key = false := habs.1
    have habsl : contains_tk lexCmp f' s lastp table key = false := habs.2
    simp only [tree_delete_helper, hpage, del_loop]
    by_cases hle : is_le (cmp_keys lexCmp table key s0.tableId s0.key) = true
    · rw [if_pos hle, ih0 f' table key (by omega) habs0]
      simp
    · rw [if_neg hle]
      simp only [del_loop]
      rw [ihl f' table key (by omega) habsl]
      simp
  | internal3 hp hpage hc0 hc1 hlast hwf0 hwf1 hwfl ih0 ih1 ihl =>
    intro f table key hf habs
    obtain ⟨f', rfl⟩ : ∃ f', f = f' + 1 := ⟨f - 1, by omega⟩
    rename_i p c0 c1 lastp h s0 s1 lo hi
    simp only [contains_tk, entries_of, hpage, List.flatMap_cons, List.flatMap_nil,
      List.append_nil, List.any_append, Bool.or_eq_false_iff] at habs
    have habs0 : contains_tk lexCmp f' s c0 table key = false := habs.1.1
    have habs1 : contains_tk lexCmp f' s c1 table key = false := habs.1.2
    have habsl : contains_tk lexCmp f' s lastp table key = false := habs.2
    simp only [tree_delete_helper, hpage, del_loop]
    by_cases hle : is_le (cmp_keys lexCmp table key s0.tableId s0.key) = true
    · rw [if_pos hle, ih0 f' table key (by omega) habs0]
      simp
    · rw [if_neg hle]
      try simp only [del_loop]
      by_cases hle1 : is_le (cmp_keys lexCmp table key s1.tableId s1.key) = true
      · rw [if_pos hle1, ih1 f' table key (by omega) habs1]
        simp
      · rw [if_neg hle1]
        try simp only [del_loop]
        rw [ihl f' table key (by omega) habsl]
        simp

/-! ## Claim C10: iterator yield condition compares keys only against bounds -/

/-- Claim C10 (implicit): the range iterator yields an entry exactly when the
entry's table id equals the iterator's table id and the entry's key bytes
alone lie within the bounds under the user comparator (`bound_contains_key`
takes only the key, never a table id): every yielded entry satisfies the
condition, and an encountered entry satisfying it is yielded on the spot.
Entries of other tables are thus skipped, never yielded, even when their key
bytes fall inside the range. -/
theorem C10_iter_yield_condition (keyCmp : List Nat → List Nat → Ordering)
    (s : Store) (table_id : Nat) (r : QRange) (reversed : Bool) :
    (∀ (f : Nat) (st st' : Cursor) (e : Entry),
      iter_next keyCmp s table_id r reversed f st = some (e, st') →
      table_id = e.tableId ∧ bound_contains_key keyCmp r e.key = true) ∧
    (∀ (f : Nat) (st st' : Cursor) (e : Entry),
      cursor_next s reversed st = some st' →
      get_entry s st' = some e →
      table_id = e.tableId → bound_contains_key keyCmp r e.key = true →
      iter_next keyCmp s table_id r reversed (f + 1) st = some (e, st')) := by
  constructor
  · intro f
    induction f with
    | zero => intro st st' e h; simp [iter_next] at h
    | succ f ih =>
      intro st st' e h
      rw [iter_next] at h
      cases hc : cursor_next s reversed st with
      | none =>
        simp only [hc] at h
        cases h
      | some st1 =>
        simp only [hc] at h
        cases he : get_entry s st1 with
        | none =>
          simp only [he] at h
          exact ih st1 st' e h
        | some entry =>
          simp only [he] at h
          split at h
          · rename_i hcond
            rw [Option.some.injEq, Prod.mk.injEq] at h
            obtain ⟨rfl, rfl⟩ := h
            simp only [Bool.and_eq_true, decide_eq_true_eq] at hcond
            exact hcond
          · repeat' split at h
            all_goals first
              | cases h
              | exact ih _ _ _ h
  · intro f st st' e hc he hteq hbk
    rw [iter_next]
    simp only [hc, he]
    rw [if_pos]
    simp [hteq, hbk]

/-- Witness for C10 at a concrete input: a single-leaf tree whose entry is
yielded by the first step of an unbounded forward iteration. -/
theorem C10_iter_yield_condition_witness :
    (0 = 0 ∧ bound_contains_key lexCmp ⟨.unbounded, .unbounded⟩ [1] = true) ∧
    iter_next lexCmp [Node.leaf ⟨0, [1], [7]⟩ none] 0 ⟨.unbounded, .unbounded⟩ false 3
      (.initial 0) = some (⟨0, [1], [7]⟩, .leafLeft 0 none) := by
  constructor
  · exact (C10_iter_yield_condition lexCmp [Node.leaf ⟨0, [1], [7]⟩ none] 0
      ⟨.unbounded, .unbounded⟩ false).1 3 (.initial 0) (.leafLeft 0 none) ⟨0, [1], [7]⟩
      (by rfl)
  · exact (C10_iter_yield_condition lexCmp [Node.leaf ⟨0, [1], [7]⟩ none] 0
      ⟨.unbounded, .unbounded⟩ false).2 2 (.initial 0) (.leafLeft 0 none) ⟨0, [1], [7]⟩
      (by rfl) (by rfl) (by rfl) (by rfl)

/-! ## Lemmas: leaf byte layout -/

theorem be8_length (n : Nat) : (be8 n).length = 8 := by simp [be8]

theorem encode_entry_eq (e : Entry) :
    encode_entry e =
      (be8 e.key.length ++ be8 e.tableId ++ e.key ++ be8 e.value.length) ++ e.value := by
  simp [encode_entry]

theorem entry_header_length (e : Entry) :
    (be8 e.key.length ++ be8 e.tableId ++ e.key ++ be8 e.value.length).length =
      e.value_offset := by
  simp [be8, Entry.value_offset]
  omega

theorem encode_entry_length (e : Entry) : (encode_entry e).length = e.raw_len := by
  simp [encode_entry, be8, Entry.raw_len]
  omega

/-- The value window of the lesser entry starts `1 + value_offset` bytes
into the leaf page. -/
theorem node_bytes_extract_lesser (e : Entry) (g? : Option Entry) :
    ((node_bytes (.leaf e g?)).drop (1 + e.value_offset)).take e.value.length =
      e.value := by
  have h1 : node_bytes (.leaf e g?) =
      1 :: ((be8 e.key.length ++ be8 e.tableId ++ e.key ++ be8 e.value.length) ++
        (e.value ++ match g? with
          | some g => encode_entry g
          | none => be8 0)) := by
    cases g? <;> simp [node_bytes, encode_entry_eq]
  rw [h1, Nat.add_comm 1 e.value_offset, List.drop_succ_cons,
    List.drop_left' (entry_header_length e), List.take_left' rfl]

/-- The value window of the greater entry starts `(1 + raw_len lesser) +
value_offset greater` bytes into the leaf page. -/
theorem node_bytes_extract_greater (e g : Entry) :
    ((node_bytes (.leaf e (some g))).drop ((1 + e.raw_len) + g.value_offset)).take
      g.value.length = g.value := by
  have h1 : node_bytes (.leaf e (some g)) = 1 :: (encode_entry e ++ encode_entry g) := by
    simp [node_bytes]
  have h2 : (1 + e.raw_len) + g.value_offset =
      ((encode_entry e).length + g.value_offset) + 1 := by
    rw [encode_entry_length]
    omega
  rw [h1, h2, List.drop_succ_cons, List.drop_append, encode_entry_eq g,
    List.drop_left' (entry_header_length g), List.take_length]

/-! ## Lemmas: well-formedness -/

theorem WF.lt_size {kc : List Nat → List Nat → Ordering} {s : Store}
    {p h : Nat} {lo hi : Option TK} (hwf : WF kc s p h lo hi) : p < s.size := by
  cases hwf <;> assumption

theorem WF.one_le_height {kc : List Nat → List Nat → Ordering} {s : Store}
    {p h : Nat} {lo hi : Option TK} (hwf : WF kc s p h lo hi) : 1 ≤ h := by
  cases hwf <;> omega

theorem WF.height_le {kc : List Nat → List Nat → Ordering} {s : Store}
    {p h : Nat} {lo hi : Option TK} (hwf : WF kc s p h lo hi) : h ≤ p + 1 := by
  induction hwf with
  | leaf1 => omega
  | leaf2 => omega
  | internal2 hp hpage hc0 hlast hwf0 hwfl ih0 ihl => omega
  | internal3 hp hpage hc0 hc1 hlast hwf0 hwf1 hwfl ih0 ih1 ihl => omega

theorem WF.height_lt_size {kc : List Nat → List Nat → Ordering} {s : Store}
    {p h : Nat} {lo hi : Option TK} (hwf : WF kc s p h lo hi) : h ≤ s.size := by
  have h1 := hwf.height_le
  have h2 := hwf.lt_size
  omega

theorem WF.extends {kc : List Nat → List Nat → Ordering} {s s' : Store}
    {p h : Nat} {lo hi : Option TK} (hwf : WF kc s p h lo hi)
    (hx : Extends s s') : WF kc s' p h lo hi := by
  induction hwf with
  | leaf1 hp hpage hlo hhi =>
    exact .leaf1 (lt_of_lt_of_le hp hx.size_le)
      (by rw [get_page_extends hx hp]; exact hpage) hlo hhi
  | leaf2 hp hpage hord hlo hlog hhi hhig =>
    exact .leaf2 (lt_of_lt_of_le hp hx.size_le)
      (by rw [get_page_extends hx hp]; exact hpage) hord hlo hlog hhi hhig
  | internal2 hp hpage hc0 hlast hwf0 hwfl ih0 ihl =>
    exact .internal2 (lt_of_lt_of_le hp hx.size_le)
      (by rw [get_page_extends hx hp]; exact hpage) hc0 hlast ih0 ihl
  | internal3 hp hpage hc0 hc1 hlast hwf0 hwf1 hwfl ih0 ih1 ihl =>
    exact .internal3 (lt_of_lt_of_le hp hx.size_le)
      (by rw [get_page_extends hx hp]; exact hpage) hc0 hc1 hlast ih0 ih1 ihl

theorem WF.weaken_lo {s : Store} {p h : Nat} {hi : Option TK} {a : Option TK}
    (hwf : WF lexCmp s p h a hi) :
    ∀ b : Option TK, (∀ x : TK, ok_lo lexCmp a x → ok_lo lexCmp b x) →
      WF lexCmp s p h b hi := by
  induction hwf with
  | leaf1 hp hpage hlo hhi =>
    intro b hab
    exact .leaf1 hp hpage (hab _ hlo) hhi
  | leaf2 hp hpage hord hlo hlog hhi hhig =>
    intro b hab
    exact .leaf2 hp hpage hord (hab _ hlo) (hab _ hlog) hhi hhig
  | internal2 hp hpage hc0 hlast hwf0 hwfl ih0 _ =>
    intro b hab
    exact .internal2 hp hpage hc0 hlast (ih0 b hab) hwfl
  | internal3 hp hpage hc0 hc1 hlast hwf0 hwf1 hwfl ih0 _ _ =>
    intro b hab
    exact .internal3 hp hpage hc0 hc1 hlast (ih0 b hab) hwf1 hwfl

theorem WF.weaken_hi {s : Store} {p h : Nat} {lo : Option TK} {a : Option TK}
    (hwf : WF lexCmp s p h lo a) :
    ∀ b : Option TK, (∀ x : TK, ok_hi lexCmp a x → ok_hi lexCmp b x) →
      WF lexCmp s p h lo b := by
  induction hwf with
  | leaf1 hp hpage hlo hhi =>
    intro b hab
    exact .leaf1 hp hpage hlo (hab _ hhi)
  | leaf2 hp hpage hord hlo hlog hhi hhig =>
    intro b hab
    exact .leaf2 hp hpage hord hlo hlog (hab _ hhi) (hab _ hhig)
  | internal2 hp hpage hc0 hlast hwf0 hwfl _ ihl =>
    intro b hab
    exact .internal2 hp hpage hc0 hlast hwf0 (ihl b hab)
  | internal3 hp hpage hc0 hc1 hlast hwf0 hwf1 hwfl _ _ ihl =>
    intro b hab
    exact .internal3 hp hpage hc0 hc1 hlast hwf0 hwf1 (ihl b hab)

theorem ok_lo_mono {a b : TK} (hba : is_le (tk_cmp lexCmp b a) = true) :
    ∀ x : TK, ok_lo lexCmp (some a) x → ok_lo lexCmp (some b) x := by
  intro x hx y hy
  cases hy
  have hax : tk_cmp lexCmp a x = .lt := is_lt_iff.mp (hx a rfl)
  rw [is_lt_iff]
  exact tk_cmp_lt_of_le_of_lt hba hax

theorem ok_lo_any_none : ∀ x : TK, ∀ a : Option TK,
    ok_lo lexCmp a x → ok_lo lexCmp none x := by
  intro x a _ y hy
  cases hy

theorem ok_hi_mono {a b : TK} (hab : is_le (tk_cmp lexCmp a b) = true) :
    ∀ x : TK, ok_hi lexCmp (some a) x → ok_hi lexCmp (some b) x := by
  intro x hx y hy
  cases hy
  exact tk_le_trans (hx a rfl) hab

theorem ok_hi_any_none : ∀ x : TK, ∀ a : Option TK,
    ok_hi lexCmp a x → ok_hi lexCmp none x := by
  intro x a _ y hy
  cases hy

@[simp] theorem entry_eta (e : Entry) : (⟨e.tableId, e.key, e.value⟩ : Entry) = e := rfl

@[simp] theorem tk_eta (x : TK) : (⟨x.tableId, x.key⟩ : TK) = x := rfl

@[simp] theorem tk_of_mk (t : Nat) (k v : List Nat) :
    Entry.tk ⟨t, k, v⟩ = ⟨t, k⟩ := rfl

theorem entry_tk_eq (e : Entry) : Entry.tk e = ⟨e.tableId, e.key⟩ := rfl

theorem ok_hi_some_refl (x : TK) : ok_hi lexCmp (some x) x := by
  intro y hy
  cases hy
  exact tk_le_refl x

theorem ok_hi_some_of_lt {a b : TK} (h : tk_cmp lexCmp a b = .lt) :
    ok_hi lexCmp (some b) a := by
  intro y hy
  cases hy
  exact tk_le_of_lt h

theorem ok_lo_some_of_lt {a b : TK} (h : tk_cmp lexCmp a b = .lt) :
    ok_lo lexCmp (some a) b := by
  intro y hy
  cases hy
  exact is_lt_iff.mpr h

theorem lt_size_append {s : Store} {p : Nat} (hp : p < s.size) (t : List Node) :
    p < (s ++ t).size := by
  simp only [Store.size, List.length_append] at *
  omega

theorem size_lt_append {s : Store} {n : Node} (t : List Node) :
    s.size < ((s ++ [n]) ++ t).size := by
  simp only [Store.size, List.length_append, List.length_cons, List.length_nil]
  omega

theorem size_lt_one {s : Store} {n : Node} : s.size < (s ++ [n]).size := by
  simp only [Store.size, List.length_append, List.length_cons, List.length_nil]
  omega

theorem size_lt_two {s : Store} {n1 n2 : Node} : s.size < (s ++ [n1, n2]).size := by
  simp only [Store.size, List.length_append, List.length_cons, List.length_nil]
  omega

theorem size_succ_lt_two {s : Store} {n1 n2 : Node} :
    s.size + 1 < (s ++ [n1, n2]).size := by
  simp only [Store.size, List.length_append, List.length_cons, List.length_nil]
  omega

theorem get_page_two_fst {s : Store} {n1 n2 : Node} :
    get_page (s ++ [n1, n2]) s.size = n1 := by
  have h : s ++ [n1, n2] = (s ++ [n1]) ++ [n2] := by simp
  rw [h, get_page_extends ⟨[n2], rfl⟩ size_lt_one]
  exact get_page_new

theorem get_page_two_snd {s : Store} {n1 n2 : Node} :
    get_page (s ++ [n1, n2]) (s.size + 1) = n2 := by
  have h : s ++ [n1, n2] = (s ++ [n1]) ++ [n2] := by simp
  have h2 : s.size + 1 = (s ++ [n1]).size := by
    simp [Store.size]
  rw [h, h2]
  exact get_page_new

/-! ## Lemmas: lookup -/

theorem lookup_step_found {s : Store} {p table : Nat} {key : List Nat}
    {pairs : List (Nat × TK)} {lastp c : Nat} {sep : TK}
    (hpage : get_page s p = .internal pairs lastp)
    (hfind : pairs.find? (fun pr =>
      is_le (cmp_keys lexCmp table key pr.2.tableId pr.2.key)) = some (c, sep))
    (g : Nat) :
    lookup_in_raw lexCmp (g + 1) s p table key =
      lookup_in_raw lexCmp g s c table key := by
  simp only [lookup_in_raw, hpage, hfind]

theorem lookup_step_last {s : Store} {p table : Nat} {key : List Nat}
    {pairs : List (Nat × TK)} {lastp : Nat}
    (hpage : get_page s p = .internal pairs lastp)
    (hfind : pairs.find? (fun pr =>
      is_le (cmp_keys lexCmp table key pr.2.tableId pr.2.key)) = none)
    (g : Nat) :
    lookup_in_raw lexCmp (g + 1) s p table key =
      lookup_in_raw lexCmp g s lastp table key := by
  simp only [lookup_in_raw, hpage, hfind]

theorem lookup_in_raw_extends {s s' : Store} (hx : Extends s s') {p h : Nat}
    {lo hi : Option TK} (hwf : WF lexCmp s p h lo hi) :
    ∀ g table key, lookup_in_raw lexCmp g s' p table key =
      lookup_in_raw lexCmp g s p table key := by
  induction hwf with
  | leaf1 hp hpage hlo hhi =>
    intro g table key
    cases g with
    | zero => rfl
    | succ g => simp only [lookup_in_raw, get_page_extends hx hp, hpage]
  | leaf2 hp hpage hord hlo hlog hhi hhig =>
    intro g table key
    cases g with
    | zero => rfl
    | succ g => simp only [lookup_in_raw, get_page_extends hx hp, hpage]
  | internal2 hp hpage hc0 hlast hwf0 hwfl ih0 ihl =>
    intro g table key
    rename_i p c0 lastp h' s0 lo' hi'
    have hpage' : get_page s' p = Node.internal [(c0, s0)] lastp := by
      rw [get_page_extends hx hp]
      exact hpage
    cases g with
    | zero => rfl
    | succ g =>
      cases hle : is_le (cmp_keys lexCmp table key s0.tableId s0.key) with
      | true =>
        have hfind : [(c0, s0)].find? (fun pr =>
            is_le (cmp_keys lexCmp table key pr.2.tableId pr.2.key)) = some (c0, s0) :=
          List.find?_cons_of_pos _ hle
        rw [lookup_step_found hpage' hfind, lookup_step_found hpage hfind]
        exact ih0 g table key
      | false =>
        have hfind : [(c0, s0)].find? (fun pr =>
            is_le (cmp_keys lexCmp table key pr.2.tableId pr.2.key)) = none := by
          rw [List.find?_cons_of_neg _ (by simp [hle]), List.find?_nil]
        rw [lookup_step_last hpage' hfind, lookup_step_last hpage hfind]
        exact ihl g table key
  | internal3 hp hpage hc0 hc1 hlast hwf0 hwf1 hwfl ih0 ih1 ihl =>
    intro g table key
    rename_i p c0 c1 lastp h' s0 s1 lo' hi'
    have hpage' : get_page s' p = Node.internal [(c0, s0), (c1, s1)] lastp := by
      rw [get_page_extends hx hp]
      exact hpage
    cases g with
    | zero => rfl
    | succ g =>
      cases hle0 : is_le (cmp_keys lexCmp table key s0.tableId s0.key) with
      | true =>
        have hfind : [(c0, s0), (c1, s1)].find? (fun pr =>
            is_le (cmp_keys lexCmp table key pr.2.tableId pr.2.key)) = some (c0, s0) :=
          List.find?_cons_of_pos _ hle0
        rw [lookup_step_found hpage' hfind, lookup_step_found hpage hfind]
        exact ih0 g table key
      | false =>
        cases hle1 : is_le (cmp_keys lexCmp table key s1.tableId s1.key) with
        | true =>
          have hfind : [(c0, s0), (c1, s1)].find? (fun pr =>
              is_le (cmp_keys lexCmp table key pr.2.tableId pr.2.key)) = some (c1, s1) := by
            rw [List.find?_cons_of_neg _ (by simp [hle0])]
            exact List.find?_cons_of_pos _ hle1
          rw [lookup_step_found hpage' hfind, lookup_step_found hpage hfind]
          exact ih1 g table key
        | false =>
          have hfind : [(c0, s0), (c1, s1)].find? (fun pr =>
              is_le (cmp_keys lexCmp table key pr.2.tableId pr.2.key)) = none := by
            rw [List.find?_cons_of_neg _ (by simp [hle0]),
              List.find?_cons_of_neg _ (by simp [hle1]), List.find?_nil]
          rw [lookup_step_last hpage' hfind, lookup_step_last hpage hfind]
          exact ihl g table key

theorem lookup_finds_extends {s s' : Store} (hx : Extends s s') {p h : Nat}
    {lo hi : Option TK} (hwf : WF lexCmp s p h lo hi) {g table : Nat}
    {key value : List Nat} (hf : lookup_finds g s p table key value) :
    lookup_finds g s' p table key value := by
  obtain ⟨q, off, hq, hlk, hb⟩ := hf
  refine ⟨q, off, lt_of_lt_of_le hq hx.size_le, ?_, ?_⟩
  · rw [lookup_in_raw_extends hx hwf]
    exact hlk
  · rw [get_page_extends hx hq]
    exact hb

theorem lookup_finds_lesser {s : Store} {p table : Nat} {key value : List Nat}
    {g? : Option Entry} (hp : p < s.size)
    (hpage : get_page s p = .leaf ⟨table, key, value⟩ g?) :
    ∀ g, 0 < g → lookup_finds g s p table key value := by
  intro g hg
  obtain ⟨g', rfl⟩ : ∃ g', g = g' + 1 := ⟨g - 1, by omega⟩
  have hself : cmp_keys lexCmp table key table key = .eq := tk_cmp_self ⟨table, key⟩
  refine ⟨p, 1 + Entry.value_offset ⟨table, key, value⟩, hp, ?_, ?_⟩
  · simp only [lookup_in_raw, hpage, hself]
  · rw [hpage]
    exact node_bytes_extract_lesser ⟨table, key, value⟩ g?

theorem lookup_finds_greater {s : Store} {p table : Nat} {key value : List Nat}
    {e : Entry} (hp : p < s.size)
    (hpage : get_page s p = .leaf e (some ⟨table, key, value⟩))
    (hgt : cmp_keys lexCmp table key e.tableId e.key = .gt) :
    ∀ g, 0 < g → lookup_finds g s p table key value := by
  intro g hg
  obtain ⟨g', rfl⟩ : ∃ g', g = g' + 1 := ⟨g - 1, by omega⟩
  have hself : entry_compare lexCmp ⟨table, key, value⟩ table key = .eq :=
    tk_cmp_self ⟨table, key⟩
  refine ⟨p, (1 + e.raw_len) + Entry.value_offset ⟨table, key, value⟩, hp, ?_, ?_⟩
  · simp only [lookup_in_raw, hpage, hgt, hself]
    rfl
  · rw [hpage]
    exact node_bytes_extract_greater e ⟨table, key, value⟩

theorem lookup_finds_step_found {s : Store} {p table : Nat} {key value : List Nat}
    {pairs : List (Nat × TK)} {lastp c : Nat} {sep : TK}
    (hpage : get_page s p = .internal pairs lastp)
    (hfind : pairs.find? (fun pr =>
      is_le (cmp_keys lexCmp table key pr.2.tableId pr.2.key)) = some (c, sep))
    {h : Nat} (hpl : ∀ g, h < g → lookup_finds g s c table key value) :
    ∀ g, h + 1 < g → lookup_finds g s p table key value := by
  intro g hg
  obtain ⟨g', rfl⟩ : ∃ g', g = g' + 1 := ⟨g - 1, by omega⟩
  obtain ⟨q, off, hq, hlk, hb⟩ := hpl g' (by omega)
  refine ⟨q, off, hq, ?_, hb⟩
  rw [lookup_step_found hpage hfind]
  exact hlk

theorem lookup_finds_step_last {s : Store} {p table : Nat} {key value : List Nat}
    {pairs : List (Nat × TK)} {lastp : Nat}
    (hpage : get_page s p = .internal pairs lastp)
    (hfind : pairs.find? (fun pr =>
      is_le (cmp_keys lexCmp table key pr.2.tableId pr.2.key)) = none)
    {h : Nat} (hpl : ∀ g, h < g → lookup_finds g s lastp table key value) :
    ∀ g, h + 1 < g → lookup_finds g s p table key value := by
  intro g hg
  obtain ⟨g', rfl⟩ : ∃ g', g = g' + 1 := ⟨g - 1, by omega⟩
  obtain ⟨q, off, hq, hlk, hb⟩ := hpl g' (by omega)
  refine ⟨q, off, hq, ?_, hb⟩
  rw [lookup_step_last hpage hfind]
  exact hlk

/-! ## The insert specification -/


theorem is_le_keys_of_tk {c : List Nat → List Nat → Ordering} {t : Nat}
    {k : List Nat} {x : TK} {b : Bool}
    (h : is_le (tk_cmp c ⟨t, k⟩ x) = b) :
    is_le (cmp_keys c t k x.tableId x.key) = b := h

@[simp] theorem tk_mk_entry (e : Entry) :
    (⟨e.tableId, e.key⟩ : TK) = e.tk := rfl

@[simp] theorem size_append_one (s : Store) (n : Node) :
    (s ++ [n]).size = s.size + 1 := by
  simp [Store.size]

/-- `tree_insert_helper` on a well-formed subtree whose bounds admit the
inserted key: the store only grows; well-formedness is preserved at the
same height and bounds (with the bounds split at the reported separator
when the node splits); and the inserted key subsequently looks up to the
inserted value in the resulting subtree (on the left or the right page of a
split according to the separator). -/
theorem insert_helper_spec {s : Store} {p h : Nat} {lo hi : Option TK}
    (hwf : WF lexCmp s p h lo hi) :
    ∀ f table key value, h < f →
      ok_lo lexCmp lo ⟨table, key⟩ → ok_hi lexCmp hi ⟨table, key⟩ →
      ∀ q1 more gd s',
        tree_insert_helper lexCmp f s p table key value = (q1, more, gd, s') →
        Extends s s' ∧
        match more with
        | none =>
            WF lexCmp s' q1 h lo hi ∧
            ∀ g', h < g' → lookup_finds g' s' q1 table key value
        | some (sk, q2) =>
            WF lexCmp s' q1 h lo (some sk) ∧
            WF lexCmp s' q2 h (some sk) hi ∧
            (is_le (tk_cmp lexCmp ⟨table, key⟩ sk) = true →
              ∀ g', h < g' → lookup_finds g' s' q1 table key value) ∧
            (is_le (tk_cmp lexCmp ⟨table, key⟩ sk) = false →
              ∀ g', h < g' → lookup_finds g' s' q2 table key value) := by
  induction hwf with
  | leaf1 hp hpage hlo hhi =>
    rename_i p e lo hi
    intro f t k v hf hloq hhiq q1 more gd s' heq
    obtain ⟨f', rfl⟩ : ∃ f', f = f' + 1 := ⟨f - 1, by omega⟩
    simp only [tree_insert_helper, hpage] at heq
    rcases hcmp : cmp_keys lexCmp e.tableId e.key t k with _ | _ | _ <;>
      rw [hcmp] at heq <;>
      simp only [make_mut_double_leaf_right, make_mut_single_leaf,
        make_mut_double_leaf_left, allocate, Prod.mk.injEq, entry_eta] at heq <;>
      obtain ⟨rfl, rfl, rfl, rfl⟩ := heq
    · -- e < (t, k): new double leaf (e, new), guard right
      have hlt : tk_cmp lexCmp e.tk ⟨t, k⟩ = .lt := hcmp
      refine ⟨⟨_, rfl⟩, ?_, ?_⟩
      · exact WF.leaf2 size_lt_one get_page_new (is_lt_iff.mpr hlt) hlo hloq hhi hhiq
      · intro g' hg'
        exact lookup_finds_greater size_lt_one get_page_new
          (tk_cmp_gt_iff.mpr hlt) g' (by omega)
    · -- e == (t, k): replace by a new single leaf
      refine ⟨⟨_, rfl⟩, ?_, ?_⟩
      · exact WF.leaf1 size_lt_one get_page_new hloq hhiq
      · intro g' hg'
        exact lookup_finds_lesser size_lt_one get_page_new g' (by omega)
    · -- (t, k) < e: new double leaf (new, e), guard left
      have hlt : tk_cmp lexCmp ⟨t, k⟩ e.tk = .lt := tk_cmp_gt_iff.mp hcmp
      refine ⟨⟨_, rfl⟩, ?_, ?_⟩
      · exact WF.leaf2 size_lt_one get_page_new (is_lt_iff.mpr hlt) hloq hlo hhiq hhi
      · intro g' hg'
        exact lookup_finds_lesser size_lt_one get_page_new g' (by omega)
  | leaf2 hp hpage hord hlo hlog hhi hhig =>
    rename_i p e ge lo hi
    intro f t k v hf hloq hhiq q1 more gd s' heq
    obtain ⟨f', rfl⟩ : ∃ f', f = f' + 1 := ⟨f - 1, by omega⟩
    simp only [tree_insert_helper, hpage] at heq
    rcases hcmp : entry_compare lexCmp ge t k with _ | _ | _ <;> rw [hcmp] at heq
    · -- ge < (t, k): keep the page, fresh right single leaf, separator ge
      simp only [make_mut_single_leaf, allocate, Prod.mk.injEq, entry_eta,
        tk_mk_entry] at heq
      obtain ⟨rfl, rfl, rfl, rfl⟩ := heq
      have hlt : tk_cmp lexCmp ge.tk ⟨t, k⟩ = .lt := hcmp
      refine ⟨⟨_, rfl⟩, ?_, ?_, ?_, ?_⟩
      · refine WF.leaf2 (lt_size_append hp _) ?_ hord hlo hlog
          (ok_hi_some_of_lt (is_lt_iff.mp hord)) (ok_hi_some_refl ge.tk)
        rw [get_page_extends ⟨_, rfl⟩ hp]
        exact hpage
      · exact WF.leaf1 size_lt_one get_page_new (ok_lo_some_of_lt hlt) hhiq
      · intro habs
        rw [tk_cmp_gt_iff.mpr hlt] at habs
        cases habs
      · intro _ g' hg'
        exact lookup_finds_lesser size_lt_one get_page_new g' (by omega)
    · -- ge == (t, k): replace greater in place, no split
      simp only [make_mut_double_leaf_right, allocate, Prod.mk.injEq, entry_eta] at heq
      obtain ⟨rfl, rfl, rfl, rfl⟩ := heq
      have hge : ge.tk = ⟨t, k⟩ := tk_cmp_eq_iff.mp hcmp
      refine ⟨⟨_, rfl⟩, ?_, ?_⟩
      · refine WF.leaf2 size_lt_one get_page_new ?_ hlo hloq hhi hhiq
        show is_lt (tk_cmp lexCmp e.tk (⟨t, k⟩ : TK)) = true
        rw [← hge]
        exact hord
      · intro g' hg'
        refine lookup_finds_greater size_lt_one get_page_new ?_ g' (by omega)
        show cmp_keys lexCmp t k e.tableId e.key = .gt
        have helt : tk_cmp lexCmp e.tk ge.tk = .lt := is_lt_iff.mp hord
        rw [hge] at helt
        exact tk_cmp_gt_iff.mpr helt
    · -- (t, k) < ge: compare with the lesser entry
      have hgelt : tk_cmp lexCmp ⟨t, k⟩ ge.tk = .lt := tk_cmp_gt_iff.mp hcmp
      rcases hcmp2 : cmp_keys lexCmp e.tableId e.key t k with _ | _ | _ <;>
        rw [hcmp2] at heq <;>
        simp only [make_mut_double_leaf_right, make_mut_double_leaf_left,
          make_single_leaf, allocate, Prod.mk.injEq, entry_eta, tk_mk_entry,
          List.append_assoc, List.singleton_append, List.cons_append,
          List.nil_append, size_append_one] at heq <;>
        obtain ⟨rfl, rfl, rfl, rfl⟩ := heq
      · -- e < (t, k) < ge: double (e, new) + single (ge), separator (t, k)
        have helt : tk_cmp lexCmp e.tk ⟨t, k⟩ = .lt := hcmp2
        have hx1 : Extends s (s ++ [Node.leaf e (some ⟨t, k, v⟩)]) := ⟨_, rfl⟩
        have hx2 : Extends (s ++ [Node.leaf e (some ⟨t, k, v⟩)])
            (s ++ [Node.leaf e (some ⟨t, k, v⟩), Node.leaf ge none]) :=
          ⟨[Node.leaf ge none], by simp⟩
        have hwfL : WF lexCmp (s ++ [Node.leaf e (some ⟨t, k, v⟩)]) s.size 1
            lo (some ⟨t, k⟩) :=
          WF.leaf2 size_lt_one get_page_new (is_lt_iff.mpr helt) hlo hloq
            (ok_hi_some_of_lt helt) (ok_hi_some_refl _)
        refine ⟨hx1.trans hx2, hwfL.extends hx2, ?_, ?_, ?_⟩
        · exact WF.leaf1 size_succ_lt_two get_page_two_snd
            (ok_lo_some_of_lt hgelt) hhig
        · intro _ g' hg'
          exact lookup_finds_extends hx2 hwfL
            (lookup_finds_greater size_lt_one get_page_new
              (tk_cmp_gt_iff.mpr helt) g' (by omega))
        · intro habs
          rw [tk_cmp_self] at habs
          cases habs
      · -- e == (t, k): double (new, ge), no split
        refine ⟨⟨_, rfl⟩, ?_, ?_⟩
        · exact WF.leaf2 size_lt_one get_page_new (is_lt_iff.mpr hgelt)
            hloq hlog hhiq hhig
        · intro g' hg'
          exact lookup_finds_lesser size_lt_one get_page_new g' (by omega)
      · -- (t, k) < e: double (new, e) + single (ge), separator e
        have helt : tk_cmp lexCmp ⟨t, k⟩ e.tk = .lt := tk_cmp_gt_iff.mp hcmp2
        have hx1 : Extends s (s ++ [Node.leaf ⟨t, k, v⟩ (some e)]) := ⟨_, rfl⟩
        have hx2 : Extends (s ++ [Node.leaf ⟨t, k, v⟩ (some e)])
            (s ++ [Node.leaf ⟨t, k, v⟩ (some e), Node.leaf ge none]) :=
          ⟨[Node.leaf ge none], by simp⟩
        have hwfL : WF lexCmp (s ++ [Node.leaf ⟨t, k, v⟩ (some e)]) s.size 1
            lo (some e.tk) :=
          WF.leaf2 size_lt_one get_page_new (is_lt_iff.mpr helt) hloq hlo
            (ok_hi_some_of_lt helt) (ok_hi_some_refl _)
        refine ⟨hx1.trans hx2, hwfL.extends hx2, ?_, ?_, ?_⟩
        · refine WF.leaf1 size_succ_lt_two get_page_two_snd ?_ hhig
          intro y hy
          cases hy
          exact hord
        · intro _ g' hg'
          exact lookup_finds_extends hx2 hwfL
            (lookup_finds_lesser size_lt_one get_page_new g' (by omega))
        · intro habs
          rw [helt] at habs
          cases habs
  | internal2 hp hpage hc0 hlast hwf0 hwfl ih0 ihl =>
    rename_i p c0 lastp h s0 lo hi
    intro f t k v hf hloq hhiq q1 more gd s' heq
    obtain ⟨f', rfl⟩ : ∃ f', f = f' + 1 := ⟨f - 1, by omega⟩
    simp only [tree_insert_helper, hpage, ins_loop] at heq
    by_cases hle : is_le (cmp_keys lexCmp t k s0.tableId s0.key) = true
    · -- route into child 0
      rw [if_pos hle] at heq
      have hhiq0 : ok_hi lexCmp (some s0) ⟨t, k⟩ := by
        intro y hy
        cases hy
        exact hle
      rcases hrec : tree_insert_helper lexCmp f' s c0 t k v with ⟨p1, more1, g1, s1⟩
      rw [hrec] at heq
      have hspec := ih0 f' t k v (by omega) hloq hhiq0 p1 more1 g1 s1 hrec
      cases more1 with
      | none =>
        obtain ⟨hx1, hwfn, hpl⟩ := hspec
        have hss := hx1.size_le
        simp [build_insert, allocate, BTREE_ORDER, Prod.mk.injEq] at heq
        obtain ⟨rfl, rfl, rfl, rfl⟩ := heq
        refine ⟨hx1.trans ⟨_, rfl⟩, ?_, ?_⟩
        · exact WF.internal2 size_lt_one get_page_new hwfn.lt_size (by omega)
            (hwfn.extends ⟨_, rfl⟩) ((hwfl.extends hx1).extends ⟨_, rfl⟩)
        · have hfind : [(p1, s0)].find? (fun pr =>
              is_le (cmp_keys lexCmp t k pr.2.tableId pr.2.key)) = some (p1, s0) :=
            List.find?_cons_of_pos _ hle
          exact lookup_finds_step_found get_page_new hfind
            (fun g' hg' => lookup_finds_extends ⟨_, rfl⟩ hwfn (hpl g' hg'))
      | some skp2 =>
        obtain ⟨sk1, p2⟩ := skp2
        obtain ⟨hx1, hwfL, hwfR, hpll, hplr⟩ := hspec
        have hss := hx1.size_le
        simp [build_insert, allocate, BTREE_ORDER, Prod.mk.injEq] at heq
        obtain ⟨rfl, rfl, rfl, rfl⟩ := heq
        refine ⟨hx1.trans ⟨_, rfl⟩, ?_, ?_⟩
        · exact WF.internal3 size_lt_one get_page_new hwfL.lt_size hwfR.lt_size
            (by omega) (hwfL.extends ⟨_, rfl⟩) (hwfR.extends ⟨_, rfl⟩)
            ((hwfl.extends hx1).extends ⟨_, rfl⟩)
        · cases hle1 : is_le (tk_cmp lexCmp ⟨t, k⟩ sk1) with
          | true =>
            have hfind : [(p1, sk1), (p2, s0)].find? (fun pr =>
                is_le (cmp_keys lexCmp t k pr.2.tableId pr.2.key)) = some (p1, sk1) :=
              List.find?_cons_of_pos _ hle1
            exact lookup_finds_step_found get_page_new hfind
              (fun g' hg' => lookup_finds_extends ⟨_, rfl⟩ hwfL (hpll hle1 g' hg'))
          | false =>
            have hfind : [(p1, sk1), (p2, s0)].find? (fun pr =>
                is_le (cmp_keys lexCmp t k pr.2.tableId pr.2.key)) = some (p2, s0) := by
              rw [List.find?_cons_of_neg _ (by simp [is_le_keys_of_tk hle1])]
              exact List.find?_cons_of_pos _ hle
            exact lookup_finds_step_found get_page_new hfind
              (fun g' hg' => lookup_finds_extends ⟨_, rfl⟩ hwfR (hplr hle1 g' hg'))
    · -- route into the final child
      rw [if_neg hle] at heq
      have hloq' : ok_lo lexCmp (some s0) ⟨t, k⟩ := by
        intro y hy
        cases hy
        exact is_lt_iff.mpr (tk_not_le_iff.mp hle)
      rcases hrec : tree_insert_helper lexCmp f' s lastp t k v with ⟨p1, more1, g1, s1⟩
      rw [hrec] at heq
      have hspec := ihl f' t k v (by omega) hloq' hhiq p1 more1 g1 s1 hrec
      cases more1 with
      | none =>
        obtain ⟨hx1, hwfn, hpl⟩ := hspec
        have hss := hx1.size_le
        simp [build_insert, allocate, BTREE_ORDER, Prod.mk.injEq] at heq
        obtain ⟨rfl, rfl, rfl, rfl⟩ := heq
        refine ⟨hx1.trans ⟨_, rfl⟩, ?_, ?_⟩
        · exact WF.internal2 size_lt_one get_page_new (by omega) hwfn.lt_size
            ((hwf0.extends hx1).extends ⟨_, rfl⟩) (hwfn.extends ⟨_, rfl⟩)
        · have hfind : [(c0, s0)].find? (fun pr =>
              is_le (cmp_keys lexCmp t k pr.2.tableId pr.2.key)) = none := by
            rw [List.find?_cons_of_neg _ (by simp [hle]), List.find?_nil]
          exact lookup_finds_step_last get_page_new hfind
            (fun g' hg' => lookup_finds_extends ⟨_, rfl⟩ hwfn (hpl g' hg'))
      | some skp2 =>
        obtain ⟨sk1, p2⟩ := skp2
        obtain ⟨hx1, hwfL, hwfR, hpll, hplr⟩ := hspec
        have hss := hx1.size_le
        simp [build_insert, allocate, BTREE_ORDER, Prod.mk.injEq] at heq
        obtain ⟨rfl, rfl, rfl, rfl⟩ := heq
        refine ⟨hx1.trans ⟨_, rfl⟩, ?_, ?_⟩
        · exact WF.internal3 size_lt_one get_page_new (by omega) hwfL.lt_size
            hwfR.lt_size ((hwf0.extends hx1).extends ⟨_, rfl⟩)
            (hwfL.extends ⟨_, rfl⟩) (hwfR.extends ⟨_, rfl⟩)
        · cases hle1 : is_le (tk_cmp lexCmp ⟨t, k⟩ sk1) with
          | true =>
            have hfind : [(c0, s0), (p1, sk1)].find? (fun pr =>
                is_le (cmp_keys lexCmp t k pr.2.tableId pr.2.key)) = some (p1, sk1) := by
              rw [List.find?_cons_of_neg _ (by simp [hle])]
              exact List.find?_cons_of_pos _ hle1
            exact lookup_finds_step_found get_page_new hfind
              (fun g' hg' => lookup_finds_extends ⟨_, rfl⟩ hwfL (hpll hle1 g' hg'))
          | false =>
            have hfind : [(c0, s0), (p1, sk1)].find? (fun pr =>
                is_le (cmp_keys lexCmp t k pr.2.tableId pr.2.key)) = none := by
              rw [List.find?_cons_of_neg _ (by simp [hle]),
                List.find?_cons_of_neg _ (by simp [is_le_keys_of_tk hle1]), List.find?_nil]
            exact lookup_finds_step_last get_page_new hfind
              (fun g' hg' => lookup_finds_extends ⟨_, rfl⟩ hwfR (hplr hle1 g' hg'))
  | internal3 hp hpage hc0 hc1 hlast hwf0 hwf1 hwfl ih0 ih1 ihl =>
    rename_i p c0 c1 lastp h s0 s1 lo hi
    intro f t k v hf hloq hhiq q1 more gd s' heq
    obtain ⟨f', rfl⟩ : ∃ f', f = f' + 1 := ⟨f - 1, by omega⟩
    simp only [tree_insert_helper, hpage, ins_loop] at heq
    by_cases hle0 : is_le (cmp_keys lexCmp t k s0.tableId s0.key) = true
    · -- route into child 0
      rw [if_pos hle0] at heq
      have hhiq0 : ok_hi lexCmp (some s0) ⟨t, k⟩ := by
        intro y hy
        cases hy
        exact hle0
      rcases hrec : tree_insert_helper lexCmp f' s c0 t k v with ⟨p1, more1, g1, st1⟩
      rw [hrec] at heq
      have hspec := ih0 f' t k v (by omega) hloq hhiq0 p1 more1 g1 st1 hrec
      cases more1 with
      | none =>
        obtain ⟨hx1, hwfn, hpl⟩ := hspec
        have hss := hx1.size_le
        simp [build_insert, allocate, BTREE_ORDER, Prod.mk.injEq] at heq
        obtain ⟨rfl, rfl, rfl, rfl⟩ := heq
        refine ⟨hx1.trans ⟨_, rfl⟩, ?_, ?_⟩
        · exact WF.internal3 size_lt_one get_page_new hwfn.lt_size (by omega)
            (by omega) (hwfn.extends ⟨_, rfl⟩) ((hwf1.extends hx1).extends ⟨_, rfl⟩)
            ((hwfl.extends hx1).extends ⟨_, rfl⟩)
        · have hfind : [(p1, s0), (c1, s1)].find? (fun pr =>
              is_le (cmp_keys lexCmp t k pr.2.tableId pr.2.key)) = some (p1, s0) :=
            List.find?_cons_of_pos _ hle0
          exact lookup_finds_step_found get_page_new hfind
            (fun g' hg' => lookup_finds_extends ⟨_, rfl⟩ hwfn (hpl g' hg'))
      | some skp2 =>
        obtain ⟨sk1, p2⟩ := skp2
        obtain ⟨hx1, hwfL, hwfR, hpll, hplr⟩ := hspec
        have hss := hx1.size_le
        simp [build_insert, allocate, BTREE_ORDER, Prod.mk.injEq] at heq
        obtain ⟨rfl, rfl, rfl, rfl⟩ := heq
        -- four children: split into two internal pages, middle separator s0
        have hxA : Extends st1 (st1 ++ [Node.internal [(p1, sk1)] p2,
            Node.internal [(c1, s1)] lastp]) := ⟨_, rfl⟩
        refine ⟨hx1.trans hxA, ?_, ?_, ?_, ?_⟩
        · exact WF.internal2 size_lt_two get_page_two_fst hwfL.lt_size hwfR.lt_size
            (hwfL.extends hxA) (hwfR.extends hxA)
        · exact WF.internal2 size_succ_lt_two get_page_two_snd (by omega) (by omega)
            ((hwf1.extends hx1).extends hxA) ((hwfl.extends hx1).extends hxA)
        · intro _
          cases hle1 : is_le (tk_cmp lexCmp ⟨t, k⟩ sk1) with
          | true =>
            have hfind : [(p1, sk1)].find? (fun pr =>
                is_le (cmp_keys lexCmp t k pr.2.tableId pr.2.key)) = some (p1, sk1) :=
              List.find?_cons_of_pos _ hle1
            exact lookup_finds_step_found get_page_two_fst hfind
              (fun g' hg' => lookup_finds_extends hxA hwfL (hpll hle1 g' hg'))
          | false =>
            have hfind : [(p1, sk1)].find? (fun pr =>
                is_le (cmp_keys lexCmp t k pr.2.tableId pr.2.key)) = none := by
              rw [List.find?_cons_of_neg _ (by simp [is_le_keys_of_tk hle1]), List.find?_nil]
            exact lookup_finds_step_last get_page_two_fst hfind
              (fun g' hg' => lookup_finds_extends hxA hwfR (hplr hle1 g' hg'))
        · intro habs
          rw [show is_le (tk_cmp lexCmp ⟨t, k⟩ s0) = true from hle0] at habs
          cases habs
    · rw [if_neg hle0] at heq
      have hlo0 : ok_lo lexCmp (some s0) ⟨t, k⟩ := by
        intro y hy
        cases hy
        exact is_lt_iff.mpr (tk_not_le_iff.mp hle0)
      by_cases hle1 : is_le (cmp_keys lexCmp t k s1.tableId s1.key) = true
      · -- route into child 1
        rw [if_pos hle1] at heq
        have hhiq1 : ok_hi lexCmp (some s1) ⟨t, k⟩ := by
          intro y hy
          cases hy
          exact hle1
        rcases hrec : tree_insert_helper lexCmp f' s c1 t k v with ⟨p1, more1, g1, st1⟩
        rw [hrec] at heq
        have hspec := ih1 f' t k v (by omega) hlo0 hhiq1 p1 more1 g1 st1 hrec
        cases more1 with
        | none =>
          obtain ⟨hx1, hwfn, hpl⟩ := hspec
          have hss := hx1.size_le
          simp [build_insert, allocate, BTREE_ORDER, Prod.mk.injEq] at heq
          obtain ⟨rfl, rfl, rfl, rfl⟩ := heq
          refine ⟨hx1.trans ⟨_, rfl⟩, ?_, ?_⟩
          · exact WF.internal3 size_lt_one get_page_new (by omega) hwfn.lt_size
              (by omega) ((hwf0.extends hx1).extends ⟨_, rfl⟩)
              (hwfn.extends ⟨_, rfl⟩) ((hwfl.extends hx1).extends ⟨_, rfl⟩)
          · have hfind : [(c0, s0), (p1, s1)].find? (fun pr =>
                is_le (cmp_keys lexCmp t k pr.2.tableId pr.2.key)) = some (p1, s1) := by
              rw [List.find?_cons_of_neg _ (by simp [hle0])]
              exact List.find?_cons_of_pos _ hle1
            exact lookup_finds_step_found get_page_new hfind
              (fun g' hg' => lookup_finds_extends ⟨_, rfl⟩ hwfn (hpl g' hg'))
        | some skp2 =>
          obtain ⟨sk1, p2⟩ := skp2
          obtain ⟨hx1, hwfL, hwfR, hpll, hplr⟩ := hspec
          have hss := hx1.size_le
          simp [build_insert, allocate, BTREE_ORDER, Prod.mk.injEq] at heq
          obtain ⟨rfl, rfl, rfl, rfl⟩ := heq
          -- split: left page (c0, p1), right page (p2, lastp), separator sk1
          have hxA : Extends st1 (st1 ++ [Node.internal [(c0, s0)] p1,
              Node.internal [(p2, s1)] lastp]) := ⟨_, rfl⟩
          refine ⟨hx1.trans hxA, ?_, ?_, ?_, ?_⟩
          · exact WF.internal2 size_lt_two get_page_two_fst (by omega) hwfL.lt_size
              ((hwf0.extends hx1).extends hxA) (hwfL.extends hxA)
          · exact WF.internal2 size_succ_lt_two get_page_two_snd
              (Nat.lt_succ_of_lt hwfR.lt_size) (by omega)
              (hwfR.extends hxA) ((hwfl.extends hx1).extends hxA)
          · intro hq
            have hfind : [(c0, s0)].find? (fun pr =>
                is_le (cmp_keys lexCmp t k pr.2.tableId pr.2.key)) = none := by
              rw [List.find?_cons_of_neg _ (by simp [hle0]), List.find?_nil]
            exact lookup_finds_step_last get_page_two_fst hfind
              (fun g' hg' => lookup_finds_extends hxA hwfL (hpll hq g' hg'))
          · intro hq
            have hfind : [(p2, s1)].find? (fun pr =>
                is_le (cmp_keys lexCmp t k pr.2.tableId pr.2.key)) = some (p2, s1) :=
              List.find?_cons_of_pos _ hle1
            exact lookup_finds_step_found get_page_two_snd hfind
              (fun g' hg' => lookup_finds_extends hxA hwfR (hplr hq g' hg'))
      · -- route into the final child
        rw [if_neg hle1] at heq
        have hlo1 : ok_lo lexCmp (some s1) ⟨t, k⟩ := by
          intro y hy
          cases hy
          exact is_lt_iff.mpr (tk_not_le_iff.mp hle1)
        rcases hrec : tree_insert_helper lexCmp f' s lastp t k v with ⟨p1, more1, g1, st1⟩
        rw [hrec] at heq
        have hspec := ihl f' t k v (by omega) hlo1 hhiq p1 more1 g1 st1 hrec
        cases more1 with
        | none =>
          obtain ⟨hx1, hwfn, hpl⟩ := hspec
          have hss := hx1.size_le
          simp [build_insert, allocate, BTREE_ORDER, Prod.mk.injEq] at heq
          obtain ⟨rfl, rfl, rfl, rfl⟩ := heq
          refine ⟨hx1.trans ⟨_, rfl⟩, ?_, ?_⟩
          · exact WF.internal3 size_lt_one get_page_new (by omega) (by omega)
              hwfn.lt_size ((hwf0.extends hx1).extends ⟨_, rfl⟩)
              ((hwf1.extends hx1).extends ⟨_, rfl⟩) (hwfn.extends ⟨_, rfl⟩)
          · have hfind : [(c0, s0), (c1, s1)].find? (fun pr =>
                is_le (cmp_keys lexCmp t k pr.2.tableId pr.2.key)) = none := by
              rw [List.find?_cons_of_neg _ (by simp [hle0]),
                List.find?_cons_of_neg _ (by simp [hle1]), List.find?_nil]
            exact lookup_finds_step_last get_page_new hfind
              (fun g' hg' => lookup_finds_extends ⟨_, rfl⟩ hwfn (hpl g' hg'))
        | some skp2 =>
          obtain ⟨sk1, p2⟩ := skp2
          obtain ⟨hx1, hwfL, hwfR, hpll, hplr⟩ := hspec
          have hss := hx1.size_le
          simp [build_insert, allocate, BTREE_ORDER, Prod.mk.injEq] at heq
          obtain ⟨rfl, rfl, rfl, rfl⟩ := heq
          -- split: left page (c0, c1), right page (p1, p2), separator s1
          have hxA : Extends st1 (st1 ++ [Node.internal [(c0, s0)] c1,
              Node.internal [(p1, sk1)] p2]) := ⟨_, rfl⟩
          refine ⟨hx1.trans hxA, ?_, ?_, ?_, ?_⟩
          · exact WF.internal2 size_lt_two get_page_two_fst (by omega) (by omega)
              ((hwf0.extends hx1).extends hxA) ((hwf1.extends hx1).extends hxA)
          · exact WF.internal2 size_succ_lt_two get_page_two_snd
              (Nat.lt_succ_of_lt hwfL.lt_size) (Nat.lt_succ_of_lt hwfR.lt_size)
              (hwfL.extends hxA) (hwfR.extends hxA)
          · intro habs
            exact absurd (is_le_keys_of_tk habs) hle1
          · intro _
            cases hle2 : is_le (tk_cmp lexCmp ⟨t, k⟩ sk1) with
            | true =>
              have hfind : [(p1, sk1)].find? (fun pr =>
                  is_le (cmp_keys lexCmp t k pr.2.tableId pr.2.key)) = some (p1, sk1) :=
                List.find?_cons_of_pos _ hle2
              exact lookup_finds_step_found get_page_two_snd hfind
                (fun g' hg' => lookup_finds_extends hxA hwfL (hpll hle2 g' hg'))
            | false =>
              have hfind : [(p1, sk1)].find? (fun pr =>
                  is_le (cmp_keys lexCmp t k pr.2.tableId pr.2.key)) = none := by
                rw [List.find?_cons_of_neg _ (by simp [is_le_keys_of_tk hle2]), List.find?_nil]
              exact lookup_finds_step_last get_page_two_snd hfind
                (fun g' hg' => lookup_finds_extends hxA hwfR (hplr hle2 g' hg'))

/-! ## The delete specification: bounds, maxima and chains -/

theorem tk_le_false_of_lt {a b : TK} (h : tk_cmp lexCmp a b = .lt) :
    is_le (tk_cmp lexCmp b a) = false := by
  rw [tk_cmp_gt_iff.mpr h]
  rfl

theorem ok_lo_drop {lo : Option TK} {b : TK}
    (hlb : ∀ l ∈ lo, is_le (tk_cmp lexCmp l b) = true) :
    ∀ x : TK, ok_lo lexCmp (some b) x → ok_lo lexCmp lo x := by
  intro x hx y hy
  rw [is_lt_iff]
  exact tk_cmp_lt_of_le_of_lt (hlb y hy) (is_lt_iff.mp (hx b rfl))

theorem ok_hi_drop {hi : Option TK} {b : TK}
    (hbh : ∀ u ∈ hi, is_le (tk_cmp lexCmp b u) = true) :
    ∀ x : TK, ok_hi lexCmp (some b) x → ok_hi lexCmp hi x := by
  intro x hx y hy
  exact tk_le_trans (hx b rfl) (hbh y hy)

theorem lo_le_of_max {lo : Option TK} {m b : TK}
    (hm : ok_lo lexCmp lo m) (hmb : ok_hi lexCmp (some b) m) :
    ∀ l ∈ lo, is_le (tk_cmp lexCmp l b) = true := by
  intro l hl
  exact tk_le_of_lt (tk_cmp_lt_of_lt_of_le (is_lt_iff.mp (hm l hl)) (hmb b rfl))

theorem le_hi_of_max {hi : Option TK} {m b : TK}
    (hbm : ok_lo lexCmp (some b) m) (hmh : ok_hi lexCmp hi m) :
    ∀ u ∈ hi, is_le (tk_cmp lexCmp b u) = true := by
  intro u hu
  exact tk_le_of_lt (tk_cmp_lt_of_lt_of_le (is_lt_iff.mp (hbm b rfl)) (hmh u hu))

/-- `max_table_key` on a well-formed subtree yields its maximum
`(table_id, key)`: the subtree stays well-formed with its upper bound
tightened to the maximum, and the maximum itself lies inside the subtree's
bound interval. -/
theorem max_spec {s : Store} {p h : Nat} {lo hi : Option TK}
    (hwf : WF lexCmp s p h lo hi) :
    ∀ f, h < f →
      WF lexCmp s p h lo (some (max_table_key f s p)) ∧
      ok_lo lexCmp lo (max_table_key f s p) ∧
      ok_hi lexCmp hi (max_table_key f s p) := by
  induction hwf with
  | leaf1 hp hpage hlo hhi =>
    intro f hf
    obtain ⟨f', rfl⟩ : ∃ f', f = f' + 1 := ⟨f - 1, by omega⟩
    simp only [max_table_key, hpage]
    exact ⟨.leaf1 hp hpage hlo (ok_hi_some_refl _), hlo, hhi⟩
  | leaf2 hp hpage hord hlo hlog hhi hhig =>
    intro f hf
    obtain ⟨f', rfl⟩ : ∃ f', f = f' + 1 := ⟨f - 1, by omega⟩
    simp only [max_table_key, hpage]
    exact ⟨.leaf2 hp hpage hord hlo hlog (ok_hi_some_of_lt (is_lt_iff.mp hord))
      (ok_hi_some_refl _), hlog, hhig⟩
  | internal2 hp hpage hc0 hlast hwf0 hwfl ih0 ihl =>
    intro f hf
    obtain ⟨f', rfl⟩ : ∃ f', f = f' + 1 := ⟨f - 1, by omega⟩
    simp only [max_table_key, hpage]
    obtain ⟨hA, hB, hC⟩ := ihl f' (by omega)
    obtain ⟨_, hB0, hC0⟩ := ih0 f' (by omega)
    refine ⟨.internal2 hp hpage hc0 hlast hwf0 hA, ?_, hC⟩
    intro y hy
    rw [is_lt_iff]
    exact tk_cmp_lt_trans
      (tk_cmp_lt_of_lt_of_le (is_lt_iff.mp (hB0 y hy)) (hC0 _ rfl))
      (is_lt_iff.mp (hB _ rfl))
  | internal3 hp hpage hc0 hc1 hlast hwf0 hwf1 hwfl ih0 ih1 ihl =>
    intro f hf
    obtain ⟨f', rfl⟩ : ∃ f', f = f' + 1 := ⟨f - 1, by omega⟩
    simp only [max_table_key, hpage]
    obtain ⟨hA, hB, hC⟩ := ihl f' (by omega)
    obtain ⟨_, hB1, hC1⟩ := ih1 f' (by omega)
    obtain ⟨_, hB0, hC0⟩ := ih0 f' (by omega)
    refine ⟨.internal3 hp hpage hc0 hc1 hlast hwf0 hwf1 hA, ?_, hC⟩
    intro y hy
    rw [is_lt_iff]
    exact tk_cmp_lt_trans
      (tk_cmp_lt_trans
        (tk_cmp_lt_of_lt_of_le (is_lt_iff.mp (hB0 y hy)) (hC0 _ rfl))
        (tk_cmp_lt_of_lt_of_le (is_lt_iff.mp (hB1 _ rfl)) (hC1 _ rfl)))
      (is_lt_iff.mp (hB _ rfl))

/-- `max_table_key` only reads pages of the subtree, so it is stable under
store extension. -/
theorem max_table_key_extends {s s' : Store} (hx : Extends s s') {p h : Nat}
    {lo hi : Option TK} (hwf : WF lexCmp s p h lo hi) :
    ∀ f, h < f → max_table_key f s' p = max_table_key f s p := by
  induction hwf with
  | leaf1 hp hpage _ _ =>
    intro f hf
    obtain ⟨f', rfl⟩ : ∃ f', f = f' + 1 := ⟨f - 1, by omega⟩
    simp only [max_table_key, get_page_extends hx hp, hpage]
  | leaf2 hp hpage _ _ _ _ _ =>
    intro f hf
    obtain ⟨f', rfl⟩ : ∃ f', f = f' + 1 := ⟨f - 1, by omega⟩
    simp only [max_table_key, get_page_extends hx hp, hpage]
  | internal2 hp hpage hc0 hlast hwf0 hwfl ih0 ihl =>
    intro f hf
    obtain ⟨f', rfl⟩ : ∃ f', f = f' + 1 := ⟨f - 1, by omega⟩
    simp only [max_table_key, get_page_extends hx hp, hpage]
    exact ihl f' (by omega)
  | internal3 hp hpage hc0 hc1 hlast hwf0 hwf1 hwfl ih0 ih1 ihl =>
    intro f hf
    obtain ⟨f', rfl⟩ : ∃ f', f = f' + 1 := ⟨f - 1, by omega⟩
    simp only [max_table_key, get_page_extends hx hp, hpage]
    exact ihl f' (by omega)

theorem Chain.grow {s s' : Store} {h : Nat} {lo hi : Option TK}
    {qs : List Nat} (hc : Chain s h lo hi qs) (hx : Extends s s') :
    Chain s' h lo hi qs := by
  induction hc with
  | one hw => exact .one (hw.extends hx)
  | cons hw _ ih => exact .cons (hw.extends hx) ih

theorem Chain.relax_lo {s : Store} {h : Nat} {a hi : Option TK}
    {qs : List Nat} (hc : Chain s h a hi qs) (b : Option TK)
    (hab : ∀ x : TK, ok_lo lexCmp a x → ok_lo lexCmp b x) :
    Chain s h b hi qs := by
  cases hc with
  | one hw => exact .one (hw.weaken_lo b hab)
  | cons hw htl => exact .cons (hw.weaken_lo b hab) htl

theorem Chain.relax_hi {s : Store} {h : Nat} {lo a : Option TK}
    {qs : List Nat} (hc : Chain s h lo a qs) (b : Option TK)
    (hab : ∀ x : TK, ok_hi lexCmp a x → ok_hi lexCmp b x) :
    Chain s h lo b qs := by
  induction hc with
  | one hw => exact .one (hw.weaken_hi b hab)
  | cons hw _ ih => exact .cons hw (ih hab)

/-- Rebuilding a parent over a two-page chain, exactly as the non-`Partial`
branch of `del_finish` does: one separator, recovered as the left page's
`max_table_key`. -/
theorem chain_build2 {s : Store} {q1 q2 h f : Nat} {lo hi : Option TK}
    (hc : Chain s h lo hi [q1, q2]) (hf : h < f) :
    WF lexCmp (s ++ [Node.internal [(q1, max_table_key f s q1)] q2]) s.size
      (h + 1) lo hi := by
  cases hc with
  | cons hw1 htl =>
    cases htl with
    | cons hw2 htl2 => cases htl2
    | one hw2 =>
      obtain ⟨hA1, _, hC1⟩ := max_spec hw1 f hf
      have hw2' := hw2.weaken_lo (some (max_table_key f s q1))
        (ok_lo_mono (hC1 _ rfl))
      exact .internal2 size_lt_one get_page_new hw1.lt_size hw2.lt_size
        (hA1.extends ⟨_, rfl⟩) (hw2'.extends ⟨_, rfl⟩)

/-- Rebuilding a parent over a three-page chain, as `del_finish` does. -/
theorem chain_build3 {s : Store} {q1 q2 q3 h f : Nat} {lo hi : Option TK}
    (hc : Chain s h lo hi [q1, q2, q3]) (hf : h < f) :
    WF lexCmp
      (s ++ [Node.internal [(q1, max_table_key f s q1),
        (q2, max_table_key f s q2)] q3]) s.size (h + 1) lo hi := by
  cases hc with
  | cons hw1 htl =>
    cases htl with
    | cons hw2 htl2 =>
      cases htl2 with
      | cons hw3 htl3 => cases htl3
      | one hw3 =>
        obtain ⟨hA1, _, hC1⟩ := max_spec hw1 f hf
        obtain ⟨hA2, _, hC2⟩ := max_spec hw2 f hf
        have hw2' := hA2.weaken_lo (some (max_table_key f s q1))
          (ok_lo_mono (hC1 _ rfl))
        have hw3' := hw3.weaken_lo (some (max_table_key f s q2))
          (ok_lo_mono (hC2 _ rfl))
        exact .internal3 size_lt_one get_page_new hw1.lt_size hw2.lt_size
          hw3.lt_size (hA1.extends ⟨_, rfl⟩) (hw2'.extends ⟨_, rfl⟩)
          (hw3'.extends ⟨_, rfl⟩)

/-! ### Evaluating `sort_by_key` on the concrete page lists of `repair` -/

theorem tk_lex_le_def (a b : TK) :
    tk_lex_le a b = is_le (tk_cmp lexCmp a b) := rfl

theorem sort_pages3_sorted {f : Nat} {s : Store} {a b c : Nat}
    (h1 : tk_lex_le (max_table_key f s a) (max_table_key f s b) = true)
    (h2 : tk_lex_le (max_table_key f s b) (max_table_key f s c) = true) :
    sort_pages f s [a, b, c] = [a, b, c] := by
  simp [sort_pages, List.insertionSort, List.orderedInsert, h1, h2]

theorem sort_pages3_rot {f : Nat} {s : Store} {x a b : Nat}
    (hxa : tk_lex_le (max_table_key f s x) (max_table_key f s a) = false)
    (hxb : tk_lex_le (max_table_key f s x) (max_table_key f s b) = false)
    (hab : tk_lex_le (max_table_key f s a) (max_table_key f s b) = true) :
    sort_pages f s [x, a, b] = [a, b, x] := by
  simp [sort_pages, List.insertionSort, List.orderedInsert, hxa, hxb, hab]

theorem sort_pages4_sorted {f : Nat} {s : Store} {a b c d : Nat}
    (h1 : tk_lex_le (max_table_key f s a) (max_table_key f s b) = true)
    (h2 : tk_lex_le (max_table_key f s b) (max_table_key f s c) = true)
    (h3 : tk_lex_le (max_table_key f s c) (max_table_key f s d) = true) :
    sort_pages f s [a, b, c, d] = [a, b, c, d] := by
  simp [sort_pages, List.insertionSort, List.orderedInsert, h1, h2, h3]

theorem sort_pages4_rot {f : Nat} {s : Store} {x a b c : Nat}
    (hxa : tk_lex_le (max_table_key f s x) (max_table_key f s a) = false)
    (hxb : tk_lex_le (max_table_key f s x) (max_table_key f s b) = false)
    (hxc : tk_lex_le (max_table_key f s x) (max_table_key f s c) = false)
    (hab : tk_lex_le (max_table_key f s a) (max_table_key f s b) = true)
    (hbc : tk_lex_le (max_table_key f s b) (max_table_key f s c) = true) :
    sort_pages f s [x, a, b, c] = [a, b, c, x] := by
  simp [sort_pages, List.insertionSort, List.orderedInsert, hxa, hxb, hxc,
    hab, hbc]

/-! ### Leaf repair -/

theorem split_leaf_eq2 {s : Store} {pn : Nat} {e g : Entry}
    (hpage : get_page s pn = .leaf e (some g)) (pl : List Entry) :
    split_leaf s pn pl =
      (some (s.size, s.size + 1),
        s ++ [Node.leaf e none, Node.leaf g none]) := by
  simp [split_leaf, hpage, make_single_leaf, allocate]

theorem split_leaf_eq1 {s : Store} {pn : Nat} {e : Entry}
    (hpage : get_page s pn = .leaf e none) (pl : List Entry) :
    split_leaf s pn pl = (none, s) := by
  simp [split_leaf, hpage]

/-- The two fresh single-entry leaves written by a leaf split tile the split
neighbour's interval. -/
theorem split_leaf_chain {s : Store} {e g : Entry} {lo hi : Option TK}
    (hord : is_lt (tk_cmp lexCmp e.tk g.tk) = true)
    (hlo : ok_lo lexCmp lo e.tk) (hhig : ok_hi lexCmp hi g.tk) :
    Chain (s ++ [Node.leaf e none, Node.leaf g none]) 1 lo hi
      [s.size, s.size + 1] :=
  .cons (.leaf1 size_lt_two get_page_two_fst hlo (ok_hi_some_refl e.tk))
    (.one (.leaf1 size_succ_lt_two get_page_two_snd
      (ok_lo_some_of_lt (is_lt_iff.mp hord)) hhig))

/-! ### Internal repair: the four orphan/neighbour configurations -/

/-- `merge_index` with the orphan to the left of a two-child neighbour. -/
theorem merge_index_left {s : Store} {pn q hq f d0 dl : Nat} {t0 mid : TK}
    {lo hi : Option TK}
    (hpage : get_page s pn = .internal [(d0, t0)] dl)
    (hqw : WF lexCmp s q hq lo (some mid))
    (hd0 : WF lexCmp s d0 hq (some mid) (some t0))
    (hdl : WF lexCmp s dl hq (some t0) hi)
    (hf : hq < f) :
    merge_index f s pn [q] =
      (s.size, s ++ [Node.internal [(q, max_table_key f s q),
        (d0, max_table_key f s d0)] dl]) ∧
    WF lexCmp (s ++ [Node.internal [(q, max_table_key f s q),
        (d0, max_table_key f s d0)] dl]) s.size (hq + 1) lo hi := by
  obtain ⟨hqA, hqB, hqC⟩ := max_spec hqw f hf
  obtain ⟨h0A, h0B, h0C⟩ := max_spec hd0 f hf
  obtain ⟨hlA, hlB, hlC⟩ := max_spec hdl f hf
  have hq0 : tk_cmp lexCmp (max_table_key f s q) (max_table_key f s d0) = .lt :=
    tk_cmp_lt_of_le_of_lt (hqC _ rfl) (is_lt_iff.mp (h0B _ rfl))
  have h0l : tk_cmp lexCmp (max_table_key f s d0) (max_table_key f s dl) = .lt :=
    tk_cmp_lt_of_le_of_lt (h0C _ rfl) (is_lt_iff.mp (hlB _ rfl))
  have hsort : sort_pages f s [q, d0, dl] = [q, d0, dl] :=
    sort_pages3_sorted (by rw [tk_lex_le_def]; exact tk_le_of_lt hq0)
      (by rw [tk_lex_le_def]; exact tk_le_of_lt h0l)
  constructor
  · simp [merge_index, hpage, hsort, allocate,
      show List.range 2 = [0, 1] from rfl]
  · exact .internal3 size_lt_one get_page_new hqw.lt_size hd0.lt_size
      hdl.lt_size (hqA.extends ⟨_, rfl⟩)
      ((h0A.weaken_lo _ (ok_lo_mono (hqC _ rfl))).extends ⟨_, rfl⟩)
      ((hdl.weaken_lo _ (ok_lo_mono (h0C _ rfl))).extends ⟨_, rfl⟩)

/-- `merge_index` with the orphan to the right of a two-child neighbour. -/
theorem merge_index_right {s : Store} {pn q hq f d0 dl : Nat} {t0 mid : TK}
    {lo hi : Option TK}
    (hpage : get_page s pn = .internal [(d0, t0)] dl)
    (hd0 : WF lexCmp s d0 hq lo (some t0))
    (hdl : WF lexCmp s dl hq (some t0) (some mid))
    (hqw : WF lexCmp s q hq (some mid) hi)
    (hf : hq < f) :
    merge_index f s pn [q] =
      (s.size, s ++ [Node.internal [(d0, max_table_key f s d0),
        (dl, max_table_key f s dl)] q]) ∧
    WF lexCmp (s ++ [Node.internal [(d0, max_table_key f s d0),
        (dl, max_table_key f s dl)] q]) s.size (hq + 1) lo hi := by
  obtain ⟨h0A, h0B, h0C⟩ := max_spec hd0 f hf
  obtain ⟨hlA, hlB, hlC⟩ := max_spec hdl f hf
  obtain ⟨hqA, hqB, hqC⟩ := max_spec hqw f hf
  have h0l : tk_cmp lexCmp (max_table_key f s d0) (max_table_key f s dl) = .lt :=
    tk_cmp_lt_of_le_of_lt (h0C _ rfl) (is_lt_iff.mp (hlB _ rfl))
  have hlq : tk_cmp lexCmp (max_table_key f s dl) (max_table_key f s q) = .lt :=
    tk_cmp_lt_of_le_of_lt (hlC _ rfl) (is_lt_iff.mp (hqB _ rfl))
  have hsort : sort_pages f s [q, d0, dl] = [d0, dl, q] :=
    sort_pages3_rot
      (by rw [tk_lex_le_def]; exact tk_le_false_of_lt (tk_cmp_lt_trans h0l hlq))
      (by rw [tk_lex_le_def]; exact tk_le_false_of_lt hlq)
      (by rw [tk_lex_le_def]; exact tk_le_of_lt h0l)
  constructor
  · simp [merge_index, hpage, hsort, allocate,
      show List.range 2 = [0, 1] from rfl]
  · exact .internal3 size_lt_one get_page_new hd0.lt_size hdl.lt_size
      hqw.lt_size (h0A.extends ⟨_, rfl⟩)
      ((hlA.weaken_lo _ (ok_lo_mono (h0C _ rfl))).extends ⟨_, rfl⟩)
      ((hqw.weaken_lo _ (ok_lo_mono (hlC _ rfl))).extends ⟨_, rfl⟩)

/-- `split_index` with the orphan to the left of a three-child neighbour. -/
theorem split_index_left {s : Store} {pn q hq f d0 d1 dl : Nat}
    {t0 t1 mid : TK} {lo hi : Option TK}
    (hpage : get_page s pn = .internal [(d0, t0), (d1, t1)] dl)
    (hqw : WF lexCmp s q hq lo (some mid))
    (hd0 : WF lexCmp s d0 hq (some mid) (some t0))
    (hd1 : WF lexCmp s d1 hq (some t0) (some t1))
    (hdl : WF lexCmp s dl hq (some t1) hi)
    (hf : hq < f) :
    split_index f s pn [q] =
      (some (s.size, s.size + 1),
        s ++ [Node.internal [(q, max_table_key f s q)] d0,
          Node.internal [(d1, max_table_key f s d1)] dl]) ∧
    Chain (s ++ [Node.internal [(q, max_table_key f s q)] d0,
      Node.internal [(d1, max_table_key f s d1)] dl]) (hq + 1) lo hi
      [s.size, s.size + 1] := by
  obtain ⟨hqA, hqB, hqC⟩ := max_spec hqw f hf
  obtain ⟨h0A, h0B, h0C⟩ := max_spec hd0 f hf
  obtain ⟨h1A, h1B, h1C⟩ := max_spec hd1 f hf
  obtain ⟨hlA, hlB, hlC⟩ := max_spec hdl f hf
  have hq0 : tk_cmp lexCmp (max_table_key f s q) (max_table_key f s d0) = .lt :=
    tk_cmp_lt_of_le_of_lt (hqC _ rfl) (is_lt_iff.mp (h0B _ rfl))
  have h01 : tk_cmp lexCmp (max_table_key f s d0) (max_table_key f s d1) = .lt :=
    tk_cmp_lt_of_le_of_lt (h0C _ rfl) (is_lt_iff.mp (h1B _ rfl))
  have h1l : tk_cmp lexCmp (max_table_key f s d1) (max_table_key f s dl) = .lt :=
    tk_cmp_lt_of_le_of_lt (h1C _ rfl) (is_lt_iff.mp (hlB _ rfl))
  have hsort : sort_pages f s [q, d0, d1, dl] = [q, d0, d1, dl] :=
    sort_pages4_sorted (by rw [tk_lex_le_def]; exact tk_le_of_lt hq0)
      (by rw [tk_lex_le_def]; exact tk_le_of_lt h01)
      (by rw [tk_lex_le_def]; exact tk_le_of_lt h1l)
  have hext : max_table_key f
      (s ++ [Node.internal [(q, max_table_key f s q)] d0]) d1 =
      max_table_key f s d1 := max_table_key_extends ⟨_, rfl⟩ hd1 f hf
  constructor
  · simp [split_index, hpage, hsort, make_index, allocate, BTREE_ORDER, hext]
  · have hpg1 : WF lexCmp
        (s ++ [Node.internal [(q, max_table_key f s q)] d0,
          Node.internal [(d1, max_table_key f s d1)] dl]) s.size (hq + 1)
        lo (some (max_table_key f s d0)) :=
      .internal2 size_lt_two get_page_two_fst hqw.lt_size hd0.lt_size
        (hqA.extends ⟨_, rfl⟩)
        ((h0A.weaken_lo _ (ok_lo_mono (hqC _ rfl))).extends ⟨_, rfl⟩)
    have hpg2 : WF lexCmp
        (s ++ [Node.internal [(q, max_table_key f s q)] d0,
          Node.internal [(d1, max_table_key f s d1)] dl]) (s.size + 1) (hq + 1)
        (some (max_table_key f s d0)) hi :=
      .internal2 size_succ_lt_two get_page_two_snd
        (Nat.lt_succ_of_lt hd1.lt_size) (Nat.lt_succ_of_lt hdl.lt_size)
        ((h1A.weaken_lo _ (ok_lo_mono (h0C _ rfl))).extends ⟨_, rfl⟩)
        ((hdl.weaken_lo _ (ok_lo_mono (h1C _ rfl))).extends ⟨_, rfl⟩)
    exact .cons hpg1 (.one hpg2)

/-- `split_index` with the orphan to the right of a three-child neighbour. -/
theorem split_index_right {s : Store} {pn q hq f d0 d1 dl : Nat}
    {t0 t1 mid : TK} {lo hi : Option TK}
    (hpage : get_page s pn = .internal [(d0, t0), (d1, t1)] dl)
    (hd0 : WF lexCmp s d0 hq lo (some t0))
    (hd1 : WF lexCmp s d1 hq (some t0) (some t1))
    (hdl : WF lexCmp s dl hq (some t1) (some mid))
    (hqw : WF lexCmp s q hq (some mid) hi)
    (hf : hq < f) :
    split_index f s pn [q] =
      (some (s.size, s.size + 1),
        s ++ [Node.internal [(d0, max_table_key f s d0)] d1,
          Node.internal [(dl, max_table_key f s dl)] q]) ∧
    Chain (s ++ [Node.internal [(d0, max_table_key f s d0)] d1,
      Node.internal [(dl, max_table_key f s dl)] q]) (hq + 1) lo hi
      [s.size, s.size + 1] := by
  obtain ⟨h0A, h0B, h0C⟩ := max_spec hd0 f hf
  obtain ⟨h1A, h1B, h1C⟩ := max_spec hd1 f hf
  obtain ⟨hlA, hlB, hlC⟩ := max_spec hdl f hf
  obtain ⟨hqA, hqB, hqC⟩ := max_spec hqw f hf
  have h01 : tk_cmp lexCmp (max_table_key f s d0) (max_table_key f s d1) = .lt :=
    tk_cmp_lt_of_le_of_lt (h0C _ rfl) (is_lt_iff.mp (h1B _ rfl))
  have h1l : tk_cmp lexCmp (max_table_key f s d1) (max_table_key f s dl) = .lt :=
    tk_cmp_lt_of_le_of_lt (h1C _ rfl) (is_lt_iff.mp (hlB _ rfl))
  have hlq : tk_cmp lexCmp (max_table_key f s dl) (max_table_key f s q) = .lt :=
    tk_cmp_lt_of_le_of_lt (hlC _ rfl) (is_lt_iff.mp (hqB _ rfl))
  have hsort : sort_pages f s [q, d0, d1, dl] = [d0, d1, dl, q] :=
    sort_pages4_rot
      (by rw [tk_lex_le_def]
          exact tk_le_false_of_lt (tk_cmp_lt_trans (tk_cmp_lt_trans h01 h1l) hlq))
      (by rw [tk_lex_le_def]
          exact tk_le_false_of_lt (tk_cmp_lt_trans h1l hlq))
      (by rw [tk_lex_le_def]; exact tk_le_false_of_lt hlq)
      (by rw [tk_lex_le_def]; exact tk_le_of_lt h01)
      (by rw [tk_lex_le_def]; exact tk_le_of_lt h1l)
  have hext : max_table_key f
      (s ++ [Node.internal [(d0, max_table_key f s d0)] d1]) dl =
      max_table_key f s dl := max_table_key_extends ⟨_, rfl⟩ hdl f hf
  constructor
  · simp [split_index, hpage, hsort, make_index, allocate, BTREE_ORDER, hext]
  · have hpg1 : WF lexCmp
        (s ++ [Node.internal [(d0, max_table_key f s d0)] d1,
          Node.internal [(dl, max_table_key f s dl)] q]) s.size (hq + 1)
        lo (some (max_table_key f s d1)) :=
      .internal2 size_lt_two get_page_two_fst hd0.lt_size hd1.lt_size
        (h0A.extends ⟨_, rfl⟩)
        ((h1A.weaken_lo _ (ok_lo_mono (h0C _ rfl))).extends ⟨_, rfl⟩)
    have hpg2 : WF lexCmp
        (s ++ [Node.internal [(d0, max_table_key f s d0)] d1,
          Node.internal [(dl, max_table_key f s dl)] q]) (s.size + 1) (hq + 1)
        (some (max_table_key f s d1)) hi :=
      .internal2 size_succ_lt_two get_page_two_snd
        (Nat.lt_succ_of_lt hdl.lt_size) (Nat.lt_succ_of_lt hqw.lt_size)
        ((hlA.weaken_lo _ (ok_lo_mono (h1C _ rfl))).extends ⟨_, rfl⟩)
        ((hqw.weaken_lo _ (ok_lo_mono (hlC _ rfl))).extends ⟨_, rfl⟩)
    exact .cons hpg1 (.one hpg2)

theorem Extends.step {s s1 : Store} (h : Extends s s1) (t : List Node) :
    Extends s (s1 ++ t) := by
  obtain ⟨u, rfl⟩ := h
  exact ⟨u ++ t, by simp⟩

theorem Chain.append {s : Store} {h : Nat} {lo hi : Option TK} {b : TK}
    {qs1 qs2 : List Nat} (h1 : Chain s h lo (some b) qs1)
    (h2 : Chain s h (some b) hi qs2) :
    Chain s h lo hi (qs1 ++ qs2) := by
  induction qs1 generalizing lo with
  | nil => cases h1
  | cons q qs ih =>
    cases h1 with
    | one hw => exact .cons hw h2
    | cons hw htl => exact .cons hw (ih htl)

/-- `tree_delete_helper` on a well-formed subtree: the store only grows, and
the result is either a well-formed subtree at the same height and bounds, an
empty `PartialLeaf` (the node was a one-entry leaf holding the deleted key),
or a `PartialInternal` carrying exactly one page: a well-formed subtree one
level down over the same bounds. -/
theorem delete_helper_spec {s : Store} {p h : Nat} {lo hi : Option TK}
    (hwf : WF lexCmp s p h lo hi) :
    ∀ f t k, h < f → ∀ r s',
      tree_delete_helper lexCmp f s p t k = (r, s') →
      Extends s s' ∧
      match r with
      | .Subtree q => WF lexCmp s' q h lo hi
      | .PartialLeaf l => l = [] ∧ h = 1
      | .PartialInternal ps =>
          ∃ q, ps = [q] ∧ 2 ≤ h ∧ WF lexCmp s' q (h - 1) lo hi := by
  induction hwf with
  | leaf1 hp hpage hlo hhi =>
    rename_i p e lo hi
    intro f t k hf r s' heq
    obtain ⟨f', rfl⟩ : ∃ f', f = f' + 1 := ⟨f - 1, by omega⟩
    simp only [tree_delete_helper, hpage] at heq
    cases hcmp : is_eq (entry_compare lexCmp e t k) with
    | true =>
      rw [if_pos hcmp] at heq
      simp only [Prod.mk.injEq] at heq
      obtain ⟨rfl, rfl⟩ := heq
      exact ⟨Extends.rfl, rfl, rfl⟩
    | false =>
      rw [if_neg (by simp [hcmp])] at heq
      simp only [Prod.mk.injEq] at heq
      obtain ⟨rfl, rfl⟩ := heq
      exact ⟨Extends.rfl, .leaf1 hp hpage hlo hhi⟩
  | leaf2 hp hpage hord hlo hlog hhi hhig =>
    rename_i p e g lo hi
    intro f t k hf r s' heq
    obtain ⟨f', rfl⟩ : ∃ f', f = f' + 1 := ⟨f - 1, by omega⟩
    simp only [tree_delete_helper, hpage] at heq
    by_cases h1 : entry_compare lexCmp e t k = .eq
    · have hne : is_ne (entry_compare lexCmp e t k) = false := by rw [h1]; rfl
      have heqx : is_eq (entry_compare lexCmp e t k) = true := by rw [h1]; rfl
      simp [hne, heqx, make_single_leaf, allocate] at heq
      obtain ⟨rfl, rfl⟩ := heq
      exact ⟨⟨_, rfl⟩, .leaf1 size_lt_one get_page_new hlog hhig⟩
    · by_cases h2 : entry_compare lexCmp g t k = .eq
      · have hne1 : is_ne (entry_compare lexCmp e t k) = true := is_ne_iff.mpr h1
        have hne2 : is_ne (entry_compare lexCmp g t k) = false := by rw [h2]; rfl
        have heq1 : is_eq (entry_compare lexCmp e t k) = false := by
          rcases ho : entry_compare lexCmp e t k with _ | _ | _
          · rfl
          · exact absurd ho h1
          · rfl
        simp [hne1, hne2, heq1, make_single_leaf, allocate] at heq
        obtain ⟨rfl, rfl⟩ := heq
        exact ⟨⟨_, rfl⟩, .leaf1 size_lt_one get_page_new hlo hhi⟩
      · have hne1 : is_ne (entry_compare lexCmp e t k) = true := is_ne_iff.mpr h1
        have hne2 : is_ne (entry_compare lexCmp g t k) = true := is_ne_iff.mpr h2
        simp [hne1, hne2] at heq
        obtain ⟨rfl, rfl⟩ := heq
        exact ⟨Extends.rfl, .leaf2 hp hpage hord hlo hlog hhi hhig⟩
  | internal2 hp hpage hc0 hlast hwf0 hwfl ih0 ihl =>
    rename_i p c0 lastp h s0 lo hi
    intro f t k hf r s' heq
    obtain ⟨f', rfl⟩ : ∃ f', f = f' + 1 := ⟨f - 1, by omega⟩
    simp only [tree_delete_helper, hpage, del_loop] at heq
    by_cases hroute : is_le (cmp_keys lexCmp t k s0.tableId s0.key) = true
    · rw [if_pos hroute] at heq
      rcases hrec : tree_delete_helper lexCmp f' s c0 t k with ⟨r0, s1⟩
      rw [hrec] at heq
      have hspec := ih0 f' t k (by omega) r0 s1 hrec
      cases r0 with
      | Subtree pn =>
        obtain ⟨hx1, hwfn⟩ := hspec
        obtain ⟨t1, rfl⟩ := hx1
        by_cases hpn : pn = c0
        · simp only [hpn, if_pos rfl, Prod.mk.injEq] at heq
          obtain ⟨rfl, rfl⟩ := heq
          exact ⟨⟨t1, rfl⟩,
            (WF.internal2 hp hpage hc0 hlast hwf0 hwfl).extends ⟨t1, rfl⟩⟩
        · simp [hpn, del_finish, repair_children, DeletionResult.isSubtree,
            allocate, show List.range 1 = [0] from rfl] at heq
          obtain ⟨rfl, rfl⟩ := heq
          refine ⟨⟨_, rfl⟩, ?_⟩
          have hch : Chain (s ++ t1) h lo hi [pn, lastp] :=
            .cons hwfn (.one (hwfl.extends ⟨t1, rfl⟩))
          simpa using chain_build2 hch (show h < f' by omega)
      | PartialLeaf l =>
        obtain ⟨hx1, rfl, rfl⟩ := hspec
        obtain ⟨t1, rfl⟩ := hx1
        obtain ⟨_, hB0, hC0⟩ := max_spec hwf0 f' (by omega)
        have hwflx := hwfl.extends (⟨t1, rfl⟩ : Extends s (s ++ t1))
        cases hwflx with
        | internal2 hp2 hpage2 hcN hlN hwN0 hwNl =>
          have := hwN0.one_le_height
          omega
        | internal3 hp2 hpage2 hcN0 hcN1 hlN hwN0 hwN1 hwNl =>
          have := hwN0.one_le_height
          omega
        | leaf2 hp2 hpage2 hord2 hlo2 hlog2 hhi2 hhig2 =>
          simp [del_finish, repair_children, repair_leaf_step,
            DeletionResult.isSubtree, DeletionResult.isPartialLeaf,
            split_leaf_eq2 hpage2, allocate, merge_leaf,
            show List.range 2 = [0, 1] from rfl,
            show List.range 1 = [0] from rfl] at heq
          obtain ⟨rfl, rfl⟩ := heq
          refine ⟨⟨_, rfl⟩, ?_⟩
          have hch := (split_leaf_chain hord2 hlo2 hhig2 (s := s ++ t1)).relax_lo
            lo (ok_lo_drop (lo_le_of_max hB0 hC0))
          simpa using chain_build2 hch (show 1 < f' by omega)
        | leaf1 hp2 hpage2 hlo2 hhi2 =>
          simp [del_finish, repair_children, repair_leaf_step,
            DeletionResult.isSubtree, DeletionResult.isPartialLeaf,
            split_leaf_eq1 hpage2, merge_leaf,
            show List.range 2 = [0, 1] from rfl] at heq
          obtain ⟨rfl, rfl⟩ := heq
          refine ⟨⟨t1, rfl⟩, lastp, rfl, by omega, ?_⟩
          exact (WF.leaf1 hp2 hpage2 hlo2 hhi2).weaken_lo lo
            (ok_lo_drop (lo_le_of_max hB0 hC0))
      | PartialInternal ps =>
        obtain ⟨hx1, q, rfl, hh2, hwq⟩ := hspec
        obtain ⟨t1, rfl⟩ := hx1
        have hwflx := hwfl.extends (⟨t1, rfl⟩ : Extends s (s ++ t1))
        cases hwflx with
        | leaf1 hp2 hpage2 hlo2 hhi2 => omega
        | leaf2 hp2 hpage2 hord2 hlo2 hlog2 hhi2 hhig2 => omega
        | internal2 hp2 hpage2 hcN hlN hwN0 hwNl =>
          have hsi : split_index f' (s ++ t1) lastp [q] = (none, s ++ t1) := by
            simp [split_index, hpage2, BTREE_ORDER]
          have hmi := merge_index_left hpage2 hwq hwN0 hwNl
            (show _ < f' by omega)
          simp [del_finish, repair_children, repair_internal_step,
            DeletionResult.isSubtree, DeletionResult.isPartialLeaf,
            DeletionResult.isPartialInternal, hsi, hmi.1,
            show List.range 2 = [0, 1] from rfl] at heq
          obtain ⟨rfl, rfl⟩ := heq
          refine ⟨⟨_, rfl⟩, _, rfl, by omega, ?_⟩
          simpa using hmi.2
        | internal3 hp2 hpage2 hcN0 hcN1 hlN hwN0 hwN1 hwNl =>
          rename_i d0 d1 dl hh t0 t1x
          have hsp := split_index_left hpage2 hwq hwN0 hwN1 hwNl
            (show _ < f' by omega)
          simp [del_finish, repair_children, repair_internal_step,
            DeletionResult.isSubtree, DeletionResult.isPartialLeaf,
            DeletionResult.isPartialInternal, hsp.1, allocate,
            show List.range 2 = [0, 1] from rfl,
            show List.range 1 = [0] from rfl] at heq
          obtain ⟨rfl, rfl⟩ := heq
          refine ⟨⟨_, rfl⟩, ?_⟩
          simpa using chain_build2 hsp.2 (by omega)
    · rw [if_neg hroute] at heq
      rcases hrecl : tree_delete_helper lexCmp f' s lastp t k with ⟨rl, s1⟩
      rw [hrecl] at heq
      have hspec := ihl f' t k (by omega) rl s1 hrecl
      cases rl with
      | Subtree pn =>
        obtain ⟨hx1, hwfn⟩ := hspec
        obtain ⟨t1, rfl⟩ := hx1
        by_cases hpn : pn = lastp
        · simp only [hpn, if_pos rfl, Prod.mk.injEq] at heq
          obtain ⟨rfl, rfl⟩ := heq
          exact ⟨⟨t1, rfl⟩,
            (WF.internal2 hp hpage hc0 hlast hwf0 hwfl).extends ⟨t1, rfl⟩⟩
        · simp [hpn, del_finish, repair_children, DeletionResult.isSubtree,
            allocate, show List.range 1 = [0] from rfl] at heq
          obtain ⟨rfl, rfl⟩ := heq
          refine ⟨⟨_, rfl⟩, ?_⟩
          have hch : Chain (s ++ t1) h lo hi [c0, pn] :=
            .cons (hwf0.extends ⟨t1, rfl⟩) (.one hwfn)
          simpa using chain_build2 hch (show h < f' by omega)
      | PartialLeaf l =>
        obtain ⟨hx1, rfl, rfl⟩ := hspec
        obtain ⟨t1, rfl⟩ := hx1
        obtain ⟨_, hBl, hCl⟩ := max_spec hwfl f' (by omega)
        have hwf0x := hwf0.extends (⟨t1, rfl⟩ : Extends s (s ++ t1))
        cases hwf0x with
        | internal2 hp2 hpage2 hcN hlN hwN0 hwNl =>
          have := hwN0.one_le_height
          omega
        | internal3 hp2 hpage2 hcN0 hcN1 hlN hwN0 hwN1 hwNl =>
          have := hwN0.one_le_height
          omega
        | leaf2 hp2 hpage2 hord2 hlo2 hlog2 hhi2 hhig2 =>
          simp [del_finish, repair_children, repair_leaf_step,
            DeletionResult.isSubtree, DeletionResult.isPartialLeaf,
            split_leaf_eq2 hpage2, allocate, merge_leaf,
            show List.range 2 = [0, 1] from rfl,
            show List.range 1 = [0] from rfl] at heq
          obtain ⟨rfl, rfl⟩ := heq
          refine ⟨⟨_, rfl⟩, ?_⟩
          have hch := (split_leaf_chain hord2 hlo2 hhig2 (s := s ++ t1)).relax_hi
            hi (ok_hi_drop (le_hi_of_max hBl hCl))
          simpa using chain_build2 hch (show 1 < f' by omega)
        | leaf1 hp2 hpage2 hlo2 hhi2 =>
          simp [del_finish, repair_children, repair_leaf_step,
            DeletionResult.isSubtree, DeletionResult.isPartialLeaf,
            split_leaf_eq1 hpage2, merge_leaf,
            show List.range 2 = [0, 1] from rfl] at heq
          obtain ⟨rfl, rfl⟩ := heq
          refine ⟨⟨t1, rfl⟩, c0, rfl, by omega, ?_⟩
          exact (WF.leaf1 hp2 hpage2 hlo2 hhi2).weaken_hi hi
            (ok_hi_drop (le_hi_of_max hBl hCl))
      | PartialInternal ps =>
        obtain ⟨hx1, q, rfl, hh2, hwq⟩ := hspec
        obtain ⟨t1, rfl⟩ := hx1
        have hwf0x := hwf0.extends (⟨t1, rfl⟩ : Extends s (s ++ t1))
        cases hwf0x with
        | leaf1 hp2 hpage2 hlo2 hhi2 => omega
        | leaf2 hp2 hpage2 hord2 hlo2 hlog2 hhi2 hhig2 => omega
        | internal2 hp2 hpage2 hcN hlN hwN0 hwNl =>
          have hsi : split_index f' (s ++ t1) c0 [q] = (none, s ++ t1) := by
            simp [split_index, hpage2, BTREE_ORDER]
          have hmi := merge_index_right hpage2 hwN0 hwNl hwq
            (show _ < f' by omega)
          simp [del_finish, repair_children, repair_internal_step,
            DeletionResult.isSubtree, DeletionResult.isPartialLeaf,
            DeletionResult.isPartialInternal, hsi, hmi.1,
            show List.range 2 = [0, 1] from rfl] at heq
          obtain ⟨rfl, rfl⟩ := heq
          refine ⟨⟨_, rfl⟩, _, rfl, by omega, ?_⟩
          simpa using hmi.2
        | internal3 hp2 hpage2 hcN0 hcN1 hlN hwN0 hwN1 hwNl =>
          rename_i d0 d1 dl hh t0 t1x
          have hsp := split_index_right hpage2 hwN0 hwN1 hwNl hwq
            (show _ < f' by omega)
          simp [del_finish, repair_children, repair_internal_step,
            DeletionResult.isSubtree, DeletionResult.isPartialLeaf,
            DeletionResult.isPartialInternal, hsp.1, allocate,
            show List.range 2 = [0, 1] from rfl,
            show List.range 1 = [0] from rfl] at heq
          obtain ⟨rfl, rfl⟩ := heq
          refine ⟨⟨_, rfl⟩, ?_⟩
          simpa using chain_build2 hsp.2 (by omega)
  | internal3 hp hpage hc0 hc1 hlast hwf0 hwf1 hwfl ih0 ih1 ihl =>
    rename_i p c0 c1 lastp h s0 sA lo hi
    intro f t k hf r s' heq
    obtain ⟨f', rfl⟩ : ∃ f', f = f' + 1 := ⟨f - 1, by omega⟩
    simp only [tree_delete_helper, hpage, del_loop] at heq
    by_cases hr0 : is_le (cmp_keys lexCmp t k s0.tableId s0.key) = true
    · rw [if_pos hr0] at heq
      rcases hrec : tree_delete_helper lexCmp f' s c0 t k with ⟨r0, st1⟩
      rw [hrec] at heq
      have hspec := ih0 f' t k (by omega) r0 st1 hrec
      cases r0 with
      | Subtree pn =>
        obtain ⟨hx1, hwfn⟩ := hspec
        obtain ⟨t1, rfl⟩ := hx1
        by_cases hpn : pn = c0
        · simp only [hpn, if_pos rfl, Prod.mk.injEq] at heq
          obtain ⟨rfl, rfl⟩ := heq
          exact ⟨⟨t1, rfl⟩,
            (WF.internal3 hp hpage hc0 hc1 hlast hwf0 hwf1 hwfl).extends ⟨t1, rfl⟩⟩
        · simp [hpn, del_finish, repair_children, DeletionResult.isSubtree,
            allocate, show List.range 2 = [0, 1] from rfl] at heq
          obtain ⟨rfl, rfl⟩ := heq
          refine ⟨⟨_, rfl⟩, ?_⟩
          have hch : Chain (s ++ t1) h lo hi [pn, c1, lastp] :=
            .cons hwfn (.cons (hwf1.extends ⟨t1, rfl⟩)
              (.one (hwfl.extends ⟨t1, rfl⟩)))
          simpa using chain_build3 hch (show h < f' by omega)
      | PartialLeaf l =>
        obtain ⟨hx1, rfl, rfl⟩ := hspec
        obtain ⟨t1, rfl⟩ := hx1
        obtain ⟨_, hB0, hC0⟩ := max_spec hwf0 f' (by omega)
        have hwf1x := hwf1.extends (⟨t1, rfl⟩ : Extends s (s ++ t1))
        cases hwf1x with
        | internal2 hp2 hpage2 hcN hlN hwN0 hwNl =>
          have := hwN0.one_le_height
          omega
        | internal3 hp2 hpage2 hcN0 hcN1 hlN hwN0 hwN1 hwNl =>
          have := hwN0.one_le_height
          omega
        | leaf2 hp2 hpage2 hord2 hlo2 hlog2 hhi2 hhig2 =>
          simp [del_finish, repair_children, repair_leaf_step,
            DeletionResult.isSubtree, DeletionResult.isPartialLeaf,
            split_leaf_eq2 hpage2, allocate, merge_leaf,
            show List.range 3 = [0, 1, 2] from rfl,
            show List.range 2 = [0, 1] from rfl] at heq
          obtain ⟨rfl, rfl⟩ := heq
          refine ⟨⟨_, rfl⟩, ?_⟩
          have hch2 := (split_leaf_chain hord2 hlo2 hhig2 (s := s ++ t1)).relax_lo
            lo (ok_lo_drop (lo_le_of_max hB0 hC0))
          have hch := hch2.append (.one ((hwfl.extends ⟨t1, rfl⟩).extends ⟨_, rfl⟩))
          simpa using chain_build3 hch (show 1 < f' by omega)
        | leaf1 hp2 hpage2 hlo2 hhi2 =>
          simp [del_finish, repair_children, repair_leaf_step,
            DeletionResult.isSubtree, DeletionResult.isPartialLeaf,
            split_leaf_eq1 hpage2, allocate, merge_leaf,
            show List.range 3 = [0, 1, 2] from rfl,
            show List.range 1 = [0] from rfl] at heq
          obtain ⟨rfl, rfl⟩ := heq
          refine ⟨⟨_, rfl⟩, ?_⟩
          have hch : Chain (s ++ t1) 1 lo hi [c1, lastp] :=
            .cons ((WF.leaf1 hp2 hpage2 hlo2 hhi2).weaken_lo lo
              (ok_lo_drop (lo_le_of_max hB0 hC0)))
              (.one (hwfl.extends ⟨t1, rfl⟩))
          simpa using chain_build2 hch (show 1 < f' by omega)
      | PartialInternal ps =>
        obtain ⟨hx1, q, rfl, hh2, hwq⟩ := hspec
        obtain ⟨t1, rfl⟩ := hx1
        have hwf1x := hwf1.extends (⟨t1, rfl⟩ : Extends s (s ++ t1))
        cases hwf1x with
        | leaf1 hp2 hpage2 hlo2 hhi2 => omega
        | leaf2 hp2 hpage2 hord2 hlo2 hlog2 hhi2 hhig2 => omega
        | internal2 hp2 hpage2 hcN hlN hwN0 hwNl =>
          have hsi : split_index f' (s ++ t1) c1 [q] = (none, s ++ t1) := by
            simp [split_index, hpage2, BTREE_ORDER]
          have hmi := merge_index_left hpage2 hwq hwN0 hwNl
            (show _ < f' by omega)
          simp [del_finish, repair_children, repair_internal_step,
            DeletionResult.isSubtree, DeletionResult.isPartialLeaf,
            DeletionResult.isPartialInternal, hsi, hmi.1, allocate,
            show List.range 3 = [0, 1, 2] from rfl,
            show List.range 1 = [0] from rfl] at heq
          obtain ⟨rfl, rfl⟩ := heq
          refine ⟨⟨_, rfl⟩, ?_⟩
          have hch := Chain.cons hmi.2
            (Chain.one ((hwfl.extends ⟨t1, rfl⟩).extends ⟨_, rfl⟩))
          simpa using chain_build2 hch (show _ < f' by omega)
        | internal3 hp2 hpage2 hcN0 hcN1 hlN hwN0 hwN1 hwNl =>
          have hsp := split_index_left hpage2 hwq hwN0 hwN1 hwNl
            (show _ < f' by omega)
          simp [del_finish, repair_children, repair_internal_step,
            DeletionResult.isSubtree, DeletionResult.isPartialLeaf,
            DeletionResult.isPartialInternal, hsp.1, allocate,
            show List.range 3 = [0, 1, 2] from rfl,
            show List.range 2 = [0, 1] from rfl] at heq
          obtain ⟨rfl, rfl⟩ := heq
          refine ⟨⟨_, rfl⟩, ?_⟩
          have hch := hsp.2.append
            (.one ((hwfl.extends ⟨t1, rfl⟩).extends ⟨_, rfl⟩))
          simpa using chain_build3 hch (show _ < f' by omega)
    · rw [if_neg hr0] at heq
      by_cases hr1 : is_le (cmp_keys lexCmp t k sA.tableId sA.key) = true
      · rw [if_pos hr1] at heq
        rcases hrec : tree_delete_helper lexCmp f' s c1 t k with ⟨r1, st1⟩
        rw [hrec] at heq
        have hspec := ih1 f' t k (by omega) r1 st1 hrec
        cases r1 with
        | Subtree pn =>
          obtain ⟨hx1, hwfn⟩ := hspec
          obtain ⟨t1, rfl⟩ := hx1
          by_cases hpn : pn = c1
          · simp only [hpn, if_pos rfl, Prod.mk.injEq] at heq
            obtain ⟨rfl, rfl⟩ := heq
            exact ⟨⟨t1, rfl⟩,
              (WF.internal3 hp hpage hc0 hc1 hlast hwf0 hwf1 hwfl).extends
                ⟨t1, rfl⟩⟩
          · simp [hpn, del_finish, repair_children, DeletionResult.isSubtree,
              allocate, show List.range 2 = [0, 1] from rfl] at heq
            obtain ⟨rfl, rfl⟩ := heq
            refine ⟨⟨_, rfl⟩, ?_⟩
            have hch : Chain (s ++ t1) h lo hi [c0, pn, lastp] :=
              .cons (hwf0.extends ⟨t1, rfl⟩) (.cons hwfn
                (.one (hwfl.extends ⟨t1, rfl⟩)))
            simpa using chain_build3 hch (show h < f' by omega)
        | PartialLeaf l =>
          obtain ⟨hx1, rfl, rfl⟩ := hspec
          obtain ⟨t1, rfl⟩ := hx1
          obtain ⟨_, hB1, hC1⟩ := max_spec hwf1 f' (by omega)
          have hs0A : is_le (tk_cmp lexCmp s0 sA) = true :=
            tk_le_of_lt (tk_cmp_lt_of_lt_of_le (is_lt_iff.mp (hB1 _ rfl))
              (hC1 _ rfl))
          have hwf0x := hwf0.extends (⟨t1, rfl⟩ : Extends s (s ++ t1))
          cases hwf0x with
          | internal2 hp2 hpage2 hcN hlN hwN0 hwNl =>
            have := hwN0.one_le_height
            omega
          | internal3 hp2 hpage2 hcN0 hcN1 hlN hwN0 hwN1 hwNl =>
            have := hwN0.one_le_height
            omega
          | leaf2 hp2 hpage2 hord2 hlo2 hlog2 hhi2 hhig2 =>
            simp [del_finish, repair_children, repair_leaf_step,
              DeletionResult.isSubtree, DeletionResult.isPartialLeaf,
              split_leaf_eq2 hpage2, allocate, merge_leaf,
              show List.range 3 = [0, 1, 2] from rfl,
              show List.range 2 = [0, 1] from rfl] at heq
            obtain ⟨rfl, rfl⟩ := heq
            refine ⟨⟨_, rfl⟩, ?_⟩
            have hch2 := (split_leaf_chain hord2 hlo2 hhig2
              (s := s ++ t1)).relax_hi (some sA) (ok_hi_mono hs0A)
            have hch := hch2.append
              (.one ((hwfl.extends ⟨t1, rfl⟩).extends ⟨_, rfl⟩))
            simpa using chain_build3 hch (show 1 < f' by omega)
          | leaf1 hp2 hpage2 hlo2 hhi2 =>
            simp [del_finish, repair_children, repair_leaf_step,
              DeletionResult.isSubtree, DeletionResult.isPartialLeaf,
              split_leaf_eq1 hpage2, allocate, merge_leaf,
              show List.range 3 = [0, 1, 2] from rfl,
              show List.range 1 = [0] from rfl] at heq
            obtain ⟨rfl, rfl⟩ := heq
            refine ⟨⟨_, rfl⟩, ?_⟩
            have hch : Chain (s ++ t1) 1 lo hi [c0, lastp] :=
              .cons ((WF.leaf1 hp2 hpage2 hlo2 hhi2).weaken_hi (some sA)
                (ok_hi_mono hs0A)) (.one (hwfl.extends ⟨t1, rfl⟩))
            simpa using chain_build2 hch (show 1 < f' by omega)
        | PartialInternal ps =>
          obtain ⟨hx1, q, rfl, hh2, hwq⟩ := hspec
          obtain ⟨t1, rfl⟩ := hx1
          have hwf0x := hwf0.extends (⟨t1, rfl⟩ : Extends s (s ++ t1))
          cases hwf0x with
          | leaf1 hp2 hpage2 hlo2 hhi2 => omega
          | leaf2 hp2 hpage2 hord2 hlo2 hlog2 hhi2 hhig2 => omega
          | internal2 hp2 hpage2 hcN hlN hwN0 hwNl =>
            have hsi : split_index f' (s ++ t1) c0 [q] = (none, s ++ t1) := by
              simp [split_index, hpage2, BTREE_ORDER]
            have hmi := merge_index_right hpage2 hwN0 hwNl hwq
              (show _ < f' by omega)
            simp [del_finish, repair_children, repair_internal_step,
              DeletionResult.isSubtree, DeletionResult.isPartialLeaf,
              DeletionResult.isPartialInternal, hsi, hmi.1, allocate,
              show List.range 3 = [0, 1, 2] from rfl,
              show List.range 1 = [0] from rfl] at heq
            obtain ⟨rfl, rfl⟩ := heq
            refine ⟨⟨_, rfl⟩, ?_⟩
            have hch := Chain.cons hmi.2
              (Chain.one ((hwfl.extends ⟨t1, rfl⟩).extends ⟨_, rfl⟩))
            simpa using chain_build2 hch (show _ < f' by omega)
          | internal3 hp2 hpage2 hcN0 hcN1 hlN hwN0 hwN1 hwNl =>
            have hsp := split_index_right hpage2 hwN0 hwN1 hwNl hwq
              (show _ < f' by omega)
            simp [del_finish, repair_children, repair_internal_step,
              DeletionResult.isSubtree, DeletionResult.isPartialLeaf,
              DeletionResult.isPartialInternal, hsp.1, allocate,
              show List.range 3 = [0, 1, 2] from rfl,
              show List.range 2 = [0, 1] from rfl] at heq
            obtain ⟨rfl, rfl⟩ := heq
            refine ⟨⟨_, rfl⟩, ?_⟩
            have hch := hsp.2.append
              (.one ((hwfl.extends ⟨t1, rfl⟩).extends ⟨_, rfl⟩))
            simpa using chain_build3 hch (show _ < f' by omega)
      · rw [if_neg hr1] at heq
        rcases hrecl : tree_delete_helper lexCmp f' s lastp t k with ⟨rl, st1⟩
        rw [hrecl] at heq
        have hspec := ihl f' t k (by omega) rl st1 hrecl
        cases rl with
        | Subtree pn =>
          obtain ⟨hx1, hwfn⟩ := hspec
          obtain ⟨t1, rfl⟩ := hx1
          by_cases hpn : pn = lastp
          · simp only [hpn, if_pos rfl, Prod.mk.injEq] at heq
            obtain ⟨rfl, rfl⟩ := heq
            exact ⟨⟨t1, rfl⟩,
              (WF.internal3 hp hpage hc0 hc1 hlast hwf0 hwf1 hwfl).extends
                ⟨t1, rfl⟩⟩
          · simp [hpn, del_finish, repair_children, DeletionResult.isSubtree,
              allocate, show List.range 2 = [0, 1] from rfl] at heq
            obtain ⟨rfl, rfl⟩ := heq
            refine ⟨⟨_, rfl⟩, ?_⟩
            have hch : Chain (s ++ t1) h lo hi [c0, c1, pn] :=
              .cons (hwf0.extends ⟨t1, rfl⟩)
                (.cons (hwf1.extends ⟨t1, rfl⟩) (.one hwfn))
            simpa using chain_build3 hch (show h < f' by omega)
        | PartialLeaf l =>
          obtain ⟨hx1, rfl, rfl⟩ := hspec
          obtain ⟨t1, rfl⟩ := hx1
          obtain ⟨_, hB0, hC0⟩ := max_spec hwf0 f' (by omega)
          obtain ⟨_, hBl, hCl⟩ := max_spec hwfl f' (by omega)
          have hwf1x := hwf1.extends (⟨t1, rfl⟩ : Extends s (s ++ t1))
          cases hwf1x with
          | internal2 hp2 hpage2 hcN hlN hwN0 hwNl =>
            have := hwN0.one_le_height
            omega
          | internal3 hp2 hpage2 hcN0 hcN1 hlN hwN0 hwN1 hwNl =>
            have := hwN0.one_le_height
            omega
          | leaf2 hp2 hpage2 hord2 hlo2 hlog2 hhi2 hhig2 =>
            simp [del_finish, repair_children, repair_leaf_step,
              DeletionResult.isSubtree, DeletionResult.isPartialLeaf,
              split_leaf_eq2 hpage2, allocate, merge_leaf,
              show List.range 3 = [0, 1, 2] from rfl,
              show List.range 1 = [0] from rfl] at heq
            obtain ⟨rfl, rfl⟩ := heq
            refine ⟨⟨_, rfl⟩, ?_⟩
            have hch := ((split_leaf_chain hord2 hlo2 hhig2
              (s := s ++ t1)).relax_lo lo
                (ok_lo_drop (lo_le_of_max hB0 hC0))).relax_hi hi
                (ok_hi_drop (le_hi_of_max hBl hCl))
            simpa using chain_build2 hch (show 1 < f' by omega)
          | leaf1 hp2 hpage2 hlo2 hhi2 =>
            simp [del_finish, repair_children, repair_leaf_step,
              DeletionResult.isSubtree, DeletionResult.isPartialLeaf,
              split_leaf_eq1 hpage2, allocate, merge_leaf,
              show List.range 3 = [0, 1, 2] from rfl] at heq
            obtain ⟨rfl, rfl⟩ := heq
            refine ⟨⟨t1, rfl⟩, c1, rfl, by omega, ?_⟩
            exact ((WF.leaf1 hp2 hpage2 hlo2 hhi2).weaken_lo lo
              (ok_lo_drop (lo_le_of_max hB0 hC0))).weaken_hi hi
              (ok_hi_drop (le_hi_of_max hBl hCl))
        | PartialInternal ps =>
          obtain ⟨hx1, q, rfl, hh2, hwq⟩ := hspec
          obtain ⟨t1, rfl⟩ := hx1
          obtain ⟨_, hB0, hC0⟩ := max_spec hwf0 f' (by omega)
          have hwf1x := hwf1.extends (⟨t1, rfl⟩ : Extends s (s ++ t1))
          cases hwf1x with
          | leaf1 hp2 hpage2 hlo2 hhi2 => omega
          | leaf2 hp2 hpage2 hord2 hlo2 hlog2 hhi2 hhig2 => omega
          | internal2 hp2 hpage2 hcN hlN hwN0 hwNl =>
            have hsi : split_index f' (s ++ t1) c1 [q] = (none, s ++ t1) := by
              simp [split_index, hpage2, BTREE_ORDER]
            have hmi := merge_index_right hpage2 hwN0 hwNl hwq
              (show _ < f' by omega)
            simp [del_finish, repair_children, repair_internal_step,
              DeletionResult.isSubtree, DeletionResult.isPartialLeaf,
              DeletionResult.isPartialInternal, hsi, hmi.1, allocate,
              show List.range 3 = [0, 1, 2] from rfl] at heq
            obtain ⟨rfl, rfl⟩ := heq
            refine ⟨⟨_, rfl⟩, _, rfl, by omega, ?_⟩
            have hwfm := hmi.2.weaken_lo lo
              (ok_lo_drop (lo_le_of_max hB0 hC0))
            simpa using hwfm
          | internal3 hp2 hpage2 hcN0 hcN1 hlN hwN0 hwN1 hwNl =>
            have hsp := split_index_right hpage2 hwN0 hwN1 hwNl hwq
              (show _ < f' by omega)
            simp [del_finish, repair_children, repair_internal_step,
              DeletionResult.isSubtree, DeletionResult.isPartialLeaf,
              DeletionResult.isPartialInternal, hsp.1, allocate,
              show List.range 3 = [0, 1, 2] from rfl,
              show List.range 1 = [0] from rfl] at heq
            obtain ⟨rfl, rfl⟩ := heq
            refine ⟨⟨_, rfl⟩, ?_⟩
            have hch := hsp.2.relax_lo lo
              (ok_lo_drop (lo_le_of_max hB0 hC0))
            simpa using chain_build2 hch (show _ < f' by omega)

/-! ## From `Reach` to `WF`: heights and preservation -/

/-- Under well-formedness, `tree_height` computes `min fuel height`; in
particular the source's fuel-free recursion (`fuel > height`) is captured by
`tree_height f s p < f`. -/
theorem tree_height_wf {s : Store} {p h : Nat} {lo hi : Option TK}
    (hwf : WF lexCmp s p h lo hi) : ∀ f, tree_height f s p = min f h := by
  induction hwf with
  | leaf1 hp hpage _ _ =>
    intro f
    cases f with
    | zero => rfl
    | succ f =>
      simp only [tree_height, hpage]
      omega
  | leaf2 hp hpage _ _ _ _ _ =>
    intro f
    cases f with
    | zero => rfl
    | succ f =>
      simp only [tree_height, hpage]
      omega
  | internal2 hp hpage hc0 hlast hwf0 hwfl ih0 ihl =>
    intro f
    cases f with
    | zero => rfl
    | succ f =>
      simp only [tree_height, hpage, List.map_cons, List.map_nil,
        List.foldl_cons, List.foldl_nil]
      rw [ih0 f, ihl f]
      omega
  | internal3 hp hpage hc0 hc1 hlast hwf0 hwf1 hwfl ih0 ih1 ihl =>
    intro f
    cases f with
    | zero => rfl
    | succ f =>
      simp only [tree_height, hpage, List.map_cons, List.map_nil,
        List.foldl_cons, List.foldl_nil]
      rw [ih0 f, ih1 f, ihl f]
      omega

/-- `tree_insert` on a well-formed tree: the store only grows, the new root
is well-formed at the same height or one more (root split), and the
inserted key looks up to the inserted value afterwards. -/
theorem insert_wf {s : Store} {p h : Nat}
    (hwf : WF lexCmp s p h none none) :
    ∀ f t k v r g s', h < f →
      tree_insert lexCmp f s p t k v = (r, g, s') →
      Extends s s' ∧ ∃ h', h' ≤ h + 1 ∧ WF lexCmp s' r h' none none ∧
        ∀ f', h' < f' → lookup_finds f' s' r t k v := by
  intro f t k v r g s' hf heq
  unfold tree_insert at heq
  rcases hrec : tree_insert_helper lexCmp f s p t k v with ⟨p1, more, gd, s1⟩
  rw [hrec] at heq
  have hspec := insert_helper_spec hwf f t k v hf
    (by intro y hy; cases hy) (by intro y hy; cases hy) p1 more gd s1 hrec
  cases more with
  | none =>
    obtain ⟨hx1, hwfn, hpl⟩ := hspec
    simp only [Prod.mk.injEq] at heq
    obtain ⟨rfl, rfl, rfl⟩ := heq
    exact ⟨hx1, h, by omega, hwfn, hpl⟩
  | some skp =>
    obtain ⟨sk, p2⟩ := skp
    obtain ⟨hx1, hwfL, hwfR, hpll, hplr⟩ := hspec
    simp only [make_index, allocate, tk_eta, Prod.mk.injEq] at heq
    obtain ⟨rfl, rfl, rfl⟩ := heq
    refine ⟨hx1.trans ⟨_, rfl⟩, h + 1, by omega, ?_, ?_⟩
    · exact WF.internal2 size_lt_one get_page_new hwfL.lt_size hwfR.lt_size
        (hwfL.extends ⟨_, rfl⟩) (hwfR.extends ⟨_, rfl⟩)
    · cases hle : is_le (tk_cmp lexCmp ⟨t, k⟩ sk) with
      | true =>
        have hfind : [(p1, sk)].find? (fun pr =>
            is_le (cmp_keys lexCmp t k pr.2.tableId pr.2.key)) = some (p1, sk) :=
          List.find?_cons_of_pos _ hle
        exact lookup_finds_step_found get_page_new hfind
          (fun g' hg' => lookup_finds_extends ⟨_, rfl⟩ hwfL (hpll hle g' hg'))
      | false =>
        have hfind : [(p1, sk)].find? (fun pr =>
            is_le (cmp_keys lexCmp t k pr.2.tableId pr.2.key)) = none := by
          rw [List.find?_cons_of_neg _ (by simp [is_le_keys_of_tk hle]),
            List.find?_nil]
        exact lookup_finds_step_last get_page_new hfind
          (fun g' hg' => lookup_finds_extends ⟨_, rfl⟩ hwfR (hplr hle g' hg'))

/-- `tree_delete` (when it returns a root) on a well-formed tree: the store
only grows and the new root is well-formed at the same height or one less. -/
theorem delete_wf {s : Store} {p h : Nat}
    (hwf : WF lexCmp s p h none none) :
    ∀ f t k p' s', h < f →
      tree_delete lexCmp f s p t k = (some p', s') →
      Extends s s' ∧ ∃ h', h' ≤ h ∧ WF lexCmp s' p' h' none none := by
  intro f t k p' s' hf heq
  unfold tree_delete at heq
  rcases hrec : tree_delete_helper lexCmp f s p t k with ⟨r0, s1⟩
  rw [hrec] at heq
  have hspec := delete_helper_spec hwf f t k hf r0 s1 hrec
  cases r0 with
  | Subtree pn =>
    obtain ⟨hx1, hwfn⟩ := hspec
    simp only [Prod.mk.injEq, Option.some.injEq] at heq
    obtain ⟨rfl, rfl⟩ := heq
    exact ⟨hx1, h, Nat.le_refl h, hwfn⟩
  | PartialLeaf l =>
    simp at heq
  | PartialInternal ps =>
    obtain ⟨hx1, q, rfl, hh2, hwq⟩ := hspec
    simp only [List.getD_cons_zero, Prod.mk.injEq, Option.some.injEq] at heq
    obtain ⟨rfl, rfl⟩ := heq
    exact ⟨hx1, h - 1, by omega, hwq⟩

/-- Every reachable tree is well-formed. -/
theorem reach_wf {s : Store} {p : Nat} (hr : Reach lexCmp s p) :
    ∃ h, WF lexCmp s p h none none := by
  induction hr with
  | base s e =>
    exact ⟨1, .leaf1 size_lt_one get_page_new (by intro y hy; cases hy)
      (by intro y hy; cases hy)⟩
  | ins hr hht heq ih =>
    rename_i s p f table key value out
    obtain ⟨h, hwf⟩ := ih
    rw [tree_height_wf hwf f] at hht
    rcases out with ⟨r, g, s'⟩
    obtain ⟨_, h', _, hwf', _⟩ := insert_wf hwf f table key value r g s'
      (by omega) heq
    exact ⟨h', hwf'⟩
  | del hr hht heq ih =>
    obtain ⟨h, hwf⟩ := ih
    rename_i f table key p' s'
    rw [tree_height_wf hwf f] at hht
    obtain ⟨_, h', _, hwf'⟩ := delete_wf hwf f table key p' s' (by omega) heq
    exact ⟨h', hwf'⟩

/-! ## Claim C2: structural invariants of reachable trees -/

/-- Claim C2: every tree obtained from an initial single-leaf tree by any
sequence of `tree_insert` and `tree_delete` operations (each run with fuel
exceeding the tree height, as the source's fuel-free recursion provides) is
well-formed: all leaves at the same depth, every internal node with at least
2 and at most `BTREE_ORDER` = 3 children, every leaf with 1 or 2 entries
strictly ordered by `(table_id, key)`, and every subtree bounded by the
enclosing separators — `max(child k) ≤ separator k < min(child (k+1))` —
which is exactly what the `WF` predicate encodes. -/
theorem C2_structural_invariants {s : Store} {p : Nat}
    (hr : Reach lexCmp s p) : ∃ h, WF lexCmp s p h none none :=
  reach_wf hr

/-- Witness for C2 at a concrete input: the initial single-leaf tree. -/
theorem C2_structural_invariants_witness :
    ∃ h, WF lexCmp [Node.leaf ⟨0, [1], [1]⟩ none] 0 h none none :=
  C2_structural_invariants (Reach.base [] ⟨0, [1], [1]⟩)

/-! ## Claim C1: lookup after insert -/

/-- Claim C1: for every reachable (hence well-formed) tree, inserting
`(table, key, value)` with `tree_insert` and then looking the same
`(table, key)` up with `lookup_in_raw` at the returned root (with any
sufficient fuel, i.e. fuel exceeding the new tree's height) returns a page,
an offset and the value's length such that exactly those bytes of that
page's memory are the inserted value. -/
theorem C1_lookup_after_insert {s : Store} {p : Nat} (hr : Reach lexCmp s p)
    {f : Nat} (hf : tree_height f s p < f) (t : Nat) (k v : List Nat)
    {r : Nat} {g : Guard} {s' : Store}
    (heq : tree_insert lexCmp f s p t k v = (r, g, s')) :
    ∀ f', tree_height f' s' r < f' → lookup_finds f' s' r t k v := by
  obtain ⟨h, hwf⟩ := reach_wf hr
  rw [tree_height_wf hwf f] at hf
  obtain ⟨hx1, h', hle, hwf', hpl⟩ := insert_wf hwf f t k v r g s'
    (by omega) heq
  intro f' hf'
  rw [tree_height_wf hwf' f'] at hf'
  exact hpl f' (by omega)

/-- Witness for C1 at a concrete input: insert `(0, [2], [7])` into the
single-leaf tree holding `(0, [1], [1])` and look it up. -/
theorem C1_lookup_after_insert_witness :
    lookup_finds 2 [Node.leaf ⟨0, [1], [1]⟩ none,
      Node.leaf ⟨0, [1], [1]⟩ (some ⟨0, [2], [7]⟩)] 1 0 [2] [7] :=
  @C1_lookup_after_insert [Node.leaf ⟨0, [1], [1]⟩ none] 0
    (Reach.base [] ⟨0, [1], [1]⟩) 2 (by decide) 0 [2] [7] _ _ _ rfl 2
    (by decide)

/-! ## Claim C4: absent-key delete is structurally stable -/

/-- Claim C4: deleting a `(table, key)` that is nowhere in a reachable tree
returns the input root page number unchanged together with the unchanged
store: no page is modified or replaced. -/
theorem C4_absent_delete_stable {s : Store} {p : Nat} (hr : Reach lexCmp s p)
    {f : Nat} (hf : tree_height f s p < f) (table : Nat) (key : List Nat)
    (habs : contains_tk lexCmp f s p table key = false) :
    tree_delete lexCmp f s p table key = (some p, s) := by
  obtain ⟨h, hwf⟩ := reach_wf hr
  rw [tree_height_wf hwf f] at hf
  rw [tree_delete, delete_absent hwf f table key (by omega) habs]

/-- Witness for C4 at a concrete input: the single-leaf tree and an absent
key. -/
theorem C4_absent_delete_stable_witness :
    tree_delete lexCmp 2 [Node.leaf ⟨0, [1], [1]⟩ none] 0 0 [3] =
      (some 0, [Node.leaf ⟨0, [1], [1]⟩ none]) :=
  C4_absent_delete_stable (Reach.base [] ⟨0, [1], [1]⟩) (by decide) 0 [3]
    (by decide)

end Redb
